import Mathlib

/-!
# pfind / prmdir / plink : a verification development

Shallow embedding of the three utilities of the repository:

* `pfind.cc`  : the parallel lister (the `Node` tree, `walk`, the two
  depth-first emitters and the end of `main`);
* `prmdir.cc` : the parallel remover (`walk`, `deletetree`, `main`);
* `plink.cc`  : the parallel linker (the stdin loop of `main`, `chomp`).

Threads are modelled by interleaving: a state holds the shared variables
(`work`, `wip_cnt`, `rc`, ...) and one control state per worker thread; a
schedule is the list of worker numbers in the order in which they take their
next atomic step.  The operating system is a parameter: a record of functions
answering `opendir`/`readdir_r`, `lstat`, `unlink`, `rmdir`.
-/

namespace Pfind

/-! ## The system interface -/

/-- Value of `DT_UNKNOWN` in `<dirent.h>`. -/
def DT_UNKNOWN : Nat := 0

/-- Value of `DT_DIR` in `<dirent.h>`. -/
def DT_DIR : Nat := 4

/-- Value of `EACCES` in `<errno.h>`. -/
def EACCES : Nat := 13

/-- The two fields of `struct dirent` the programs read. -/
structure Dirent where
  d_name : String
  d_type : Nat
deriving DecidableEq, Repr

/-- What an open `DIR*` will deliver to successive `readdir_r` calls: the
entries `ents` in order, and then either end-of-directory (`err = none`) or a
failure with the given errno. -/
structure DirStream where
  ents : List Dirent
  err : Option Nat
deriving DecidableEq, Repr

/-- The filesystem as the lister sees it.  `opendir` answers with the errno on
failure; `lstat` answers with the errno on failure and with `S_ISDIR` of the
mode on success.  The functions are fixed: a directory always enumerates the
same entries in the same order. -/
structure FS where
  opendir : String → Except Nat DirStream
  lstat : String → Except Nat Bool

/-! ## The `Node` tree -/

/-- Class `Node`: a name, the `dir_p` flag and the list `l` of children. -/
inductive Node where
  | mk (name : String) (dir_p : Bool) (l : List Node)
deriving Repr

namespace Node

/-- Field `name`. -/
def name : Node → String
  | mk n _ _ => n

/-- Field `dir_p`. -/
def dir_p : Node → Bool
  | mk _ d _ => d

/-- Field `l`. -/
def l : Node → List Node
  | mk _ _ l => l

/-- Constructor `Node(string _name)`: the flag `dir_p` starts false. -/
def new (name : String) : Node := mk name false []

end Node

/-- A `Node*` into the tree under `dirtree`: the child positions to follow
from the root.  Nodes are only ever appended, so positions are stable. -/
abbrev NodePtr := List Nat

namespace Node

/-- Dereference a pointer. -/
def get? : Node → NodePtr → Option Node
  | n, [] => some n
  | mk _ _ l, k :: ks =>
    match l[k]? with
    | some c => c.get? ks
    | none => none

/-- Statement `p->l.push_back(c)` for the node `p` the pointer designates. -/
def push_back : Node → NodePtr → Node → Node
  | mk n d l, [], c => mk n d (l ++ [c])
  | mk n d l, k :: ks, c =>
    match l[k]? with
    | some x => mk n d (l.set k (x.push_back ks c))
    | none => mk n d l

/-- Statement `p->dir_p = true` for the node `p` the pointer designates. -/
def set_dir_p : Node → NodePtr → Node
  | mk n _ l, [] => mk n true l
  | mk n d l, k :: ks =>
    match l[k]? with
    | some x => mk n d (l.set k (x.set_dir_p ks))
    | none => mk n d l

end Node

/-! ## The emitters -/

mutual
/-- Function `files_depth_first(Node *n, string path)`; the result lists what
the successive `printf` calls write.  The statement `path += n->name + "/"`
leaves `path`, the name and a slash in `path`. -/
def files_depth_first (opt_0 : Char) : Node → String → List String
  | .mk name _ l, path => files_loop opt_0 l (path ++ name ++ "/")
/-- The `for` loop of `files_depth_first` over the children, `path` already
extended. -/
def files_loop (opt_0 : Char) : List Node → String → List String
  | [], _ => []
  | c :: cs, path =>
    (if c.dir_p then files_depth_first opt_0 c path
     else [path ++ c.name ++ String.singleton opt_0]) ++ files_loop opt_0 cs path
end

mutual
/-- Function `dirs_depth_first(Node *n, string path)`; the result lists what
the successive `printf` calls write. -/
def dirs_depth_first (opt_0 : Char) : Node → String → List String
  | .mk name _ l, path =>
    ((path ++ name) ++ String.singleton opt_0) :: dirs_loop opt_0 l ((path ++ name) ++ "/")
/-- The `for` loop of `dirs_depth_first` over the children; `path` is the
argument of the recursive calls. -/
def dirs_loop (opt_0 : Char) : List Node → String → List String
  | [], _ => []
  | c :: cs, path =>
    (if c.dir_p then dirs_depth_first opt_0 c path else []) ++ dirs_loop opt_0 cs path
end

/-! ## The lister's shared state and `walk` -/

/-- The option variables of `pfind.cc` that `walk` and the end of `main`
read.  `opt_0` is the record terminator written with `%c`. -/
structure Opts where
  opt_d : Nat
  opt_v : Nat
  opt_s : Nat
  opt_p : Nat
  opt_q : Nat
  opt_0 : Char
  opt_t : Nat

/-- A line on the diagnostic stream, by the `fprintf(stderr, ...)` that
writes it. -/
inductive Diag where
  | open_failed (dir_name : String) (errno : Nat)
  | read_failed (dir_name : String) (errno : Nat)
  | stat_failed (sub_path : String) (errno : Nat)
  | using_threads (n : Nat)
  | counters (spins stats : Nat)
deriving DecidableEq, Repr

/-- Where a worker thread stands in `walk`.
* `idle`: at the top of the outer loop, before `pthread_mutex_lock`, or
  asleep in `pthread_cond_wait`;
* `busy dir_name dir_node dir`: it has popped the item
  `(dir_name, dir_node)`; `dir` is what remains to be read from the open
  directory, `none` when `opendir` failed;
* `exited`: after `pthread_exit`. -/
inductive Worker where
  | idle
  | busy (dir_name : String) (dir_node : NodePtr) (dir : Option DirStream)
  | exited
deriving DecidableEq, Repr

/-- The globals of `pfind.cc`, the tree under `dirtree`, the diagnostic stream
and the control state of each thread. -/
structure State where
  tree : Node
  work : List (String × NodePtr)
  wip_cnt : Int
  stat_spins : Nat
  stat_stats : Nat
  rc : Nat
  diag : List Diag
  workers : List Worker

/-- One pass through the body of the `while(dir)` loop for the entry `d` that
`readdir_r` returned, in the thread that owns `(dir_name, dir_node)`. -/
def walk_entry (fs : FS) (o : Opts) (st : State) (dir_name : String) (dir_node : NodePtr)
    (d : Dirent) : State :=
  -- skip . and ..
  if d.d_name = "." ∨ d.d_name = ".." then st
  -- skip .snapshot unless requested with -t
  else if o.opt_t = 0 ∧ d.d_name = ".snapshot" then st
  else
    -- append this name to the dir contents
    let sub_node : NodePtr :=
      dir_node ++ [((st.tree.get? dir_node).map fun n => n.l.length).getD 0]
    let st1 := { st with tree := st.tree.push_back dir_node (Node.new d.d_name) }
    let sub_path := dir_name ++ "/" ++ d.d_name
    let type_known_p := decide (d.d_type ≠ DT_UNKNOWN)
    let dir_p := decide (d.d_type = DT_DIR)
    -- the tail of the body, once dir_p is settled
    let finish (s : State) (dir_p : Bool) : State :=
      if dir_p then
        { s with tree := s.tree.set_dir_p sub_node, work := s.work ++ [(sub_path, sub_node)] }
      else s
    if type_known_p = false ∨ o.opt_s ≠ 0 then
      let st2 := { st1 with stat_stats := st1.stat_stats + 1 }
      match fs.lstat sub_path with
      | .error e => { st2 with diag := st2.diag ++ [Diag.stat_failed sub_path e], rc := 1 }
      | .ok isdir => finish st2 (dir_p || isdir)
    else finish st1 dir_p

/-- Replace the control state of worker `w`. -/
def set_worker (st : State) (w : Nat) (x : Worker) : State :=
  { st with workers := st.workers.set w x }

/-- The next atomic step of worker `w`, `none` when the thread has exited (or
does not exist).
* `idle`, `work` empty, `wip_cnt = 0`: `pthread_exit`;
* `idle`, `work` empty, `wip_cnt ≠ 0`: one round of the wait loop;
* `idle`, `work` not empty: pop the front item, `wip_cnt++`, leave the
  critical section and call `opendir`;
* `busy` with an entry to read: one pass of the `while(dir)` loop;
* `busy` at the end of the directory, at a read failure or with no open
  directory: leave the loop, `closedir`, and the final critical section
  with `wip_cnt--`. -/
def walk_step (fs : FS) (o : Opts) (st : State) (w : Nat) : Option State :=
  match st.workers[w]? with
  | none => none
  | some .exited => none
  | some .idle =>
    match st.work with
    | [] =>
      if st.wip_cnt = 0 then some (set_worker st w .exited)
      else some { st with stat_spins := st.stat_spins + 1 }
    | (dir_name, dir_node) :: rest =>
      let st1 := { st with work := rest, wip_cnt := st.wip_cnt + 1 }
      match fs.opendir dir_name with
      | .error e =>
        -- suppress "permission denied" if -q was specified
        let st2 :=
          if o.opt_q = 0 ∨ e ≠ EACCES then
            { st1 with diag := st1.diag ++ [Diag.open_failed dir_name e] }
          else st1
        some (set_worker st2 w (.busy dir_name dir_node none))
      | .ok s => some (set_worker st1 w (.busy dir_name dir_node (some s)))
  | some (.busy dir_name dir_node (some ⟨d :: ds, err⟩)) =>
    some (set_worker (walk_entry fs o st dir_name dir_node d) w
      (.busy dir_name dir_node (some ⟨ds, err⟩)))
  | some (.busy dir_name _ (some ⟨[], some e⟩)) =>
    let st1 := { st with diag := st.diag ++ [Diag.read_failed dir_name e], rc := 1 }
    some (set_worker { st1 with wip_cnt := st1.wip_cnt - 1 } w .idle)
  | some (.busy _ _ (some ⟨[], none⟩)) =>
    some (set_worker { st with wip_cnt := st.wip_cnt - 1 } w .idle)
  | some (.busy _ _ none) =>
    some (set_worker { st with wip_cnt := st.wip_cnt - 1 } w .idle)

/-- Let worker `w` take its next step; a thread that has exited does
nothing. -/
def step_or_stay (fs : FS) (o : Opts) (st : State) (w : Nat) : State :=
  (walk_step fs o st w).getD st

/-- Run the threads under a schedule: the worker numbers in the order in which
they take their steps. -/
def exec (fs : FS) (o : Opts) : State → List Nat → State
  | st, [] => st
  | st, w :: ws => exec fs o (step_or_stay fs o st w) ws

/-- The state `main` sets up before the threads run: `dirtree = new
Node(root)`, `work = [(root, dirtree)]`, the counters zero, `nthr` threads
started. -/
def init_state (root : String) (nthr : Nat) (diag : List Diag) : State :=
  { tree := Node.new root
    work := [(root, [])]
    wip_cnt := 0
    stat_spins := 0
    stat_stats := 0
    rc := 0
    diag := diag
    workers := List.replicate nthr Worker.idle }

/-- Every `pthread_join` of `main` returns: all threads have exited. -/
def all_exited (st : State) : Bool :=
  st.workers.all fun x => decide (x = Worker.exited)

/-- What a run of the process leaves behind: standard output (one element per
`printf`), the diagnostic stream and the exit code. -/
structure Outcome where
  out : List String
  diag : List Diag
  code : Nat
deriving DecidableEq, Repr

/-- The emitter `main` selects with `opt_d`. -/
def emit (o : Opts) (dirtree : Node) : List String :=
  if o.opt_d ≠ 0 then dirs_depth_first o.opt_0 dirtree ""
  else files_depth_first o.opt_0 dirtree ""

/-- Function `main` of `pfind.cc` from the end of option processing on, for
the one directory argument `root`.  `nthr` is the number of threads that
`pthread_create` started (at most `opt_p`), `sched` the interleaving of the
threads.  The result is `none` when the schedule ends before every thread
has exited: the joins have not returned. -/
def lister_main (fs : FS) (o : Opts) (root : String) (nthr : Nat) (sched : List Nat) :
    Option Outcome :=
  let diag0 := if o.opt_v ≠ 0 then [Diag.using_threads o.opt_p] else []
  if nthr = 0 then some { out := [], diag := diag0, code := 1 }
  else
    let st := exec fs o (init_state root nthr diag0) sched
    if all_exited st then
      some { out := emit o st.tree
             diag := st.diag ++
               (if o.opt_v ≠ 0 then [Diag.counters st.stat_spins st.stat_stats] else [])
             code := st.rc }
    else none

/-! ## Reading the tree by position -/

/-- What the walk's bookkeeping needs to know of a node: the path under which
the emitters print it, its flag and the names and flags of its children. -/
structure View where
  path : String
  dir_p : Bool
  kids : List (String × Bool)
deriving DecidableEq, Repr

namespace Node

/-- Names and flags of the children, in stored order. -/
def kids (t : Node) : List (String × Bool) :=
  t.l.map fun c => (c.name, c.dir_p)

/-- The view of the node a pointer designates; `pre` is the text the emitters
have accumulated above `t`. -/
def view (pre : String) : Node → NodePtr → Option View
  | t, [] => some ⟨pre ++ t.name, t.dir_p, t.kids⟩
  | mk n _ l, k :: ks =>
    match l[k]? with
    | some c => c.view (pre ++ n ++ "/") ks
    | none => none

end Node

/-! ## Bookkeeping of the walk -/

/-- The child (name and final flag) that one pass of the `while(dir)` loop
appends for the entry `d`, if any. -/
def entry_kid (fs : FS) (o : Opts) (dir_name : String) (d : Dirent) : Option (String × Bool) :=
  if d.d_name = "." ∨ d.d_name = ".." then none
  else if o.opt_t = 0 ∧ d.d_name = ".snapshot" then none
  else if d.d_type = DT_UNKNOWN ∨ o.opt_s ≠ 0 then
    match fs.lstat (dir_name ++ "/" ++ d.d_name) with
    | .error _ => some (d.d_name, false)
    | .ok isdir => some (d.d_name, decide (d.d_type = DT_DIR) || isdir)
  else some (d.d_name, decide (d.d_type = DT_DIR))

/-- The work item one pass of the loop pushes, if any. -/
def entry_push (fs : FS) (o : Opts) (dir_name : String) (sub_node : NodePtr) (d : Dirent) :
    List (String × NodePtr) :=
  match entry_kid fs o dir_name d with
  | some (n, true) => [(dir_name ++ "/" ++ n, sub_node)]
  | _ => []

/-- The node a thread is filling in, if it holds one. -/
def busy_ptr : Worker → Option NodePtr
  | .busy _ a _ => some a
  | _ => none

/-- The nodes of the threads that hold one. -/
def busy_ptrs (workers : List Worker) : List NodePtr :=
  workers.filterMap busy_ptr

/-- The nodes still to be filled in: those on the worklist and those a thread
holds. -/
def owners (work : List (String × NodePtr)) (workers : List Worker) : List NodePtr :=
  work.map Prod.snd ++ busy_ptrs workers

/-- A directory that has been read to the end (or to a failure, or that could
not be opened) has exactly the children its entries contribute. -/
def Done (fs : FS) (o : Opts) (v : View) : Prop :=
  match fs.opendir v.path with
  | .error _ => v.kids = []
  | .ok s => v.kids = s.ents.filterMap (entry_kid fs o v.path)

/-- A directory a thread holds has the children of the entries read so
far. -/
def Progress (fs : FS) (o : Opts) (p : String) (dir : Option DirStream)
    (kids : List (String × Bool)) : Prop :=
  match dir with
  | none => (∃ e, fs.opendir p = .error e) ∧ kids = []
  | some rem => ∃ s consumed, fs.opendir p = .ok s ∧ s.ents = consumed ++ rem.ents ∧
      kids = consumed.filterMap (entry_kid fs o p)

/-- The bookkeeping invariant of the walk. -/
structure Inv (fs : FS) (o : Opts) (tree : Node) (work : List (String × NodePtr))
    (workers : List Worker) : Prop where
  work_ok : ∀ p a, (p, a) ∈ work → ∃ v, tree.view "" a = some v ∧ v.path = p ∧
    v.kids = [] ∧ (a = [] ∨ v.dir_p = true)
  busy_ok : ∀ (w : Nat) (p : String) (a : NodePtr) (dir : Option DirStream),
    workers[w]? = some (Worker.busy p a dir) → ∃ v, tree.view "" a = some v ∧
      v.path = p ∧ (a = [] ∨ v.dir_p = true) ∧ Progress fs o p dir v.kids
  nodup : (owners work workers).Nodup
  done_ok : ∀ b v, tree.view "" b = some v → (b = [] ∨ v.dir_p = true) →
    b ∉ owners work workers → Done fs o v
  leaf_ok : ∀ b v, tree.view "" b = some v → b ≠ [] → v.dir_p = false → v.kids = []

/-- The invariant of the walk on whole states: the bookkeeping of the tree,
`wip_cnt` counts the threads that hold an item, and a thread has exited only
if the worklist is empty and nobody holds an item. -/
structure SInv (fs : FS) (o : Opts) (st : State) : Prop where
  inv : Inv fs o st.tree st.work st.workers
  wip : st.wip_cnt = ((busy_ptrs st.workers).length : Int)
  exit_ok : Worker.exited ∈ st.workers → st.work = [] ∧ st.wip_cnt = 0

/-- Every directory of the tree has been read to the end and every other node
is a leaf.  The node `t` itself counts as a directory when `asdir` is set (the
root, whose flag `main` never sets). -/
def Settled (fs : FS) (o : Opts) (pre : String) (asdir : Bool) (t : Node) : Prop :=
  ∀ b v, t.view pre b = some v →
    (((b = [] ∧ asdir = true) ∨ v.dir_p = true) → Done fs o v) ∧
    (¬ ((b = [] ∧ asdir = true) ∨ v.dir_p = true) → v.kids = [])

/-! ## Specification vocabulary for the emitters -/

/-- The path under which the emitters print the node a pointer designates:
the names from the root down, joined by `/` (empty for a dangling pointer). -/
def Node.path_at (t : Node) (b : NodePtr) : String :=
  ((t.view "" b).map fun v => v.path).getD ""

/-- The pointer leads from the root through directories only: every node on
the way below the root, the designated one included, has `dir_p` set. -/
def Node.dir_chain : Node → NodePtr → Bool
  | _, [] => true
  | .mk _ _ l, k :: ks =>
    match l[k]? with
    | some c => c.dir_p && c.dir_chain ks
    | none => false

/-- Depth-first pre-order with the children in stored order, on pointers: the
lexicographic order of the child positions, a node before its descendants. -/
def PreOrder (ptrs : List NodePtr) : Prop :=
  ptrs.Pairwise (List.Lex (· < ·))

mutual
/-- The nodes `dirs_depth_first` visits, as pointers, in the order of the
visit. -/
def dir_ptrs : Node → List NodePtr
  | .mk _ _ l => [] :: dir_ptrs_list l 0
/-- The nodes visited under the children `l`, the first of which sits at
position `k`. -/
def dir_ptrs_list : List Node → Nat → List NodePtr
  | [], _ => []
  | c :: cs, k =>
    (if c.dir_p then (dir_ptrs c).map (fun b => k :: b) else []) ++ dir_ptrs_list cs (k + 1)
end

/-- The tree `walk` builds for the directory `r/{a, b/c, b/d/, e/}`: file `a`,
directory `b` with file `c` and directory `d`, directory `e`.  The root keeps
the flag the constructor gave it. -/
def example_tree : Node :=
  .mk "r" false
    [.mk "a" false [], .mk "b" true [.mk "c" false [], .mk "d" true []], .mk "e" true []]

/-! ## Directory trees and the filesystems that hold them -/

/-- An entry of a directory tree: a non-directory, or a directory with its
entries in enumeration order. -/
inductive FsTree where
  | file (name : String)
  | dir (name : String) (kids : List FsTree)
deriving Repr

/-- The name of an entry. -/
def FsTree.name : FsTree → String
  | .file n => n
  | .dir n _ => n

/-- Whether an entry is a directory. -/
def FsTree.is_dir : FsTree → Bool
  | .file _ => false
  | .dir _ _ => true

mutual
/-- The non-directory entries at or under an entry, each as the chain of names
leading to it, in depth-first order. -/
def FsTree.leaves : FsTree → List (List String)
  | .file n => [[n]]
  | .dir n kids => (leaves_list kids).map fun ns => n :: ns
/-- The non-directory entries under a list of entries. -/
def leaves_list : List FsTree → List (List String)
  | [] => []
  | k :: ks => k.leaves ++ leaves_list ks
end

mutual
/-- Every entry name at or under an entry satisfies `P`. -/
def FsTree.all_names (P : String → Prop) : FsTree → Prop
  | .file n => P n
  | .dir n kids => P n ∧ all_names_list P kids
/-- Every entry name in a list of entries and under them satisfies `P`. -/
def all_names_list (P : String → Prop) : List FsTree → Prop
  | [] => True
  | k :: ks => k.all_names P ∧ all_names_list P ks
end

/-- A starting path followed by the names of a chain, each after a `/`. -/
def join_path (root : String) (names : List String) : String :=
  names.foldl (fun acc n => acc ++ "/" ++ n) root

/-- The entries of a directory stream other than `.` and `..`. -/
def real_entries (ents : List Dirent) : List Dirent :=
  ents.filter fun d => decide (d.d_name ≠ "." ∧ d.d_name ≠ "..")

mutual
/-- The filesystem shows the entry `k` in the directory `path` as the dirent
`d`: same name, a kind hint that is absent or right, a metadata call that
succeeds with the right kind (no symlink is followed: the call is `lstat`),
and for a directory a listing that opens, reads to the end without failure
and shows exactly its entries. -/
def rep_entry (fs : FS) (path : String) : FsTree → Dirent → Prop
  | .file n, d =>
    d.d_name = n ∧ d.d_type ≠ DT_DIR ∧ fs.lstat (path ++ "/" ++ n) = .ok false
  | .dir n kids, d =>
    d.d_name = n ∧ (d.d_type = DT_DIR ∨ d.d_type = DT_UNKNOWN) ∧
    fs.lstat (path ++ "/" ++ n) = .ok true ∧
    ∃ s, fs.opendir (path ++ "/" ++ n) = .ok s ∧ s.err = none ∧
      rep_list fs (path ++ "/" ++ n) kids (real_entries s.ents)
/-- The filesystem shows the entries `kids`, in order, as the dirents `ds`. -/
def rep_list (fs : FS) (path : String) : List FsTree → List Dirent → Prop
  | [], [] => True
  | k :: ks, d :: ds => rep_entry fs path k d ∧ rep_list fs path ks ds
  | [], _ :: _ => False
  | _ :: _, [] => False
end

/-- The directory at `root` holds exactly the tree with the top-level entries
`kids`, and every open, read and metadata call under it succeeds. -/
def rep_root (fs : FS) (root : String) (kids : List FsTree) : Prop :=
  ∃ s, fs.opendir root = .ok s ∧ s.err = none ∧ rep_list fs root kids (real_entries s.ents)

mutual
/-- The `Node` the walk builds for an entry. -/
def node_of : FsTree → Node
  | .file n => .mk n false []
  | .dir n kids => .mk n true (nodes_of kids)
/-- The nodes the walk builds for a list of entries. -/
def nodes_of : List FsTree → List Node
  | [] => []
  | k :: ks => node_of k :: nodes_of ks
end

/-- Value of `DT_REG` in `<dirent.h>`. -/
def DT_REG : Nat := 8

/-- Value of `ENOENT` in `<errno.h>`. -/
def ENOENT : Nat := 2

/-- The tree `r/{a, b/c, b/d/, e/}` of the scenarios. -/
def example_T : List FsTree :=
  [.file "a", .dir "b" [.file "c", .dir "d" []], .dir "e" []]

/-- A filesystem holding `example_T` at `r`; the hints of `c` and `e` are
missing. -/
def example_fs : FS where
  opendir p :=
    if p = "r" then
      .ok ⟨[⟨".", DT_DIR⟩, ⟨"..", DT_DIR⟩, ⟨"a", DT_REG⟩, ⟨"b", DT_DIR⟩, ⟨"e", DT_UNKNOWN⟩], none⟩
    else if p = "r/b" then
      .ok ⟨[⟨".", DT_DIR⟩, ⟨"..", DT_DIR⟩, ⟨"c", DT_UNKNOWN⟩, ⟨"d", DT_DIR⟩], none⟩
    else if p = "r/b/d" then .ok ⟨[⟨".", DT_DIR⟩, ⟨"..", DT_DIR⟩], none⟩
    else if p = "r/e" then .ok ⟨[⟨".", DT_DIR⟩, ⟨"..", DT_DIR⟩], none⟩
    else .error ENOENT
  lstat p :=
    if p = "r/a" ∨ p = "r/b/c" then .ok false
    else if p = "r" ∨ p = "r/b" ∨ p = "r/b/d" ∨ p = "r/e" then .ok true
    else .error ENOENT

/-- The default options of `main`: 30 threads, newline terminator, no flag. -/
def default_opts : Opts :=
  { opt_d := 0, opt_v := 0, opt_s := 0, opt_p := 30, opt_q := 0, opt_0 := '\n', opt_t := 0 }

mutual
/-- Number of entries at or under an entry. -/
def FsTree.size : FsTree → Nat
  | .file _ => 1
  | .dir _ kids => 1 + size_list kids
/-- Number of entries in a list of entries and under them. -/
def size_list : List FsTree → Nat
  | [] => 0
  | k :: ks => k.size + size_list ks
end

/-- Work that remains when the directories on the worklist hold the trees
`ghost`: one unit per directory and per entry. -/
def remaining (ghost : List (List FsTree)) : Nat :=
  (ghost.map fun kids => size_list kids + 1).sum

/-- The thread holds a work item: it has popped one and has not yet passed
the final critical section. -/
def Worker.is_busy : Worker → Bool
  | .busy _ _ _ => true
  | _ => false

/-- The tree `r/{.snapshot/x}`: a directory named `.snapshot` holding the file
`x`. -/
def snapshot_T : List FsTree :=
  [.dir ".snapshot" [.file "x"]]

/-- A filesystem holding `snapshot_T` at `r`. -/
def snapshot_fs : FS where
  opendir p :=
    if p = "r" then .ok ⟨[⟨".", DT_DIR⟩, ⟨"..", DT_DIR⟩, ⟨".snapshot", DT_DIR⟩], none⟩
    else if p = "r/.snapshot" then .ok ⟨[⟨".", DT_DIR⟩, ⟨"..", DT_DIR⟩, ⟨"x", DT_REG⟩], none⟩
    else .error ENOENT
  lstat p :=
    if p = "r/.snapshot/x" then .ok false
    else if p = "r" ∨ p = "r/.snapshot" then .ok true
    else .error ENOENT

/-- A schedule of two threads that completes the walk of `example_fs`. -/
def example_sched2 : List Nat :=
  [0, 1, 0, 1, 0, 1, 1, 0, 0, 0, 0, 0, 0, 0, 1, 1, 1, 0, 1, 0, 1, 0, 1, 0, 1, 0, 0, 0, 0,
   1, 1, 1, 1, 1, 1, 0, 1]

/-- The diagnostics that report a traversal error: a failed directory open, a
failed directory read or a failed metadata call. -/
def Diag.is_traversal_error : Diag → Bool
  | .open_failed _ _ => true
  | .read_failed _ _ => true
  | .stat_failed _ _ => true
  | _ => false

/-- The diagnostics that report a failed directory read or a failed metadata
call. -/
def Diag.is_read_or_stat_error : Diag → Bool
  | .read_failed _ _ => true
  | .stat_failed _ _ => true
  | _ => false

/-- A filesystem in which nothing exists. -/
def missing_fs : FS where
  opendir _ := .error ENOENT
  lstat _ := .error ENOENT

/-- A filesystem whose directory `r` holds one entry `a` of unknown kind on
which `lstat` fails. -/
def statfail_fs : FS where
  opendir p := if p = "r" then .ok ⟨[⟨"a", DT_UNKNOWN⟩], none⟩ else .error ENOENT
  lstat _ := .error EACCES

mutual
/-- The name of the node and of every node under it satisfies `P`. -/
def Node.all_names (P : String → Prop) : Node → Prop
  | .mk n _ l => P n ∧ all_node_names P l
/-- The names of the nodes of a list and under them satisfy `P`. -/
def all_node_names (P : String → Prop) : List Node → Prop
  | [] => True
  | c :: cs => c.all_names P ∧ all_node_names P cs
end

/-- Split a text at every `/`. -/
def split_slash : List Char → List (List Char)
  | [] => [[]]
  | c :: cs =>
    if c = '/' then [] :: split_slash cs
    else
      match split_slash cs with
      | [] => [[c]]
      | h :: t => (c :: h) :: t

/-- The `/`-separated components of a path. -/
def components (s : String) : List String :=
  (split_slash s.data).map String.mk

/-- The names `walk` can give a node under `fs` and `o`: the name of an entry
some directory of `fs` enumerates, other than `.` and `..`, and other than
`.snapshot` when `-t` is not given. -/
def walk_name (fs : FS) (o : Opts) (n : String) : Prop :=
  (n ≠ "." ∧ n ≠ ".." ∧ (o.opt_t = 0 → n ≠ ".snapshot")) ∧
  ∃ p s d, fs.opendir p = .ok s ∧ d ∈ s.ents ∧ d.d_name = n

/-- A filesystem in which the directory `.snapshot` holds the file `a`. -/
def snaproot_fs : FS where
  opendir p :=
    if p = ".snapshot" then .ok ⟨[⟨".", DT_DIR⟩, ⟨"..", DT_DIR⟩, ⟨"a", DT_REG⟩], none⟩
    else .error ENOENT
  lstat p := if p = ".snapshot/a" then .ok false else .error ENOENT

mutual
/-- The shape `walk` gives a subtree: a node whose `dir_p` flag is unset has
no children, here and below. -/
def Node.well_shaped : Node → Bool
  | .mk _ d l => (d || l.isEmpty) && well_shaped_list l
/-- Every node of the list is well shaped. -/
def well_shaped_list : List Node → Bool
  | [] => true
  | c :: cs => c.well_shaped && well_shaped_list cs
end

/-- A filesystem whose directory `r` holds one directory `s` that cannot be
opened: permission denied. -/
def denied_fs : FS where
  opendir p := if p = "r" then .ok ⟨[⟨"s", DT_DIR⟩], none⟩ else .error EACCES
  lstat _ := .ok true

/-- The default options with `-q`. -/
def quiet_opts : Opts := { default_opts with opt_q := 1 }

/-- What the failure branch of `opendir` in `walk` prints for `dir_name` and
`errno`: the report, unless `-q` was given and the error is `EACCES`. -/
def open_report (o : Opts) (dir_name : String) (errno : Nat) : List Diag :=
  if o.opt_q = 0 ∨ errno ≠ EACCES then [Diag.open_failed dir_name errno] else []

/-- The states of a walk whose starting directory cannot be opened: the root
item is still queued and nothing has been reported, or it has been popped,
the failure has been reported as `rep` and the queue is empty. -/
def RootFailed (root : String) (diag0 rep : List Diag) (st : State) : Prop :=
  st.rc = 0 ∧ st.tree = Node.new root ∧
  ((st.work = [(root, [])] ∧ st.diag = diag0 ∧
      ∀ x ∈ st.workers, x = Worker.idle ∨ x = Worker.exited) ∨
   (st.work = [] ∧ st.diag = diag0 ++ rep ∧
      ∀ x ∈ st.workers, x = Worker.idle ∨ x = Worker.exited ∨ x = Worker.busy root [] none))

/-! ## The remover (`prmdir.cc`) -/

namespace Remover

/-- Constant `MAXPARALLEL` of `prmdir.cc`: the fixed number of threads. -/
def MAXPARALLEL : Nat := 100

/-- The system calls of the remover, each answering from the filesystem state
`σ`; `unlink` and `rmdir` also change it.  A failure carries the errno. -/
structure OS (σ : Type) where
  opendir : σ → String → Except Nat DirStream
  lstat : σ → String → Except Nat Bool
  unlink : σ → String → Except Nat Unit × σ
  rmdir : σ → String → Except Nat Unit × σ

/-- A system call with its path argument, as recorded in the trace. -/
inductive Call where
  | opendir (path : String)
  | lstat (path : String)
  | unlink (path : String)
  | rmdir (path : String)
deriving DecidableEq, Repr

/-- A line on the diagnostic stream, by the `fprintf(stderr, ...)` that
writes it. -/
inductive Diag where
  | usage (prog : String)
  | opendir_failed (e : String) (errno : Nat)
  | readdir_failed (errno : Nat)
  | stat_failed (fpath : String) (errno : Nat)
  | unlink_failed (fpath : String) (errno : Nat)
  | rmdir_failed (e : String) (errno : Nat)
deriving DecidableEq, Repr

/-- Where a worker thread stands in `walk`: `idle` at the top of the outer
loop, `busy e dir` with the popped item `e` and what remains to be read of its
directory (`none` after `goto bomb`), `exited` after `pthread_exit`. -/
inductive Worker where
  | idle
  | busy (e : String) (dir : Option DirStream)
  | exited
deriving DecidableEq, Repr

/-- The globals of `prmdir.cc` (`files` is never written and stays empty),
the filesystem, the trace of system calls, the diagnostic stream and the
control state of each thread. -/
structure State (σ : Type) where
  fs : σ
  work : List String
  wip_cnt : Int
  rc : Int
  trace : List Call
  diag : List Diag
  workers : List Worker

/-- One pass through the body of the inner `while(1)` loop of `walk` for the
entry `d` that `readdir_r` returned, in the thread that popped `e`. -/
def walk_entry {σ : Type} (os : OS σ) (st : State σ) (e : String) (d : Dirent) : State σ :=
  if d.d_name = "." ∨ d.d_name = ".." then st
  else
    let fpath := e ++ "/" ++ d.d_name
    -- readdir() doesn't always define the file type, and you have to use stat()
    let (st1, d_type) :=
      if d.d_type = DT_UNKNOWN then
        let st0 := { st with trace := st.trace ++ [Call.lstat fpath] }
        match os.lstat st.fs fpath with
        | .error en =>
          -- treat this un-stat-able thing as a file
          ({ st0 with diag := st0.diag ++ [Diag.stat_failed fpath en] }, d.d_type)
        | .ok isdir => (st0, if isdir then DT_DIR else d.d_type)
      else (st, d.d_type)
    if d_type = DT_DIR then
      { st1 with work := st1.work ++ [fpath] }
    else
      -- `int rc = unlink(...)` declares a local `rc`: the `rc=1` of the
      -- failure branch assigns that local, the global `rc` is not written
      let st2 := { st1 with trace := st1.trace ++ [Call.unlink fpath] }
      match os.unlink st1.fs fpath with
      | (.error en, fs') => { st2 with fs := fs', diag := st2.diag ++ [Diag.unlink_failed fpath en] }
      | (.ok _, fs') => { st2 with fs := fs' }

/-- Replace the control state of worker `w`. -/
def set_worker {σ : Type} (st : State σ) (w : Nat) (x : Worker) : State σ :=
  { st with workers := st.workers.set w x }

/-- The next atomic step of worker `w` in `walk`, `none` when the thread has
exited (or does not exist); the steps are those of the lister, except that a
failed `opendir` sets `rc` and jumps to `bomb`. -/
def walk_step {σ : Type} (os : OS σ) (st : State σ) (w : Nat) : Option (State σ) :=
  match st.workers[w]? with
  | none => none
  | some .exited => none
  | some .idle =>
    match st.work with
    | [] =>
      if st.wip_cnt = 0 then some (set_worker st w .exited)
      else some st
    | e :: rest =>
      let st1 := { st with work := rest, wip_cnt := st.wip_cnt + 1,
                           trace := st.trace ++ [Call.opendir e] }
      match os.opendir st.fs e with
      | .error en =>
        some (set_worker { st1 with diag := st1.diag ++ [Diag.opendir_failed e en], rc := 1 } w
          (.busy e none))
      | .ok s => some (set_worker st1 w (.busy e (some s)))
  | some (.busy e (some ⟨d :: ds, err⟩)) =>
    some (set_worker (walk_entry os st e d) w (.busy e (some ⟨ds, err⟩)))
  | some (.busy _ (some ⟨[], some en⟩)) =>
    let st1 := { st with diag := st.diag ++ [Diag.readdir_failed en], rc := 1 }
    some (set_worker { st1 with wip_cnt := st1.wip_cnt - 1 } w .idle)
  | some (.busy _ (some ⟨[], none⟩)) =>
    some (set_worker { st with wip_cnt := st.wip_cnt - 1 } w .idle)
  | some (.busy _ none) =>
    some (set_worker { st with wip_cnt := st.wip_cnt - 1 } w .idle)

/-- Let worker `w` take its next step; a thread that has exited does
nothing. -/
def step_or_stay {σ : Type} (os : OS σ) (st : State σ) (w : Nat) : State σ :=
  (walk_step os st w).getD st

/-- Run the threads under a schedule. -/
def exec {σ : Type} (os : OS σ) : State σ → List Nat → State σ
  | st, [] => st
  | st, w :: ws => exec os (step_or_stay os st w) ws

/-- Every `pthread_join` of `main` returns. -/
def all_exited {σ : Type} (st : State σ) : Bool :=
  st.workers.all fun x => decide (x = Worker.exited)

/-- The state `main` sets up: `work = [root]`, the counters zero, `nthr`
threads. -/
def init_state {σ : Type} (fs : σ) (root : String) (nthr : Nat) : State σ :=
  { fs := fs
    work := [root]
    wip_cnt := 0
    rc := 0
    trace := []
    diag := []
    workers := List.replicate nthr Worker.idle }

/-- Function `deletetree(string e)`.  The recursion follows the directory
tree, which a filesystem need not bound: `fuel` bounds the depth, and the
result is `none` when it runs out. -/
def deletetree {σ : Type} (os : OS σ) : Nat → String → State σ → Option (State σ)
  | 0, _, _ => none
  | fuel + 1, e, st =>
    let st1 := { st with trace := st.trace ++ [Call.opendir e] }
    match os.opendir st.fs e with
    | .error en => some { st1 with diag := st1.diag ++ [Diag.opendir_failed e en] }
    | .ok s =>
      let after := s.ents.foldlM (fun (acc : State σ) (d : Dirent) =>
        if d.d_name = "." ∨ d.d_name = ".." then some acc
        else if d.d_type = DT_DIR then deletetree os fuel (e ++ "/" ++ d.d_name) acc
        else some acc) st1
      after.map fun st2 =>
        -- `int rc = rmdir(...)`: again a local `rc`
        let st3 := { st2 with trace := st2.trace ++ [Call.rmdir e] }
        match os.rmdir st2.fs e with
        | (.error en, fs') => { st3 with fs := fs', diag := st3.diag ++ [Diag.rmdir_failed e en] }
        | (.ok _, fs') => { st3 with fs := fs' }

/-- What a run of the remover leaves behind: the exit code, the diagnostic
stream, the system calls made and the filesystem. -/
structure Outcome (σ : Type) where
  code : Int
  diag : List Diag
  trace : List Call
  fs : σ

/-- Function `main` of `prmdir.cc` on the argument vector `argv` (`argc` is
its length).  `sched` is the interleaving of the `MAXPARALLEL` threads and
`fuel` bounds the depth of `deletetree`; the result is `none` when the
schedule ends before every thread has exited or the fuel runs out. -/
def main {σ : Type} (os : OS σ) (fs : σ) (argv : List String) (sched : List Nat) (fuel : Nat) :
    Option (Outcome σ) :=
  -- be paranoid, this command can cause a lot of destruction...quickly
  if argv.length < 3 ∨ argv[1]? ≠ some "-rfp" then
    some { code := 1, diag := [Diag.usage (argv.headD "")], trace := [], fs := fs }
  else
    let root := argv.getD 2 ""
    let st := exec os (init_state fs root MAXPARALLEL) sched
    if all_exited st then
      let fin := if st.rc = 0 then deletetree os fuel root st else some st
      fin.map fun s => { code := s.rc, diag := s.diag, trace := s.trace, fs := s.fs }
    else none

end Remover

/-- The remover thread holds a work item. -/
def Remover.Worker.is_busy : Remover.Worker → Bool
  | .busy _ _ => true
  | _ => false

/-- Value of `ENOTEMPTY` in `<errno.h>`. -/
def ENOTEMPTY : Nat := 39

/-- A system in which the directory `r` holds the file `a`, every `unlink`
fails with `EACCES` and every `rmdir` with `ENOTEMPTY`; the filesystem never
changes. -/
def Remover.readonly_os : Remover.OS Unit where
  opendir _ p :=
    if p = "r" then .ok ⟨[⟨".", DT_DIR⟩, ⟨"..", DT_DIR⟩, ⟨"a", DT_REG⟩], none⟩
    else .error ENOENT
  lstat _ p := if p = "r/a" then .ok false else if p = "r" then .ok true else .error ENOENT
  unlink _ _ := (.error EACCES, ())
  rmdir _ _ := (.error ENOTEMPTY, ())

/-- A schedule of the remover: thread 0 takes five steps, then every thread
takes one. -/
def Remover.example_sched : List Nat :=
  List.replicate 5 0 ++ List.range 100

/-- A system in which `lstat` always fails with `EACCES` and `unlink`
succeeds. -/
def Remover.unstatable_os : Remover.OS Unit where
  opendir _ _ := .error ENOENT
  lstat _ _ := .error EACCES
  unlink _ _ := (.ok (), ())
  rmdir _ _ := (.ok (), ())

/-- The diagnostic is the usage message. -/
def Remover.Diag.is_usage : Remover.Diag → Bool
  | .usage _ => true
  | _ => false

namespace Remover

/-- What a piece of the remover may do to the trace and the diagnostics: it
only appends, and never the usage message. -/
def Extends {σ : Type} (st st' : State σ) : Prop :=
  (∃ t, st'.trace = st.trace ++ t) ∧ (∀ d ∈ st'.diag, d ∈ st.diag ∨ d.is_usage = false)

/-- Before the first pop nothing has been traced and all threads are idle;
from the first pop on the trace starts with the `opendir` of the root. -/
def Started {σ : Type} (root : String) (st : State σ) : Prop :=
  (st.trace = [] ∧ st.work = [root] ∧ ∀ x ∈ st.workers, x = Worker.idle) ∨
  st.trace.head? = some (Call.opendir root)

end Remover

/-- The state of the process while `main` waits in `pthread_join`, after the
threads have taken the steps of `sched`: `none` when `main` left at the usage
guard, where no thread was created. -/
def Remover.threads_state {σ : Type} (os : Remover.OS σ) (fs : σ) (argv : List String)
    (sched : List Nat) : Option (Remover.State σ) :=
  if argv.length < 3 ∨ argv[1]? ≠ some "-rfp" then none
  else some (Remover.exec os (Remover.init_state fs (argv.getD 2 "") MAXPARALLEL) sched)

/-- What `main` does once the joins have returned: `deletetree` if `rc` is
still 0, and `return rc`. -/
def Remover.main_finish {σ : Type} (os : Remover.OS σ) (fuel : Nat) (root : String)
    (st : Remover.State σ) : Option (Remover.Outcome σ) :=
  if Remover.all_exited st then
    let fin := if st.rc = 0 then Remover.deletetree os fuel root st else some st
    fin.map fun s => { code := s.rc, diag := s.diag, trace := s.trace, fs := s.fs }
  else none

/-! ## The linker's input loop (`plink.cc`) -/

namespace Linker

/-- Size of the line buffer `char buf[2000]` of `main`. -/
def BUFSIZE : Nat := 2000

/-- The newline byte. -/
def NL : Nat := 10

/-- The bytes `fgets` stores when it may still store `k` bytes, and the input
it leaves: it stops after a newline, at the end of the input or when `k`
bytes are stored. -/
def fgets_take : Nat → List Nat → List Nat × List Nat
  | 0, input => ([], input)
  | _ + 1, [] => ([], [])
  | k + 1, b :: rest =>
    if b = NL then ([b], rest)
    else ((b :: (fgets_take k rest).1), (fgets_take k rest).2)

/-- Call `fgets(buf, size, stdin)` on the bytes `input` still to be read:
`none` for the null pointer at end of input, else the bytes stored in `buf`
before the terminating NUL and the input left. -/
def fgets (size : Nat) (input : List Nat) : Option (List Nat × List Nat) :=
  match input with
  | [] => none
  | _ :: _ => some (fgets_take (size - 1) input)

/-- The C string a buffer holds: the bytes before the first NUL. -/
def cstr (buf : List Nat) : List Nat :=
  buf.takeWhile fun b => decide (b ≠ 0)

/-- Function `strlen`. -/
def strlen (buf : List Nat) : Nat :=
  (cstr buf).length

/-- Function `chomp(char *s)`, on the C string in the buffer: a final newline
is overwritten with NUL. -/
def chomp (buf : List Nat) : List Nat :=
  let l := strlen buf
  if 0 < l ∧ (cstr buf)[l - 1]? = some NL then (cstr buf).take (l - 1)
  else cstr buf

/-- The loop `while (fgets(buf, sizeof(buf), stdin))` of `main`, with the
worklist built so far.  `error buf` is the exit with "input too long" and the
buffer it prints, `ok work` the worklist when `fgets` returns null.  Each round
consumes input; `fuel` bounds the rounds, `none` when it runs out. -/
def read_loop : Nat → List Nat → List (List Nat) → Option (Except (List Nat) (List (List Nat)))
  | 0, _, _ => none
  | fuel + 1, input, work =>
    match fgets BUFSIZE input with
    | none => some (.ok work)
    | some (buf, rest) =>
      if strlen buf = BUFSIZE - 1 then some (.error (cstr buf))
      else read_loop fuel rest (work ++ [chomp buf])

/-- The input loop of `main` on the bytes of standard input: a round consumes
at least one byte, so the length of the input bounds the rounds. -/
def read_stdin (input : List Nat) : Option (Except (List Nat) (List (List Nat))) :=
  read_loop (input.length + 1) input []

/-- A line of text: no newline and no NUL inside. -/
def clean_line (line : List Nat) : Prop :=
  NL ∉ line ∧ 0 ∉ line

/-- Standard input made of the given lines, each followed by a newline. -/
def stdin_of (lines : List (List Nat)) : List Nat :=
  (lines.map fun l => l ++ [NL]).flatten

/-- The input was refused. -/
def refused : Option (Except (List Nat) (List (List Nat))) → Bool
  | some (.error _) => true
  | _ => false

end Linker

/-! ## The linker's `walk` and `main` (`plink.cc`) -/

namespace Linker

/-- The byte `/`. -/
def SLASH : Nat := 47

/-- The one system call of the linker's threads, answering from the
filesystem state `σ` and changing it; a failure carries the errno. -/
structure OS (σ : Type) where
  link : σ → List Nat → List Nat → Except Nat Unit × σ

/-- A line on the diagnostic stream, by the `fprintf(stderr, ...)` that
writes it. -/
inductive Diag where
  | usage
  | input_too_long (buf : List Nat)
  | link_failed (errno : Nat) (sfrom sto : List Nat)
  | no_threads
deriving DecidableEq, Repr

/-- Where a worker thread stands in `walk`: `idle` at the top of the outer
loop, `busy mywork` with the items of its batch it has still to link,
`exited` after `pthread_exit`. -/
inductive Worker where
  | idle
  | busy (mywork : List (List Nat))
  | exited
deriving DecidableEq, Repr

/-- The thread holds a batch. -/
def Worker.is_busy : Worker → Bool
  | .busy _ => true
  | _ => false

/-- The globals of `plink.cc` that `walk` uses, the filesystem, the `link`
calls made so far (source and target), the diagnostic stream and the control
state of each thread. -/
structure State (σ : Type) where
  fs : σ
  work : List (List Nat)
  wip_cnt : Int
  rc : Int
  work_eof : Int
  opt_n : Int
  opt_d : List Nat
  trace : List (List Nat × List Nat)
  diag : List Diag
  workers : List Worker

/-- The loop `for (int i=0; i<opt_n && !work.empty(); i++)` of `walk` with
`k` rounds left: each round moves the front of `work` to the back of
`mywork`.  The result is `(mywork, work)`. -/
def pop_batch : Nat → List (List Nat) → List (List Nat) → List (List Nat) × List (List Nat)
  | 0, work, mywork => (mywork, work)
  | _ + 1, [], mywork => (mywork, [])
  | k + 1, x :: work, mywork => pop_batch k work (mywork ++ [x])

/-- The target of the link for the source `sfrom`: `opt_d+"/"+sfrom`. -/
def target (opt_d sfrom : List Nat) : List Nat :=
  opt_d ++ [SLASH] ++ sfrom

/-- One pass of the loop `while (!mywork.empty())` for the item `sfrom`: the
`link` call, and on failure the message and `rc=1`. -/
def link_one {σ : Type} (os : OS σ) (st : State σ) (sfrom : List Nat) : State σ :=
  let sto := target st.opt_d sfrom
  let st1 := { st with trace := st.trace ++ [(sfrom, sto)] }
  match os.link st.fs sfrom sto with
  | (.error en, fs') =>
    { st1 with fs := fs', diag := st1.diag ++ [Diag.link_failed en sfrom sto], rc := 1 }
  | (.ok _, fs') => { st1 with fs := fs' }

/-- Replace the control state of worker `w`. -/
def set_worker {σ : Type} (st : State σ) (w : Nat) (x : Worker) : State σ :=
  { st with workers := st.workers.set w x }

/-- The next atomic step of worker `w` in `walk`, `none` when the thread has
exited (or does not exist).
* `idle`, `work` empty, `wip_cnt = 0` and `work_eof` set: `pthread_exit`;
* `idle`, `work` empty otherwise: one round of the wait loop;
* `idle`, `work` not empty: pop a batch into `mywork`, `wip_cnt++`;
* `busy` with an item left: one `link`;
* `busy` with nothing left: the final critical section with `wip_cnt--`. -/
def walk_step {σ : Type} (os : OS σ) (st : State σ) (w : Nat) : Option (State σ) :=
  match st.workers[w]? with
  | none => none
  | some .exited => none
  | some .idle =>
    match st.work with
    | [] =>
      if st.wip_cnt = 0 ∧ st.work_eof ≠ 0 then some (set_worker st w .exited)
      else some st
    | x :: rest =>
      let batch := pop_batch st.opt_n.toNat (x :: rest) []
      some (set_worker { st with work := batch.2, wip_cnt := st.wip_cnt + 1 } w (.busy batch.1))
  | some (.busy (sfrom :: mywork)) =>
    some (set_worker (link_one os st sfrom) w (.busy mywork))
  | some (.busy []) =>
    some (set_worker { st with wip_cnt := st.wip_cnt - 1 } w .idle)

/-- Let worker `w` take its next step; a thread that has exited does
nothing. -/
def step_or_stay {σ : Type} (os : OS σ) (st : State σ) (w : Nat) : State σ :=
  (walk_step os st w).getD st

/-- Run the threads under a schedule. -/
def exec {σ : Type} (os : OS σ) : State σ → List Nat → State σ
  | st, [] => st
  | st, w :: ws => exec os (step_or_stay os st w) ws

/-- Every `pthread_join` of `main` returns. -/
def all_exited {σ : Type} (st : State σ) : Bool :=
  st.workers.all fun x => decide (x = Worker.exited)

/-- The state when `main` starts the threads: the worklist read from standard
input, `work_eof = 1`, the counters zero, `nthr` threads. -/
def init_state {σ : Type} (fs : σ) (opt_d : List Nat) (opt_n : Int) (work : List (List Nat))
    (nthr : Nat) : State σ :=
  { fs := fs
    work := work
    wip_cnt := 0
    rc := 0
    work_eof := 1
    opt_n := opt_n
    opt_d := opt_d
    trace := []
    diag := []
    workers := List.replicate nthr Worker.idle }

/-- What a run of the linker leaves behind: the exit code, the diagnostic
stream, the `link` calls made and the filesystem. -/
structure Outcome (σ : Type) where
  code : Int
  diag : List Diag
  trace : List (List Nat × List Nat)
  fs : σ

/-- Function `main` of `plink.cc` from the end of option processing on: the
target directory `opt_d` must not be empty, standard input is read into the
worklist, and `nthr` threads (those `pthread_create` started) run `walk`
under the schedule `sched`.  The result is `none` when the schedule ends
before every thread has exited. -/
def main {σ : Type} (os : OS σ) (fs : σ) (opt_d : List Nat) (opt_n : Int) (input : List Nat)
    (nthr : Nat) (sched : List Nat) : Option (Outcome σ) :=
  -- -d is required
  if (cstr opt_d).length = 0 then some { code := 1, diag := [Diag.usage], trace := [], fs := fs }
  else
    match read_stdin input with
    | none => none
    | some (.error buf) =>
      some { code := 1, diag := [Diag.input_too_long buf], trace := [], fs := fs }
    | some (.ok work) =>
      if nthr = 0 then some { code := 1, diag := [Diag.no_threads], trace := [], fs := fs }
      else
        let st := exec os (init_state fs opt_d opt_n work nthr) sched
        if all_exited st then
          some { code := st.rc, diag := st.diag, trace := st.trace, fs := st.fs }
        else none

/-- The link a complete run owes to the queued source `s`. -/
def attempt (opt_d : List Nat) (s : List Nat) : List Nat × List Nat :=
  (s, target opt_d s)

/-- The items a thread holds: the rest of its batch. -/
def Worker.mywork : Worker → List (List Nat)
  | .busy mywork => mywork
  | _ => []

/-- The items the threads hold. -/
def held (workers : List Worker) : List (List Nat) :=
  (workers.map Worker.mywork).flatten

/-- The invariant of the linker's walk for the sources `queue` queued at the
start: the links made and the links owed for the items still queued or held
are together the links owed for `queue`; `wip_cnt` counts the threads that
hold a batch; a thread has exited only if the worklist is empty and nobody
holds a batch; and the options and `work_eof` are as `main` set them. -/
structure LInv {σ : Type} (opt_d : List Nat) (opt_n : Int) (queue : List (List Nat))
    (st : State σ) : Prop where
  perm : List.Perm (st.trace ++ (st.work ++ held st.workers).map (attempt opt_d))
    (queue.map (attempt opt_d))
  wip : st.wip_cnt = (st.workers.countP Worker.is_busy : Nat)
  exit_ok : Worker.exited ∈ st.workers → st.work = [] ∧ st.wip_cnt = 0
  opt_d_eq : st.opt_d = opt_d
  opt_n_eq : st.opt_n = opt_n
  eof : st.work_eof = 1

/-- A system on which every `link` succeeds; the filesystem state counts the
links made. -/
def ok_os : OS Nat where
  link n _ _ := (.ok (), n + 1)

end Linker

namespace Linker

/-- The `link` calls of a list made one after another from the filesystem
`fs`: the filesystem they leave behind and the messages of the calls that
fail, in order. -/
def replay {σ : Type} (os : OS σ) : σ → List (List Nat × List Nat) → σ × List Diag
  | fs, [] => (fs, [])
  | fs, (sfrom, sto) :: cs =>
    match os.link fs sfrom sto with
    | (.error en, fs') => ((replay os fs' cs).1, Diag.link_failed en sfrom sto :: (replay os fs' cs).2)
    | (.ok _, fs') => replay os fs' cs

/-- The filesystem, the diagnostic stream and `rc` are what the `link` calls
of the trace, made in that order from `fs0`, produce: `rc` is 1 exactly if
one of them failed. -/
def Replayed {σ : Type} (os : OS σ) (fs0 : σ) (st : State σ) : Prop :=
  st.fs = (replay os fs0 st.trace).1 ∧ st.diag = (replay os fs0 st.trace).2 ∧
  st.rc = if st.diag.isEmpty then 0 else 1

/-- Value of `EEXIST` in `<errno.h>`. -/
def EEXIST : Nat := 17

/-- A system whose filesystem state is the list of the link targets that
exist: `link` fails with `EEXIST` if the target exists and creates it
otherwise. -/
def target_os : OS (List (List Nat)) where
  link fs _ sto := if sto ∈ fs then (.error EEXIST, fs) else (.ok (), fs ++ [sto])

end Linker

namespace Node

@[simp] theorem name_mk (n d l) : (mk n d l).name = n := rfl
@[simp] theorem dir_p_mk (n d l) : (mk n d l).dir_p = d := rfl
@[simp] theorem l_mk (n d l) : (mk n d l).l = l := rfl
@[simp] theorem kids_mk (n d l) : (mk n d l).kids = l.map fun c => (c.name, c.dir_p) := rfl

theorem eta (t : Node) : t = mk t.name t.dir_p t.l := by cases t; rfl

@[simp] theorem name_push_back (t : Node) (a : NodePtr) (c : Node) :
    (t.push_back a c).name = t.name := by
  cases t; cases a <;> simp [push_back]; split <;> rfl

@[simp] theorem dir_p_push_back (t : Node) (a : NodePtr) (c : Node) :
    (t.push_back a c).dir_p = t.dir_p := by
  cases t; cases a <;> simp [push_back]; split <;> rfl

theorem view_push_back (c : Node) (hc : c.l = []) (a : NodePtr) :
    ∀ (pre : String) (t : Node) (va : View) (b : NodePtr), t.view pre a = some va →
      (t.push_back a c).view pre b =
        if b = a then some { va with kids := va.kids ++ [(c.name, c.dir_p)] }
        else if b = a ++ [va.kids.length] then some ⟨va.path ++ "/" ++ c.name, c.dir_p, []⟩
        else t.view pre b := by
  induction a with
  | nil =>
    intro pre t va b h
    cases t with
    | mk n d l =>
      simp [view] at h
      subst h
      cases b with
      | nil => simp [push_back, view]
      | cons k ks =>
        simp only [push_back, view, reduceCtorEq, if_false, List.nil_append, kids_mk, List.length_map]
        rcases Nat.lt_trichotomy k l.length with hlt | heq | hgt
        · have : k :: ks ≠ [l.length] := by
            intro h; simp at h; omega
          simp [this, List.getElem?_append_left hlt]
        · subst heq
          simp
          cases ks with
          | nil => simp [view, kids, hc]
          | cons j js =>
            simp [view]
            cases c with
            | mk cn cd cl => simp at hc; subst hc; simp [view]
        · have : k :: ks ≠ [l.length] := by
            intro h; simp at h; omega
          have h1 : (l ++ [c])[k]? = none := by
            rw [List.getElem?_eq_none]; simp; omega
          have h2 : l[k]? = none := by
            rw [List.getElem?_eq_none]; omega
          simp [this, h1, h2]
  | cons j js ih =>
    intro pre t va b h
    cases t with
    | mk n d l =>
      simp only [view] at h
      cases hj : l[j]? with
      | none => simp [hj] at h
      | some x =>
        simp only [hj] at h
        have hjl : j < l.length := by
          by_contra hcon
          rw [List.getElem?_eq_none (by omega)] at hj; cases hj
        simp only [push_back, hj]
        cases b with
        | nil =>
          simp [view, List.map_set]
          have := List.getElem?_eq_some_iff.mp hj
          obtain ⟨_, hx⟩ := this
          apply List.ext_getElem?
          intro i
          by_cases hij : j = i
          · subst hij; simp [hjl, hj, hx]
          · simp [List.getElem?_set, hij]
        | cons k ks =>
          simp only [view, List.cons.injEq, List.cons_append]
          by_cases hkj : k = j
          · subst hkj
            simp [List.getElem?_set, hjl, hj]
            rw [ih _ x va ks h]
          · have hjk : ¬ j = k := fun h => hkj h.symm
            simp [List.getElem?_set, hkj, hjk]

end Node

namespace Node

theorem view_get? (a : NodePtr) :
    ∀ (pre : String) (t : Node) (v : View), t.view pre a = some v →
      ∃ na, t.get? a = some na ∧ na.l.length = v.kids.length := by
  induction a with
  | nil => intro pre t v h; simp [view] at h; subst h; exact ⟨t, by cases t; rfl, by simp [kids]⟩
  | cons k ks ih =>
    intro pre t v h
    cases t with
    | mk n d l =>
      simp only [view] at h
      simp only [get?]
      cases hk : l[k]? with
      | none => simp [hk] at h
      | some c => simp only [hk] at h ⊢; exact ih _ c v h

theorem view_fresh (a : NodePtr) :
    ∀ (pre : String) (t : Node) (v : View), t.view pre a = some v →
      t.view pre (a ++ [v.kids.length]) = none := by
  induction a with
  | nil =>
    intro pre t v h
    cases t with
    | mk n d l =>
      simp [view] at h; subst h
      simp [view]
  | cons k ks ih =>
    intro pre t v h
    cases t with
    | mk n d l =>
      simp only [view] at h
      cases hk : l[k]? with
      | none => simp [hk] at h
      | some c =>
        simp only [hk] at h
        simp only [List.cons_append, view, hk]
        exact ih _ c v h

theorem set_dir_p_push_back (n : String) (a : NodePtr) :
    ∀ (t na : Node), t.get? a = some na →
      (t.push_back a (Node.new n)).set_dir_p (a ++ [na.l.length]) =
        t.push_back a (mk n true []) := by
  induction a with
  | nil =>
    intro t na h
    cases t with
    | mk tn d l =>
      simp [get?] at h; subst h
      simp [push_back, set_dir_p, Node.new]
  | cons k ks ih =>
    intro t na h
    cases t with
    | mk tn d l =>
      simp only [get?] at h
      cases hk : l[k]? with
      | none => simp [hk] at h
      | some c =>
        simp only [hk] at h
        have hkl : k < l.length := by
          by_contra hcon
          rw [List.getElem?_eq_none (by omega)] at hk; cases hk
        simp [push_back, set_dir_p, hk, hkl, ih c na h]

end Node

/-! ## What one directory entry contributes -/

theorem walk_entry_tree (fs : FS) (o : Opts) (st : State) (p : String) (a : NodePtr)
    (d : Dirent) (na : Node) (h : st.tree.get? a = some na) :
    (walk_entry fs o st p a d).tree =
      match entry_kid fs o p d with
      | none => st.tree
      | some (n, f) => st.tree.push_back a (Node.mk n f []) := by
  unfold walk_entry entry_kid
  by_cases h1 : d.d_name = "." ∨ d.d_name = ".."
  · simp [h1]
  · by_cases h2 : o.opt_t = 0 ∧ d.d_name = ".snapshot"
    · simp [h1, h2]
    · simp only [h1, h2, if_false, h, Option.map_some', Option.getD_some]
      by_cases h3 : d.d_type = DT_UNKNOWN ∨ o.opt_s ≠ 0
      · have h3' : (decide (d.d_type ≠ DT_UNKNOWN) = false ∨ o.opt_s ≠ 0) := by
          simpa using h3
        simp only [h3, h3', if_true]
        cases hl : fs.lstat (p ++ "/" ++ d.d_name) with
        | error e => simp [Node.new]
        | ok isdir =>
          by_cases h4 : (decide (d.d_type = DT_DIR) || isdir) = true
          · simp only [h4, if_true]; exact Node.set_dir_p_push_back _ _ _ _ h
          · simp only [h4]; simp at h4; simp [Node.new, h4]
      · have h3' : ¬ (decide (d.d_type ≠ DT_UNKNOWN) = false ∨ o.opt_s ≠ 0) := by
          simpa using h3
        simp only [h3, h3', if_false]
        by_cases h4 : d.d_type = DT_DIR
        · simp only [h4, decide_True, if_true]; exact Node.set_dir_p_push_back _ _ _ _ h
        · simp [h4, Node.new]

theorem walk_entry_work (fs : FS) (o : Opts) (st : State) (p : String) (a : NodePtr)
    (d : Dirent) (na : Node) (h : st.tree.get? a = some na) :
    (walk_entry fs o st p a d).work = st.work ++ entry_push fs o p (a ++ [na.l.length]) d := by
  unfold walk_entry entry_push entry_kid
  by_cases h1 : d.d_name = "." ∨ d.d_name = ".."
  · simp [h1]
  · by_cases h2 : o.opt_t = 0 ∧ d.d_name = ".snapshot"
    · simp [h1, h2]
    · simp only [h1, h2, if_false, h, Option.map_some', Option.getD_some]
      by_cases h3 : d.d_type = DT_UNKNOWN ∨ o.opt_s ≠ 0
      · have h3' : (decide (d.d_type ≠ DT_UNKNOWN) = false ∨ o.opt_s ≠ 0) := by
          simpa using h3
        simp only [h3, h3', if_true]
        cases hl : fs.lstat (p ++ "/" ++ d.d_name) with
        | error e => simp
        | ok isdir =>
          by_cases h4 : (decide (d.d_type = DT_DIR) || isdir) = true
          · simp only [h4, if_true]
          · simp only [h4]; simp at h4; simp [h4]
      · have h3' : ¬ (decide (d.d_type ≠ DT_UNKNOWN) = false ∨ o.opt_s ≠ 0) := by
          simpa using h3
        simp only [h3, h3', if_false]
        by_cases h4 : d.d_type = DT_DIR
        · simp only [h4, decide_True, if_true]
        · simp [h4]

theorem walk_entry_rest (fs : FS) (o : Opts) (st : State) (p : String) (a : NodePtr)
    (d : Dirent) :
    (walk_entry fs o st p a d).workers = st.workers ∧
    (walk_entry fs o st p a d).wip_cnt = st.wip_cnt ∧
    (walk_entry fs o st p a d).stat_spins = st.stat_spins := by
  unfold walk_entry
  simp only
  split_ifs <;> (try split) <;> (try split_ifs) <;> simp

/-! ## Ownership of nodes during the walk -/

theorem filterMap_set_perm {α β : Type} (f : α → Option β) (x : α) :
    ∀ (l : List α) (w : Nat) (y : α), l[w]? = some y →
      List.Perm ((f y).toList ++ (l.set w x).filterMap f) ((f x).toList ++ l.filterMap f) := by
  intro l
  induction l with
  | nil => intro w y h; simp at h
  | cons z zs ih =>
    intro w y h
    cases w with
    | zero =>
      simp at h; subst h
      simp only [List.set_cons_zero, List.filterMap_cons]
      cases hz : f z <;> cases hx : f x <;> simp
      exact List.Perm.swap _ _ _
    | succ w =>
      simp at h
      have := ih w y h
      simp only [List.set_cons_succ, List.filterMap_cons]
      cases hz : f z with
      | none => simpa using this
      | some b =>
        simp only
        refine List.Perm.trans List.perm_middle ?_
        refine List.Perm.trans (List.Perm.cons b this) ?_
        exact List.perm_middle.symm

theorem mem_busy_ptrs {workers : List Worker} {w : Nat} {p : String} {a : NodePtr}
    {dir : Option DirStream} (h : workers[w]? = some (Worker.busy p a dir)) :
    a ∈ busy_ptrs workers := by
  unfold busy_ptrs
  rw [List.mem_filterMap]
  exact ⟨_, List.getElem?_mem h, rfl⟩

theorem mem_busy_ptrs_iff {workers : List Worker} {a : NodePtr} :
    a ∈ busy_ptrs workers ↔ ∃ (w : Nat) (p : String) (dir : Option DirStream), workers[w]? = some (Worker.busy p a dir) := by
  unfold busy_ptrs
  rw [List.mem_filterMap]
  constructor
  · rintro ⟨x, hx, hf⟩
    obtain ⟨w, hw⟩ := List.getElem?_of_mem hx
    cases x with
    | busy p b dir => simp [busy_ptr] at hf; subst hf; exact ⟨w, p, dir, hw⟩
    | idle => simp [busy_ptr] at hf
    | exited => simp [busy_ptr] at hf
  · rintro ⟨w, p, dir, hw⟩
    exact ⟨_, List.getElem?_mem hw, rfl⟩

theorem inv_init (fs : FS) (o : Opts) (root : String) (nthr : Nat) :
    Inv fs o (Node.new root) [(root, [])] (List.replicate nthr Worker.idle) := by
  refine ⟨?_, ?_, ?_, ?_, ?_⟩
  · intro p a h
    simp at h
    obtain ⟨rfl, rfl⟩ := h
    exact ⟨_, rfl, by simp [Node.new], by simp [Node.new, Node.kids], Or.inl rfl⟩
  · intro w p a dir h
    have := List.getElem?_mem h
    simp at this
  · have : busy_ptrs (List.replicate nthr Worker.idle) = [] := by
      unfold busy_ptrs
      rw [List.filterMap_eq_nil_iff]
      intro x hx
      simp at hx
      rw [hx.2]; rfl
    simp [owners, this]
  · intro b v hv hd hb
    exfalso
    cases b with
    | nil => simp [owners] at hb
    | cons k ks => simp [Node.new, Node.view] at hv
  · intro b v hv hb hd
    cases b with
    | nil => exact absurd rfl hb
    | cons k ks => simp [Node.new, Node.view] at hv

theorem inv_unbusy (fs : FS) (o : Opts) {tree : Node} {work : List (String × NodePtr)}
    {workers : List Worker} (h : Inv fs o tree work workers) (w : Nat) (x y : Worker)
    (hw : workers[w]? = some y) (hy : busy_ptr y = none) (hx : busy_ptr x = none) :
    Inv fs o tree work (workers.set w x) := by
  have hperm : List.Perm (busy_ptrs (workers.set w x)) (busy_ptrs workers) := by
    have := filterMap_set_perm busy_ptr x workers w y hw
    simpa [hy, hx, busy_ptrs] using this
  have hown : List.Perm (owners work (workers.set w x)) (owners work workers) :=
    List.Perm.append_left _ hperm
  refine ⟨h.work_ok, ?_, hown.nodup_iff.mpr h.nodup, ?_, h.leaf_ok⟩
  · intro w' p a dir hw'
    rw [List.getElem?_set] at hw'
    split at hw'
    · split at hw'
      · simp at hw'; subst hw'; simp [busy_ptr] at hx
      · cases hw'
    · exact h.busy_ok w' p a dir hw'
  · intro b v hv hd hb
    exact h.done_ok b v hv hd (fun hmem => hb (hown.mem_iff.mpr hmem))

theorem owner_view {fs : FS} {o : Opts} {tree : Node} {work : List (String × NodePtr)}
    {workers : List Worker} (h : Inv fs o tree work workers) {b : NodePtr}
    (hb : b ∈ owners work workers) : ∃ v, tree.view "" b = some v := by
  simp only [owners, List.mem_append, List.mem_map] at hb
  rcases hb with ⟨⟨p, a⟩, hmem, rfl⟩ | hb
  · obtain ⟨v, hv, _⟩ := h.work_ok p a hmem
    exact ⟨v, hv⟩
  · obtain ⟨w, p, dir, hw⟩ := mem_busy_ptrs_iff.mp hb
    obtain ⟨v, hv, _⟩ := h.busy_ok w p b dir hw
    exact ⟨v, hv⟩

theorem inv_pop (fs : FS) (o : Opts) {tree : Node} {rest : List (String × NodePtr)}
    {workers : List Worker} {p : String} {a : NodePtr}
    (h : Inv fs o tree ((p, a) :: rest) workers) (w : Nat) (y : Worker)
    (hw : workers[w]? = some y) (hy : busy_ptr y = none) (dir : Option DirStream)
    (hdir : match dir with
      | none => ∃ e, fs.opendir p = .error e
      | some s => fs.opendir p = .ok s) :
    Inv fs o tree rest (workers.set w (Worker.busy p a dir)) := by
  have hperm : List.Perm (busy_ptrs (workers.set w (Worker.busy p a dir)))
      (a :: busy_ptrs workers) := by
    have := filterMap_set_perm busy_ptr (Worker.busy p a dir) workers w y hw
    rw [hy] at this
    simpa [busy_ptrs, busy_ptr] using this
  have hown : List.Perm (owners rest (workers.set w (Worker.busy p a dir)))
      (owners ((p, a) :: rest) workers) := by
    unfold owners
    refine List.Perm.trans (List.Perm.append_left _ hperm) ?_
    simp only [List.map_cons, List.cons_append]
    exact List.perm_middle
  refine ⟨?_, ?_, hown.nodup_iff.mpr h.nodup, ?_, h.leaf_ok⟩
  · intro p' a' hmem
    exact h.work_ok p' a' (List.mem_cons_of_mem _ hmem)
  · intro w' p' a' dir' hw'
    rw [List.getElem?_set] at hw'
    split at hw'
    · split at hw'
      · simp at hw'
        obtain ⟨rfl, rfl, rfl⟩ := hw'
        obtain ⟨v, hv, hp, hk, hd⟩ := h.work_ok p a (List.mem_cons_self _ _)
        refine ⟨v, hv, hp, hd, ?_⟩
        cases dir with
        | none => exact ⟨hdir, hk⟩
        | some s => exact ⟨s, [], hdir, by simp, by simp [hk]⟩
      · cases hw'
    · exact h.busy_ok w' p' a' dir' hw'
  · intro b v hv hd hb
    exact h.done_ok b v hv hd (fun hmem => hb (hown.mem_iff.mpr hmem))

theorem inv_finish (fs : FS) (o : Opts) {tree : Node} {work : List (String × NodePtr)}
    {workers : List Worker} {p : String} {a : NodePtr} {dir : Option DirStream}
    (h : Inv fs o tree work workers) (w : Nat)
    (hw : workers[w]? = some (Worker.busy p a dir))
    (hfin : dir = none ∨ ∃ err, dir = some ⟨[], err⟩) (x : Worker) (hx : busy_ptr x = none) :
    Inv fs o tree work (workers.set w x) := by
  have hperm : List.Perm (a :: busy_ptrs (workers.set w x)) (busy_ptrs workers) := by
    have := filterMap_set_perm busy_ptr x workers w _ hw
    rw [hx] at this
    simpa [busy_ptrs, busy_ptr] using this
  have hown : List.Perm (a :: owners work (workers.set w x)) (owners work workers) := by
    unfold owners
    refine List.Perm.trans List.perm_middle.symm ?_
    exact List.Perm.append_left _ hperm
  have hnd := hown.nodup_iff.mpr h.nodup
  refine ⟨h.work_ok, ?_, (List.nodup_cons.mp hnd).2, ?_, h.leaf_ok⟩
  · intro w' p' a' dir' hw'
    rw [List.getElem?_set] at hw'
    split at hw'
    · split at hw'
      · simp at hw'; subst hw'; simp [busy_ptr] at hx
      · cases hw'
    · exact h.busy_ok w' p' a' dir' hw'
  · intro b v hv hd hb
    by_cases hba : b = a
    · subst hba
      obtain ⟨v', hv', hp, _, hprog⟩ := h.busy_ok w p b dir hw
      rw [hv] at hv'; cases hv'
      unfold Done
      rcases hfin with rfl | ⟨err, rfl⟩
      · obtain ⟨⟨e, he⟩, hk⟩ := hprog
        rw [hp, he]; exact hk
      · obtain ⟨s, consumed, hs, hents, hk⟩ := hprog
        rw [hp, hs]
        simp only [List.append_nil] at hents
        simp only [hents, hk]
    · apply h.done_ok b v hv hd
      intro hmem
      have := hown.mem_iff.mpr hmem
      simp only [List.mem_cons] at this
      rcases this with h1 | h1
      · exact hba h1
      · exact hb h1

theorem entry_push_eq (fs : FS) (o : Opts) (p : String) (q : NodePtr) (d : Dirent) :
    entry_push fs o p q d =
      match entry_kid fs o p d with
      | none => []
      | some (n, f) => if f = true then [(p ++ "/" ++ n, q)] else [] := by
  unfold entry_push
  cases entry_kid fs o p d with
  | none => rfl
  | some nf =>
    obtain ⟨n, f⟩ := nf
    cases f <;> simp

theorem inv_entry (fs : FS) (o : Opts) {tree : Node} {work : List (String × NodePtr)}
    {workers : List Worker} {p : String} {a : NodePtr} {d : Dirent} {ds : List Dirent}
    {err : Option Nat} (h : Inv fs o tree work workers) (w : Nat)
    (hw : workers[w]? = some (Worker.busy p a (some ⟨d :: ds, err⟩)))
    (va : View) (hva : tree.view "" a = some va) :
    Inv fs o
      (match entry_kid fs o p d with
        | none => tree
        | some (n, f) => tree.push_back a (Node.mk n f []))
      (work ++ entry_push fs o p (a ++ [va.kids.length]) d)
      (workers.set w (Worker.busy p a (some ⟨ds, err⟩))) := by
  obtain ⟨va', hva', hpath, hadir, hprog⟩ := h.busy_ok w p a _ hw
  rw [hva] at hva'; cases hva'
  obtain ⟨s, consumed, hs, hents, hkids⟩ := hprog
  have hperm : List.Perm (busy_ptrs (workers.set w (Worker.busy p a (some ⟨ds, err⟩))))
      (busy_ptrs workers) := by
    have := filterMap_set_perm busy_ptr (Worker.busy p a (some ⟨ds, err⟩)) workers w _ hw
    simp only [busy_ptr, Option.toList, List.singleton_append] at this
    exact List.Perm.cons_inv this
  have ha_busy : a ∈ busy_ptrs workers := mem_busy_ptrs hw
  have ha_own : a ∈ owners work workers := by
    simp only [owners, List.mem_append]; exact Or.inr ha_busy
  have ha_work : ∀ p' a', (p', a') ∈ work → a' ≠ a := by
    intro p' a' hmem heq
    subst heq
    have hnd := h.nodup
    unfold owners at hnd
    rw [List.nodup_append] at hnd
    exact hnd.2.2 (List.mem_map.mpr ⟨(p', a'), hmem, rfl⟩) ha_busy
  have ha_other : ∀ (w' : Nat) p' a' dir', w' ≠ w →
      workers[w']? = some (Worker.busy p' a' dir') → a' ≠ a := by
    intro w' p' a' dir' hne hw' heq
    subst heq
    have h1 := filterMap_set_perm busy_ptr Worker.idle workers w _ hw
    simp only [busy_ptr, Option.toList, List.singleton_append, List.nil_append] at h1
    have hnd : (busy_ptrs workers).Nodup := by
      have hnd := h.nodup
      unfold owners at hnd
      rw [List.nodup_append] at hnd
      exact hnd.2.1
    have hnd' := (h1.nodup_iff.mpr hnd)
    have hmem : a' ∈ busy_ptrs (workers.set w Worker.idle) := by
      apply @mem_busy_ptrs _ w' p' _ dir'
      rw [List.getElem?_set]
      simp [Ne.symm hne, hw']
    exact (List.nodup_cons.mp hnd').1 hmem
  have hq_fresh : tree.view "" (a ++ [va.kids.length]) = none := Node.view_fresh a "" tree va hva
  have hq_own : a ++ [va.kids.length] ∉ owners work workers := by
    intro hmem
    obtain ⟨v, hv⟩ := owner_view h hmem
    rw [hq_fresh] at hv; cases hv
  have hq_ne : a ++ [va.kids.length] ≠ a := by
    intro heq
    have := congrArg List.length heq
    simp at this
  have hprog' : ∀ kid, entry_kid fs o p d = kid →
      Progress fs o p (some ⟨ds, err⟩) (va.kids ++ kid.toList) := by
    intro kid hkid
    refine ⟨s, consumed ++ [d], hs, by simp [hents], ?_⟩
    rw [List.filterMap_append, ← hkids]
    simp only [List.filterMap_cons, List.filterMap_nil, hkid]
    cases kid <;> rfl
  rw [entry_push_eq]
  cases hkid : entry_kid fs o p d with
  | none =>
    simp only [List.append_nil]
    have hown : List.Perm (owners work (workers.set w (Worker.busy p a (some ⟨ds, err⟩))))
        (owners work workers) := List.Perm.append_left _ hperm
    refine ⟨h.work_ok, ?_, hown.nodup_iff.mpr h.nodup, ?_, h.leaf_ok⟩
    · intro w' p' a' dir' hw'
      rw [List.getElem?_set] at hw'
      split at hw'
      · split at hw'
        · simp at hw'
          obtain ⟨rfl, rfl, rfl⟩ := hw'
          refine ⟨va, hva, hpath, hadir, ?_⟩
          simpa using hprog' none hkid
        · cases hw'
      · exact h.busy_ok w' p' a' dir' hw'
    · intro b v hv hd hb
      exact h.done_ok b v hv hd (fun hmem => hb (hown.mem_iff.mpr hmem))
  | some nf =>
    obtain ⟨n, f⟩ := nf
    simp only
    have hview := Node.view_push_back (Node.mk n f []) rfl a "" tree va
    simp only [Node.name_mk, Node.dir_p_mk] at hview
    have hown : ∀ b, b ∈ owners (work ++ if f = true then [(p ++ "/" ++ n, a ++ [va.kids.length])]
          else []) (workers.set w (Worker.busy p a (some ⟨ds, err⟩))) ↔
        (b ∈ owners work workers ∨ (f = true ∧ b = a ++ [va.kids.length])) := by
      intro b
      simp only [owners, List.mem_append, List.map_append, hperm.mem_iff]
      cases f <;> simp
      tauto
    refine ⟨?_, ?_, ?_, ?_, ?_⟩
    · intro p' a' hmem
      rw [List.mem_append] at hmem
      rcases hmem with hmem | hmem
      · obtain ⟨v, hv, hrest⟩ := h.work_ok p' a' hmem
        refine ⟨v, ?_, hrest⟩
        rw [hview a' hva, if_neg (ha_work p' a' hmem), if_neg, hv]
        intro heq
        rw [heq, hq_fresh] at hv; cases hv
      · cases f with
        | false => simp at hmem
        | true =>
          simp at hmem
          obtain ⟨rfl, rfl⟩ := hmem
          refine ⟨⟨va.path ++ "/" ++ n, true, []⟩, ?_, ?_, rfl, Or.inr rfl⟩
          · rw [hview _ hva, if_neg hq_ne, if_pos rfl]
          · simp [hpath]
    · intro w' p' a' dir' hw'
      rw [List.getElem?_set] at hw'
      split at hw'
      · split at hw'
        · simp at hw'
          obtain ⟨rfl, rfl, rfl⟩ := hw'
          refine ⟨⟨va.path, va.dir_p, va.kids ++ [(n, f)]⟩, ?_, hpath, hadir, ?_⟩
          · rw [hview _ hva, if_pos rfl]
          · simpa using hprog' _ hkid
        · cases hw'
      · rename_i hne
        obtain ⟨v, hv, hrest⟩ := h.busy_ok w' p' a' dir' hw'
        refine ⟨v, ?_, hrest⟩
        rw [hview a' hva, if_neg (ha_other w' p' a' dir' (Ne.symm hne) hw'), if_neg, hv]
        intro heq
        rw [heq, hq_fresh] at hv; cases hv
    · unfold owners
      rw [List.map_append]
      have h1 : List.Perm
          ((List.map Prod.snd work ++ List.map Prod.snd
            (if f = true then [(p ++ "/" ++ n, a ++ [va.kids.length])] else [])) ++
            busy_ptrs (workers.set w (Worker.busy p a (some ⟨ds, err⟩))))
          (List.map Prod.snd (if f = true then [(p ++ "/" ++ n, a ++ [va.kids.length])] else [])
            ++ owners work workers) := by
        unfold owners
        refine List.Perm.trans (List.Perm.append_left _ hperm) ?_
        rw [← List.append_assoc]
        exact List.Perm.append_right _ List.perm_append_comm
      rw [h1.nodup_iff]
      cases f with
      | false => simpa using h.nodup
      | true =>
        simp only [if_true, List.map_cons, List.map_nil, List.singleton_append, List.nodup_cons]
        exact ⟨hq_own, h.nodup⟩
    · intro b v hv hd hb
      rw [hown] at hb
      push_neg at hb
      rw [hview b hva] at hv
      have hba : b ≠ a := fun heq => hb.1 (heq ▸ ha_own)
      rw [if_neg hba] at hv
      by_cases hbq : b = a ++ [va.kids.length]
      · exfalso
        rw [if_pos hbq] at hv
        cases hv
        simp only at hd
        rcases hd with hd | hd
        · rw [hd] at hbq
          simp at hbq
        · exact hb.2 hd hbq
      · rw [if_neg hbq] at hv
        exact h.done_ok b v hv hd hb.1
    · intro b v hv hbne hd
      rw [hview b hva] at hv
      by_cases hba : b = a
      · exfalso
        rw [if_pos hba] at hv
        cases hv
        simp only at hd
        rcases hadir with h1 | h1
        · exact hbne (hba.trans h1)
        · rw [h1] at hd; cases hd
      · rw [if_neg hba] at hv
        by_cases hbq : b = a ++ [va.kids.length]
        · rw [if_pos hbq] at hv
          cases hv; rfl
        · rw [if_neg hbq] at hv
          exact h.leaf_ok b v hv hbne hd

theorem busy_len_set (workers : List Worker) (w : Nat) (x y : Worker)
    (hw : workers[w]? = some y) :
    (busy_ptr y).toList.length + (busy_ptrs (workers.set w x)).length =
      (busy_ptr x).toList.length + (busy_ptrs workers).length := by
  have := (filterMap_set_perm busy_ptr x workers w y hw).length_eq
  simpa [busy_ptrs] using this

theorem not_exited_set {workers : List Worker} (h : Worker.exited ∉ workers) (w : Nat)
    (x : Worker) (hx : x ≠ Worker.exited) : Worker.exited ∉ workers.set w x := by
  intro hmem
  rcases List.mem_or_eq_of_mem_set hmem with h1 | h1
  · exact h h1
  · exact hx h1.symm

theorem sinv_init (fs : FS) (o : Opts) (root : String) (nthr : Nat) (diag : List Diag) :
    SInv fs o (init_state root nthr diag) := by
  refine ⟨inv_init fs o root nthr, ?_, ?_⟩
  · have : busy_ptrs (List.replicate nthr Worker.idle) = [] := by
      unfold busy_ptrs
      rw [List.filterMap_eq_nil_iff]
      intro x hx
      simp at hx
      rw [hx.2]; rfl
    simp [init_state, this]
  · intro h
    simp [init_state] at h

theorem sinv_step (fs : FS) (o : Opts) (st st' : State) (w : Nat) (h : SInv fs o st)
    (hstep : walk_step fs o st w = some st') : SInv fs o st' := by
  unfold walk_step at hstep
  cases hwk : st.workers[w]? with
  | none => simp [hwk] at hstep
  | some x =>
    simp only [hwk] at hstep
    cases x with
    | exited => simp at hstep
    | idle =>
      simp only at hstep
      cases hwork : st.work with
      | nil =>
        simp only [hwork] at hstep
        by_cases hz : st.wip_cnt = 0
        · simp only [hz, if_true, Option.some.injEq] at hstep
          subst hstep
          refine ⟨inv_unbusy fs o h.inv w _ _ hwk rfl rfl, ?_, ?_⟩
          · have := busy_len_set st.workers w Worker.exited _ hwk
            simp only [busy_ptr, Option.toList, List.length_nil, zero_add] at this
            simp only [set_worker, this]
            exact h.wip
          · intro _
            exact ⟨hwork, hz⟩
        · simp only [hz, if_false, Option.some.injEq] at hstep
          subst hstep
          refine ⟨?_, h.wip, ?_⟩
          · simpa [hwork] using h.inv
          · intro hmem
            simpa [hwork] using h.exit_ok hmem
      | cons item rest =>
        obtain ⟨p, a⟩ := item
        simp only [hwork] at hstep
        have hinv := h.inv
        rw [hwork] at hinv
        have hnoexit : Worker.exited ∉ st.workers := by
          intro hmem
          have := (h.exit_ok hmem).1
          rw [hwork] at this; cases this
        have hlen := busy_len_set st.workers w
        cases hopen : fs.opendir p with
        | error e =>
          simp only [hopen, Option.some.injEq] at hstep
          subst hstep
          have hlen := busy_len_set st.workers w (Worker.busy p a none) _ hwk
          simp only [busy_ptr, Option.toList, List.length_nil, zero_add, List.length_singleton]
            at hlen
          refine ⟨?_, ?_, ?_⟩
          · have := inv_pop fs o hinv w _ hwk rfl none ⟨e, hopen⟩
            split_ifs <;> simpa [set_worker] using this
          · split_ifs <;> simp [set_worker, hlen, h.wip] <;> omega
          · intro hmem
            exfalso
            refine not_exited_set hnoexit w (Worker.busy p a none) (by simp) ?_
            split_ifs at hmem <;> simpa [set_worker] using hmem
        | ok s =>
          simp only [hopen, Option.some.injEq] at hstep
          subst hstep
          have hlen := busy_len_set st.workers w (Worker.busy p a (some s)) _ hwk
          simp only [busy_ptr, Option.toList, List.length_nil, zero_add, List.length_singleton]
            at hlen
          refine ⟨?_, ?_, ?_⟩
          · have := inv_pop fs o hinv w _ hwk rfl (some s) hopen
            simpa [set_worker] using this
          · simp [set_worker, hlen, h.wip]; omega
          · intro hmem
            exfalso
            exact not_exited_set hnoexit w (Worker.busy p a (some s)) (by simp)
              (by simpa [set_worker] using hmem)
    | busy p a dir =>
      have hpos : 1 ≤ (busy_ptrs st.workers).length :=
        List.length_pos_of_mem (mem_busy_ptrs hwk)
      have hnoexit : Worker.exited ∉ st.workers := by
        intro hmem
        have := (h.exit_ok hmem).2
        rw [h.wip] at this
        omega
      have hfinish : ∀ (s1 : State), s1.tree = st.tree → s1.work = st.work →
          s1.workers = st.workers → s1.wip_cnt = st.wip_cnt →
          (dir = none ∨ ∃ err, dir = some ⟨[], err⟩) →
          SInv fs o (set_worker { s1 with wip_cnt := s1.wip_cnt - 1 } w Worker.idle) := by
        intro s1 h1 h2 h3 h4 hfin
        have hlen := busy_len_set st.workers w Worker.idle _ hwk
        simp only [busy_ptr, Option.toList, List.length_nil, zero_add, List.length_singleton]
          at hlen
        refine ⟨?_, ?_, ?_⟩
        · simp only [set_worker, h1, h2, h3]
          exact inv_finish fs o h.inv w hwk hfin Worker.idle rfl
        · simp only [set_worker, h3, h4, h.wip]
          omega
        · intro hmem
          exfalso
          simp only [set_worker, h3] at hmem
          exact not_exited_set hnoexit w Worker.idle (by simp) hmem
      cases dir with
      | none =>
        simp only [Option.some.injEq] at hstep
        subst hstep
        exact hfinish st rfl rfl rfl rfl (Or.inl rfl)
      | some s =>
        obtain ⟨ents, err⟩ := s
        cases ents with
        | nil =>
          cases err with
          | none =>
            simp only [Option.some.injEq] at hstep
            subst hstep
            exact hfinish st rfl rfl rfl rfl (Or.inr ⟨_, rfl⟩)
          | some e =>
            simp only [Option.some.injEq] at hstep
            subst hstep
            exact hfinish { st with diag := st.diag ++ [Diag.read_failed p e], rc := 1 }
              rfl rfl rfl rfl (Or.inr ⟨_, rfl⟩)
        | cons d ds =>
          simp only [Option.some.injEq] at hstep
          subst hstep
          obtain ⟨va, hva, -⟩ := h.inv.busy_ok w p a _ hwk
          obtain ⟨na, hna, hnalen⟩ := Node.view_get? a "" st.tree va hva
          have hrest := walk_entry_rest fs o st p a d
          have hlen := busy_len_set st.workers w (Worker.busy p a (some ⟨ds, err⟩)) _ hwk
          simp only [busy_ptr, Option.toList, List.length_singleton] at hlen
          refine ⟨?_, ?_, ?_⟩
          · simp only [set_worker, walk_entry_tree fs o st p a d na hna,
              walk_entry_work fs o st p a d na hna, hrest.1, hnalen]
            exact inv_entry fs o h.inv w hwk va hva
          · simp only [set_worker, hrest.1, hrest.2.1, h.wip]
            omega
          · intro hmem
            exfalso
            simp only [set_worker, hrest.1] at hmem
            exact not_exited_set hnoexit w _ (by simp) hmem

theorem sinv_exec (fs : FS) (o : Opts) (sched : List Nat) :
    ∀ (st : State), SInv fs o st → SInv fs o (exec fs o st sched) := by
  induction sched with
  | nil => intro st h; exact h
  | cons w ws ih =>
    intro st h
    simp only [exec]
    apply ih
    unfold step_or_stay
    cases hs : walk_step fs o st w with
    | none => exact h
    | some st' => exact sinv_step fs o st st' w h hs

/-- Induction on `Node` trees: a property holds of a node as soon as it holds
of all its children. -/
theorem Node.induct {P : Node → Prop}
    (h : ∀ n d l, (∀ c ∈ l, P c) → P (Node.mk n d l)) : ∀ t, P t := by
  intro t
  refine @Node.rec P (fun l => ∀ c ∈ l, P c) h ?_ ?_ t
  · intro c hc; cases hc
  · intro x xs hx hxs c hc
    rcases List.mem_cons.mp hc with rfl | hc
    · exact hx
    · exact hxs c hc

theorem Settled.child {fs : FS} {o : Opts} {pre : String} {asdir : Bool} {n : String}
    {d : Bool} {l : List Node} (h : Settled fs o pre asdir (Node.mk n d l)) (k : Nat)
    (c : Node) (hk : l[k]? = some c) : Settled fs o (pre ++ n ++ "/") false c := by
  intro b v hv
  have hv' : (Node.mk n d l).view pre (k :: b) = some v := by
    simp only [Node.view, hk]; exact hv
  have := h (k :: b) v hv'
  simpa using this

theorem Settled.kids_eq {fs : FS} {o : Opts} {pre : String} {asdir : Bool} {n : String}
    {d : Bool} {l1 l2 : List Node} (h1 : Settled fs o pre asdir (Node.mk n d l1))
    (h2 : Settled fs o pre asdir (Node.mk n d l2)) :
    (Node.mk n d l1).kids = (Node.mk n d l2).kids := by
  have a1 := h1 [] ⟨pre ++ n, d, (Node.mk n d l1).kids⟩ rfl
  have a2 := h2 [] ⟨pre ++ n, d, (Node.mk n d l2).kids⟩ rfl
  by_cases hc : (([] : NodePtr) = [] ∧ asdir = true) ∨ d = true
  · have b1 := a1.1 hc
    have b2 := a2.1 hc
    unfold Done at b1 b2
    simp only at b1 b2
    cases ho : fs.opendir (pre ++ n) with
    | error e => simp only [ho] at b1 b2; rw [b1, b2]
    | ok s => simp only [ho] at b1 b2; rw [b1, b2]
  · have b1 := a1.2 hc
    have b2 := a2.2 hc
    simp only at b1 b2
    rw [b1, b2]

theorem settled_unique (fs : FS) (o : Opts) :
    ∀ (t1 t2 : Node) (pre : String) (asdir : Bool), Settled fs o pre asdir t1 →
      Settled fs o pre asdir t2 → t1.name = t2.name → t1.dir_p = t2.dir_p → t1 = t2 := by
  intro t1
  induction t1 using Node.induct with
  | h n d l1 ih =>
    intro t2 pre asdir h1 h2 hn hd
    cases t2 with
    | mk n2 d2 l2 =>
      simp only [Node.name_mk, Node.dir_p_mk] at hn hd
      subst hn hd
      have hk := Settled.kids_eq h1 h2
      simp only [Node.kids_mk] at hk
      have hlen : l1.length = l2.length := by
        have := congrArg List.length hk
        simpa using this
      congr 1
      apply List.ext_getElem? 
      intro k
      cases hk1 : l1[k]? with
      | none =>
        have : l1.length ≤ k := by
          by_contra hcon
          rw [List.getElem?_eq_getElem (by omega)] at hk1; cases hk1
        rw [List.getElem?_eq_none (by omega)]
      | some c1 =>
        have hlt : k < l1.length := by
          by_contra hcon
          rw [List.getElem?_eq_none (by omega)] at hk1; cases hk1
        have hlt2 : k < l2.length := by omega
        have hk2 : l2[k]? = some l2[k] := List.getElem?_eq_getElem hlt2
        rw [hk2]
        congr 1
        have hshape := congrArg (fun m => m[k]?) hk
        simp only [List.getElem?_map, hk1, hk2, Option.map_some', Option.some.injEq,
          Prod.mk.injEq] at hshape
        exact ih c1 (List.getElem?_mem hk1) _ _ false (h1.child k c1 hk1)
          (h2.child k _ hk2) hshape.1 hshape.2

/-! ## The root node and the final state -/

theorem Node.root_set_dir_p (t : Node) (a : NodePtr) (k : Nat) :
    (t.set_dir_p (a ++ [k])).name = t.name ∧ (t.set_dir_p (a ++ [k])).dir_p = t.dir_p := by
  cases t with
  | mk n d l =>
    cases a with
    | nil => simp only [List.nil_append, Node.set_dir_p]; split <;> simp
    | cons j js => simp only [List.cons_append, Node.set_dir_p]; split <;> simp

theorem walk_entry_root (fs : FS) (o : Opts) (st : State) (p : String) (a : NodePtr)
    (d : Dirent) :
    (walk_entry fs o st p a d).tree.name = st.tree.name ∧
    (walk_entry fs o st p a d).tree.dir_p = st.tree.dir_p := by
  unfold walk_entry
  simp only
  split_ifs <;> (try split) <;> (try split_ifs) <;>
    simp [Node.root_set_dir_p]

theorem step_root (fs : FS) (o : Opts) (st st' : State) (w : Nat)
    (hstep : walk_step fs o st w = some st') :
    st'.tree.name = st.tree.name ∧ st'.tree.dir_p = st.tree.dir_p := by
  unfold walk_step at hstep
  split at hstep
  · cases hstep
  · cases hstep
  · split at hstep
    · split_ifs at hstep <;> (cases hstep; simp [set_worker])
    · split at hstep
      · split_ifs at hstep <;> (cases hstep; simp [set_worker])
      · cases hstep; simp [set_worker]
  · cases hstep; simpa [set_worker] using walk_entry_root fs o st _ _ _
  · cases hstep; simp [set_worker]
  · cases hstep; simp [set_worker]
  · cases hstep; simp [set_worker]

theorem exec_root (fs : FS) (o : Opts) (sched : List Nat) :
    ∀ (st : State), (exec fs o st sched).tree.name = st.tree.name ∧
      (exec fs o st sched).tree.dir_p = st.tree.dir_p := by
  induction sched with
  | nil => intro st; exact ⟨rfl, rfl⟩
  | cons w ws ih =>
    intro st
    simp only [exec]
    have h1 := ih (step_or_stay fs o st w)
    have h2 : (step_or_stay fs o st w).tree.name = st.tree.name ∧
        (step_or_stay fs o st w).tree.dir_p = st.tree.dir_p := by
      unfold step_or_stay
      cases hs : walk_step fs o st w with
      | none => exact ⟨rfl, rfl⟩
      | some st' => exact step_root fs o st st' w hs
    exact ⟨h1.1.trans h2.1, h1.2.trans h2.2⟩

theorem step_workers_length (fs : FS) (o : Opts) (st st' : State) (w : Nat)
    (hstep : walk_step fs o st w = some st') : st'.workers.length = st.workers.length := by
  unfold walk_step at hstep
  split at hstep
  · cases hstep
  · cases hstep
  · split at hstep
    · split_ifs at hstep <;> (cases hstep; simp [set_worker])
    · split at hstep
      · split_ifs at hstep <;> (cases hstep; simp [set_worker])
      · cases hstep; simp [set_worker]
  · cases hstep; simp [set_worker, (walk_entry_rest fs o st _ _ _).1]
  · cases hstep; simp [set_worker]
  · cases hstep; simp [set_worker]
  · cases hstep; simp [set_worker]

theorem exec_workers_length (fs : FS) (o : Opts) (sched : List Nat) :
    ∀ (st : State), (exec fs o st sched).workers.length = st.workers.length := by
  induction sched with
  | nil => intro st; rfl
  | cons w ws ih =>
    intro st
    simp only [exec]
    rw [ih]
    unfold step_or_stay
    cases hs : walk_step fs o st w with
    | none => rfl
    | some st' => exact step_workers_length fs o st st' w hs

theorem all_exited_iff (st : State) :
    all_exited st = true ↔ ∀ x ∈ st.workers, x = Worker.exited := by
  simp [all_exited]

/-- When every thread has exited, every directory of the tree has been read to
the end. -/
theorem final_settled (fs : FS) (o : Opts) (st : State) (h : SInv fs o st)
    (hne : st.workers ≠ []) (hfin : all_exited st = true) :
    st.work = [] ∧ st.wip_cnt = 0 ∧ Settled fs o "" true st.tree := by
  rw [all_exited_iff] at hfin
  have hex : Worker.exited ∈ st.workers := by
    cases hws : st.workers with
    | nil => exact absurd hws hne
    | cons x xs =>
      have := hfin x (by simp [hws])
      simp [this]
  obtain ⟨hwork, hwip⟩ := h.exit_ok hex
  have hbusy : busy_ptrs st.workers = [] := by
    unfold busy_ptrs
    rw [List.filterMap_eq_nil_iff]
    intro x hx
    rw [hfin x hx]; rfl
  have hown : owners st.work st.workers = [] := by
    simp [owners, hwork, hbusy]
  refine ⟨hwork, hwip, ?_⟩
  intro b v hv
  constructor
  · intro hc
    apply h.inv.done_ok b v hv
    · rcases hc with ⟨hb, _⟩ | hd
      · exact Or.inl hb
      · exact Or.inr hd
    · simp [hown]
  · intro hc
    push_neg at hc
    apply h.inv.leaf_ok b v hv
    · intro hb; exact hc.1 hb rfl
    · simpa using hc.2

theorem entry_kid_congr (fs : FS) (o1 o2 : Opts) (hs : o1.opt_s = o2.opt_s)
    (ht : o1.opt_t = o2.opt_t) : entry_kid fs o1 = entry_kid fs o2 := by
  funext p d
  simp only [entry_kid, hs, ht]

theorem settled_congr (fs : FS) (o1 o2 : Opts) (hs : o1.opt_s = o2.opt_s)
    (ht : o1.opt_t = o2.opt_t) (pre : String) (asdir : Bool) (t : Node)
    (h : Settled fs o1 pre asdir t) : Settled fs o2 pre asdir t := by
  have hk := entry_kid_congr fs o1 o2 hs ht
  intro b v hv
  have := h b v hv
  simpa only [Done, hk] using this

/-- The tree at the end of a complete run is the same for all runs: it does
not depend on the number of threads or on the interleaving. -/
theorem final_tree_unique (fs : FS) (o1 o2 : Opts) (hs : o1.opt_s = o2.opt_s)
    (ht : o1.opt_t = o2.opt_t) (root : String) (n1 n2 : Nat) (d1 d2 : List Diag)
    (s1 s2 : List Nat) (h1 : 1 ≤ n1) (h2 : 1 ≤ n2)
    (e1 : all_exited (exec fs o1 (init_state root n1 d1) s1) = true)
    (e2 : all_exited (exec fs o2 (init_state root n2 d2) s2) = true) :
    (exec fs o1 (init_state root n1 d1) s1).tree = (exec fs o2 (init_state root n2 d2) s2).tree := by
  have i1 := sinv_exec fs o1 s1 _ (sinv_init fs o1 root n1 d1)
  have i2 := sinv_exec fs o2 s2 _ (sinv_init fs o2 root n2 d2)
  have w1 : (exec fs o1 (init_state root n1 d1) s1).workers ≠ [] := by
    intro hnil
    have := exec_workers_length fs o1 s1 (init_state root n1 d1)
    rw [hnil] at this
    simp [init_state] at this
    omega
  have w2 : (exec fs o2 (init_state root n2 d2) s2).workers ≠ [] := by
    intro hnil
    have := exec_workers_length fs o2 s2 (init_state root n2 d2)
    rw [hnil] at this
    simp [init_state] at this
    omega
  have f1 := (final_settled fs o1 _ i1 w1 e1).2.2
  have f2 := (final_settled fs o2 _ i2 w2 e2).2.2
  have r1 := exec_root fs o1 s1 (init_state root n1 d1)
  have r2 := exec_root fs o2 s2 (init_state root n2 d2)
  apply settled_unique fs o2 _ _ "" true (settled_congr fs o1 o2 hs ht _ _ _ f1) f2
  · rw [r1.1, r2.1]; rfl
  · rw [r1.2, r2.2]; rfl

/-! ## The directories emitter -/

/-- Simultaneous induction on nodes and lists of nodes. -/
theorem Node.induct2 {P : Node → Prop} {Q : List Node → Prop}
    (h1 : ∀ n d l, Q l → P (Node.mk n d l)) (h2 : Q [])
    (h3 : ∀ c cs, P c → Q cs → Q (c :: cs)) : (∀ t, P t) ∧ (∀ l, Q l) :=
  ⟨fun t => @Node.rec P Q h1 h2 h3 t,
   fun l => @Node.rec_1 P Q h1 h2 h3 l⟩

theorem dir_ptrs_shape :
    (∀ t : Node, ∀ b ∈ dir_ptrs t, t.dir_chain b = true) ∧
    (∀ l : List Node, ∀ (k : Nat) (b : NodePtr), b ∈ dir_ptrs_list l k →
      ∃ j rest c, b = (k + j) :: rest ∧ l[j]? = some c ∧ c.dir_p = true ∧
        c.dir_chain rest = true) := by
  apply Node.induct2
  · intro n d l ih b hb
    simp only [dir_ptrs, List.mem_cons] at hb
    rcases hb with rfl | hb
    · rfl
    · obtain ⟨j, rest, c, rfl, hj, hd, hc⟩ := ih 0 b hb
      simp [Node.dir_chain, hj, hd, hc]
  · intro k b hb
    simp [dir_ptrs_list] at hb
  · intro c cs ihc ihcs k b hb
    simp only [dir_ptrs_list, List.mem_append] at hb
    rcases hb with hb | hb
    · by_cases hd : c.dir_p = true
      · simp only [hd, if_true, List.mem_map] at hb
        obtain ⟨b', hb', rfl⟩ := hb
        exact ⟨0, b', c, rfl, by simp, hd, ihc b' hb'⟩
      · simp [hd] at hb
    · obtain ⟨j, rest, c', rfl, hj, hd, hc⟩ := ihcs (k + 1) b hb
      exact ⟨j + 1, rest, c', by rw [Nat.add_assoc, Nat.add_comm 1 j], by simpa using hj, hd, hc⟩

theorem dir_ptrs_complete :
    (∀ t : Node, ∀ b, t.dir_chain b = true → b ∈ dir_ptrs t) ∧
    (∀ l : List Node, ∀ (k j : Nat) (rest : NodePtr) (c : Node), l[j]? = some c →
      c.dir_p = true → c.dir_chain rest = true → (k + j) :: rest ∈ dir_ptrs_list l k) := by
  apply Node.induct2
  · intro n d l ih b hb
    cases b with
    | nil => simp [dir_ptrs]
    | cons j rest =>
      simp only [Node.dir_chain] at hb
      cases hj : l[j]? with
      | none => simp [hj] at hb
      | some c =>
        simp only [hj, Bool.and_eq_true] at hb
        have := ih 0 j rest c hj hb.1 hb.2
        simp only [Nat.zero_add] at this
        simp [dir_ptrs, this]
  · intro k j rest c hj
    simp at hj
  · intro c cs ihc ihcs k j rest c' hj hd hc
    simp only [dir_ptrs_list, List.mem_append]
    cases j with
    | zero =>
      simp at hj; subst hj
      left
      simp only [hd, if_true, List.mem_map]
      exact ⟨rest, ihc rest hc, rfl⟩
    | succ j =>
      right
      have := ihcs (k + 1) j rest c' (by simpa using hj) hd hc
      rwa [Nat.add_assoc, Nat.add_comm 1 j] at this

theorem dir_ptrs_preorder :
    (∀ t : Node, PreOrder (dir_ptrs t)) ∧
    (∀ l : List Node, ∀ k : Nat, PreOrder (dir_ptrs_list l k)) := by
  apply Node.induct2
  · intro n d l ih
    simp only [dir_ptrs, PreOrder, List.pairwise_cons]
    refine ⟨?_, ih 0⟩
    intro b hb
    obtain ⟨j, rest, c, rfl, -⟩ := dir_ptrs_shape.2 l 0 b hb
    exact List.Lex.nil
  · intro k
    simp [dir_ptrs_list, PreOrder]
  · intro c cs ihc ihcs k
    simp only [dir_ptrs_list, PreOrder, List.pairwise_append]
    refine ⟨?_, ihcs (k + 1), ?_⟩
    · by_cases hd : c.dir_p = true
      · simp only [hd, if_true]
        rw [List.pairwise_map]
        exact List.Pairwise.imp (fun h => List.Lex.cons h) ihc
      · simp [hd]
    · intro a ha b hb
      obtain ⟨j, rest, c', rfl, -⟩ := dir_ptrs_shape.2 cs (k + 1) b hb
      by_cases hd : c.dir_p = true
      · simp only [hd, if_true, List.mem_map] at ha
        obtain ⟨a', -, rfl⟩ := ha
        exact List.Lex.rel (by omega)
      · simp [hd] at ha

/-- The record `dirs_depth_first` prints for a pointer, below the text `pre`. -/
theorem dirs_depth_first_eq (opt_0 : Char) :
    (∀ (t : Node) (pre : String), dirs_depth_first opt_0 t pre =
      (dir_ptrs t).map fun b =>
        ((t.view pre b).map fun v => v.path ++ String.singleton opt_0).getD "") ∧
    (∀ (l : List Node) (k : Nat) (done : List Node) (n : String) (d : Bool) (pre : String),
      done.length = k →
      dirs_loop opt_0 l ((pre ++ n) ++ "/") =
        (dir_ptrs_list l k).map fun b =>
          (((Node.mk n d (done ++ l)).view pre b).map fun v =>
            v.path ++ String.singleton opt_0).getD "") := by
  apply Node.induct2
  · intro n d l ih pre
    simp only [dirs_depth_first, dir_ptrs, List.map_cons]
    congr 1
    exact ih 0 [] n d pre rfl
  · intro k done n d pre _
    simp [dirs_loop, dir_ptrs_list]
  · intro c cs ihc ihcs k done n d pre hlen
    simp only [dirs_loop, dir_ptrs_list, List.map_append]
    congr 1
    · by_cases hd : c.dir_p = true
      · simp only [hd, if_true, List.map_map]
        rw [ihc]
        apply List.map_congr_left
        intro b _
        subst hlen
        have hget : (done ++ c :: cs)[done.length]? = some c := by
          rw [List.getElem?_append_right (Nat.le_refl _)]
          simp
        simp only [Function.comp, Node.view, hget]
      · simp [hd]
    · have := ihcs (k + 1) (done ++ [c]) n d pre (by simp [hlen])
      simpa using this

theorem Node.view_snoc (b : NodePtr) :
    ∀ (t : Node) (pre : String) (k : Nat) (c : Node), t.get? (b ++ [k]) = some c →
      ∃ v, t.view pre b = some v ∧
        t.view pre (b ++ [k]) = some ⟨v.path ++ "/" ++ c.name, c.dir_p, c.kids⟩ := by
  induction b with
  | nil =>
    intro t pre k c h
    cases t with
    | mk n d l =>
      simp only [List.nil_append, Node.get?] at h
      cases hk : l[k]? with
      | none => simp [hk] at h
      | some x =>
        simp only [hk] at h
        have hx : x = c := by cases x; simpa [Node.get?] using h
        subst hx
        exact ⟨_, rfl, by simp [Node.view, hk]⟩
  | cons j js ih =>
    intro t pre k c h
    cases t with
    | mk n d l =>
      simp only [List.cons_append, Node.get?] at h
      cases hj : l[j]? with
      | none => simp [hj] at h
      | some x =>
        simp only [hj] at h
        obtain ⟨v, hv, hv'⟩ := ih x (pre ++ n ++ "/") k c h
        exact ⟨v, by simp [Node.view, hj, hv], by simp [Node.view, hj, hv']⟩

theorem Node.dir_chain_view (b : NodePtr) :
    ∀ (t : Node) (pre : String), t.dir_chain b = true → ∃ v, t.view pre b = some v := by
  induction b with
  | nil => intro t pre _; cases t; exact ⟨_, rfl⟩
  | cons j js ih =>
    intro t pre h
    cases t with
    | mk n d l =>
      simp only [Node.dir_chain] at h
      cases hj : l[j]? with
      | none => simp [hj] at h
      | some x =>
        simp only [hj, Bool.and_eq_true] at h
        obtain ⟨v, hv⟩ := ih x (pre ++ n ++ "/") h.2
        exact ⟨v, by simp [Node.view, hj, hv]⟩

theorem Node.dir_chain_get (b : NodePtr) :
    ∀ (t : Node), t.dir_chain b = true → b ≠ [] →
      ∃ c, t.get? b = some c ∧ c.dir_p = true := by
  induction b with
  | nil => intro t _ h; exact absurd rfl h
  | cons j js ih =>
    intro t h _
    cases t with
    | mk n d l =>
      simp only [Node.dir_chain] at h
      cases hj : l[j]? with
      | none => simp [hj] at h
      | some x =>
        simp only [hj, Bool.and_eq_true] at h
        cases js with
        | nil => exact ⟨x, by cases x; simp [Node.get?, hj], h.1⟩
        | cons i is =>
          obtain ⟨c, hc, hd⟩ := ih x h.2 (by simp)
          exact ⟨c, by simp only [Node.get?, hj]; exact hc, hd⟩

/-! ## The tree the walk builds for a directory tree -/

/-- Simultaneous induction on entries and lists of entries. -/
theorem FsTree.induct_both {P : FsTree → Prop} {Q : List FsTree → Prop}
    (h0 : ∀ n, P (FsTree.file n)) (h1 : ∀ n kids, Q kids → P (FsTree.dir n kids)) (h2 : Q [])
    (h3 : ∀ k ks, P k → Q ks → Q (k :: ks)) : (∀ t, P t) ∧ (∀ l, Q l) :=
  ⟨fun t => @FsTree.rec P Q h0 h1 h2 h3 t,
   fun l => @FsTree.rec_1 P Q h0 h1 h2 h3 l⟩

theorem Settled.mk {fs : FS} {o : Opts} {pre : String} {asdir : Bool} {n : String}
    {d : Bool} {l : List Node}
    (hroot : (asdir = true ∨ d = true → Done fs o ⟨pre ++ n, d, (Node.mk n d l).kids⟩) ∧
      (¬ (asdir = true ∨ d = true) → l = []))
    (hkids : ∀ (k : Nat) (c : Node), l[k]? = some c → Settled fs o (pre ++ n ++ "/") false c) :
    Settled fs o pre asdir (Node.mk n d l) := by
  intro b v hv
  cases b with
  | nil =>
    simp only [Node.view, Option.some.injEq] at hv
    subst hv
    simp only [true_and]
    refine ⟨hroot.1, ?_⟩
    intro hc
    simp [hroot.2 hc]
  | cons k ks =>
    simp only [Node.view] at hv
    cases hk : l[k]? with
    | none => simp [hk] at hv
    | some c =>
      simp only [hk] at hv
      have := hkids k c hk ks v hv
      simpa using this

theorem node_of_name (k : FsTree) : (node_of k).name = k.name ∧ (node_of k).dir_p = k.is_dir := by
  cases k <;> simp [node_of, FsTree.name, FsTree.is_dir]

theorem nodes_of_kids (kids : List FsTree) :
    (nodes_of kids).map (fun c => (c.name, c.dir_p)) = kids.map fun k => (k.name, k.is_dir) := by
  induction kids with
  | nil => simp [nodes_of]
  | cons k ks ih => simp [nodes_of, ih, node_of_name]

theorem rep_entry_name (fs : FS) (path : String) (k : FsTree) (d : Dirent)
    (h : rep_entry fs path k d) : d.d_name = k.name := by
  cases k <;> simp only [rep_entry] at h <;> exact h.1

theorem entry_kid_rep (fs : FS) (o : Opts) (path : String) (k : FsTree) (d : Dirent)
    (h : rep_entry fs path k d) (hdot : d.d_name ≠ "." ∧ d.d_name ≠ "..")
    (hsnap : o.opt_t = 0 → k.name ≠ ".snapshot") :
    entry_kid fs o path d = some (k.name, k.is_dir) := by
  have hname := rep_entry_name fs path k d h
  have h1 : ¬ (d.d_name = "." ∨ d.d_name = "..") := by
    intro hc; rcases hc with hc | hc
    · exact hdot.1 hc
    · exact hdot.2 hc
  have h2 : ¬ (o.opt_t = 0 ∧ d.d_name = ".snapshot") := by
    intro hc; exact hsnap hc.1 (hname ▸ hc.2)
  unfold entry_kid
  simp only [h1, h2, if_false]
  cases k with
  | file n =>
    simp only [rep_entry] at h
    obtain ⟨hn, hty, hst⟩ := h
    simp only [FsTree.name, FsTree.is_dir, hn, hst, hty, decide_False, Bool.false_or]
    split_ifs <;> rfl
  | dir n kids =>
    simp only [rep_entry] at h
    obtain ⟨hn, hty, hst, -⟩ := h
    simp only [FsTree.name, FsTree.is_dir, hn, hst, Bool.or_true]
    split_ifs with h3
    · rfl
    · rcases hty with hty | hty
      · simp [hty]
      · exact absurd (Or.inl hty) h3

theorem rep_list_kids (fs : FS) (o : Opts) (path : String) (ents : List Dirent) :
    ∀ (kids : List FsTree), rep_list fs path kids (real_entries ents) →
      all_names_list (fun n => o.opt_t = 0 → n ≠ ".snapshot") kids →
      ents.filterMap (entry_kid fs o path) = kids.map fun k => (k.name, k.is_dir) := by
  induction ents with
  | nil =>
    intro kids h _
    cases kids with
    | nil => rfl
    | cons k ks => simp [real_entries, rep_list] at h
  | cons d ds ih =>
    intro kids h hs
    by_cases hdot : d.d_name ≠ "." ∧ d.d_name ≠ ".."
    · have hre : real_entries (d :: ds) = d :: real_entries ds := by
        simp [real_entries, List.filter_cons, hdot]
      rw [hre] at h
      cases kids with
      | nil => simp [rep_list] at h
      | cons k ks =>
        simp only [rep_list] at h
        simp only [all_names_list] at hs
        have hsn : o.opt_t = 0 → k.name ≠ ".snapshot" := by
          cases k with
          | file n => simpa [FsTree.all_names, FsTree.name] using hs.1
          | dir n kk =>
            simp only [FsTree.all_names] at hs
            simpa [FsTree.name] using hs.1.1
        simp only [List.filterMap_cons, entry_kid_rep fs o path k d h.1 hdot hsn, List.map_cons]
        rw [ih ks h.2 hs.2]
    · have hre : real_entries (d :: ds) = real_entries ds := by
        simp only [real_entries, List.filter_cons]
        simp [hdot]
      rw [hre] at h
      have hnone : entry_kid fs o path d = none := by
        unfold entry_kid
        have : d.d_name = "." ∨ d.d_name = ".." := by
          by_contra hc
          push_neg at hc
          exact hdot hc
        simp [this]
      simp only [List.filterMap_cons, hnone]
      exact ih kids h hs

/-- The tree built for a directory tree is settled. -/
theorem rep_settled (fs : FS) (o : Opts) :
    (∀ (k : FsTree) (path : String) (d : Dirent), rep_entry fs path k d →
      k.all_names (fun n => o.opt_t = 0 → n ≠ ".snapshot") →
      Settled fs o (path ++ "/") false (node_of k)) ∧
    (∀ (kids : List FsTree) (path : String) (ds : List Dirent), rep_list fs path kids ds →
      all_names_list (fun n => o.opt_t = 0 → n ≠ ".snapshot") kids →
      ∀ (j : Nat) (c : Node), (nodes_of kids)[j]? = some c →
        Settled fs o (path ++ "/") false c) := by
  apply FsTree.induct_both
  · intro n path d _ _
    simp only [node_of]
    apply Settled.mk
    · simp
    · intro k c hk; simp at hk
  · intro n kids ih path d hrep hs
    simp only [rep_entry] at hrep
    obtain ⟨-, -, -, s, hopen, -, hlist⟩ := hrep
    simp only [FsTree.all_names] at hs
    simp only [node_of]
    apply Settled.mk
    · refine ⟨fun _ => ?_, fun hc => ?_⟩
      · unfold Done
        simp only [hopen, Node.kids_mk]
        rw [nodes_of_kids, rep_list_kids fs o _ s.ents kids hlist hs.2]
      · simp at hc
    · intro j c hj
      exact ih (path ++ "/" ++ n) _ hlist hs.2 j c hj
  · intro path ds _ _ j c hj
    simp [nodes_of] at hj
  · intro k ks ihk ihks path ds hrep hs j c hj
    cases ds with
    | nil => simp [rep_list] at hrep
    | cons d ds =>
      simp only [rep_list] at hrep
      simp only [all_names_list] at hs
      cases j with
      | zero =>
        simp [nodes_of] at hj
        subst hj
        exact ihk path d hrep.1 hs.1
      | succ j =>
        simp only [nodes_of, List.getElem?_cons_succ] at hj
        exact ihks path ds hrep.2 hs.2 j c hj

/-- The tree built for the directory tree under `root` is settled. -/
theorem rep_root_settled (fs : FS) (o : Opts) (root : String) (kids : List FsTree)
    (hrep : rep_root fs root kids)
    (hs : all_names_list (fun n => o.opt_t = 0 → n ≠ ".snapshot") kids) :
    Settled fs o "" true (Node.mk root false (nodes_of kids)) := by
  obtain ⟨s, hopen, -, hlist⟩ := hrep
  apply Settled.mk
  · refine ⟨fun _ => ?_, fun hc => ?_⟩
    · unfold Done
      simp only [String.empty_append, hopen, Node.kids_mk]
      rw [nodes_of_kids, rep_list_kids fs o _ s.ents kids hlist hs]
    · simp at hc
  · intro j c hj
    have := (rep_settled fs o).2 kids root _ hlist hs j c hj
    simpa using this

theorem join_path_cons (x n : String) (ns : List String) :
    join_path x (n :: ns) = join_path (x ++ "/" ++ n) ns := rfl

/-- The files emitter on the tree built for a directory tree prints the
non-directory entries. -/
theorem files_of_tree (opt_0 : Char) :
    (∀ (k : FsTree) (x : String), k.is_dir = true → files_depth_first opt_0 (node_of k) (x ++ "/") =
      k.leaves.map fun ns => join_path x ns ++ String.singleton opt_0) ∧
    (∀ (kids : List FsTree) (x : String), files_loop opt_0 (nodes_of kids) (x ++ "/") =
      (leaves_list kids).map fun ns => join_path x ns ++ String.singleton opt_0) := by
  apply FsTree.induct_both
  · intro n x h; simp [FsTree.is_dir] at h
  · intro n kids ih x _
    simp only [node_of, files_depth_first, FsTree.leaves, List.map_map]
    rw [ih (x ++ "/" ++ n)]
    rfl
  · intro x; simp [nodes_of, files_loop, leaves_list]
  · intro k ks ihk ihks x
    simp only [nodes_of, files_loop, leaves_list, List.map_append, ihks x]
    congr 1
    cases k with
    | file n => simp [node_of, FsTree.leaves, join_path]
    | dir n kids =>
      have := ihk x rfl
      simp only [node_of, Node.dir_p_mk, if_true] at this ⊢
      exact this

/-! ## Complete runs exist -/

theorem exec_append (fs : FS) (o : Opts) (s1 s2 : List Nat) :
    ∀ st : State, exec fs o st (s1 ++ s2) = exec fs o (exec fs o st s1) s2 := by
  induction s1 with
  | nil => intro st; rfl
  | cons w ws ih => intro st; simp only [List.cons_append, exec]; exact ih _

theorem walk_entry_work_any (fs : FS) (o : Opts) (st : State) (p : String) (a : NodePtr)
    (d : Dirent) :
    (walk_entry fs o st p a d).work = st.work ++
      entry_push fs o p (a ++ [((st.tree.get? a).map fun n => n.l.length).getD 0]) d := by
  unfold walk_entry entry_push entry_kid
  by_cases h1 : d.d_name = "." ∨ d.d_name = ".."
  · simp [h1]
  · by_cases h2 : o.opt_t = 0 ∧ d.d_name = ".snapshot"
    · simp [h1, h2]
    · simp only [h1, h2, if_false]
      by_cases h3 : d.d_type = DT_UNKNOWN ∨ o.opt_s ≠ 0
      · have h3' : (decide (d.d_type ≠ DT_UNKNOWN) = false ∨ o.opt_s ≠ 0) := by
          simpa using h3
        simp only [h3, h3', if_true]
        cases hl : fs.lstat (p ++ "/" ++ d.d_name) with
        | error e => simp
        | ok isdir =>
          by_cases h4 : (decide (d.d_type = DT_DIR) || isdir) = true
          · simp only [h4, if_true]
          · simp only [h4]; simp at h4; simp [h4]
      · have h3' : ¬ (decide (d.d_type ≠ DT_UNKNOWN) = false ∨ o.opt_s ≠ 0) := by
          simpa using h3
        simp only [h3, h3', if_false]
        by_cases h4 : d.d_type = DT_DIR
        · simp only [h4, decide_True, if_true]
        · simp [h4]

theorem entry_push_rep (fs : FS) (o : Opts) (p : String) (q : NodePtr) (k : FsTree)
    (d : Dirent) (h : rep_entry fs p k d) (hdot : d.d_name ≠ "." ∧ d.d_name ≠ "..") :
    entry_push fs o p q d = [] ∨
      ∃ n kk, k = FsTree.dir n kk ∧ entry_push fs o p q d = [(p ++ "/" ++ n, q)] := by
  by_cases hsn : o.opt_t = 0 ∧ d.d_name = ".snapshot"
  · left
    have h1 : ¬ (d.d_name = "." ∨ d.d_name = "..") := by
      intro hc; rcases hc with hc | hc
      · exact hdot.1 hc
      · exact hdot.2 hc
    simp [entry_push, entry_kid, h1, hsn]
  · have hname := rep_entry_name fs p k d h
    have hk := entry_kid_rep fs o p k d h hdot (fun h0 hc => hsn ⟨h0, hname ▸ hc⟩)
    cases k with
    | file n => left; simp [entry_push, hk, FsTree.is_dir]
    | dir n kk => right; exact ⟨n, kk, rfl, by simp [entry_push, hk, FsTree.is_dir, FsTree.name]⟩

theorem real_entries_cons (d : Dirent) (ds : List Dirent) :
    real_entries (d :: ds) =
      if d.d_name ≠ "." ∧ d.d_name ≠ ".." then d :: real_entries ds else real_entries ds := by
  simp only [real_entries, List.filter_cons]
  split_ifs <;> simp_all

/-- A thread that holds a directory of a tree reads it to the end. -/
theorem drain_entries (fs : FS) (o : Opts) (w : Nat) (p : String) (a : NodePtr)
    (err : Option Nat) :
    ∀ (ents : List Dirent) (st : State) (kids : List FsTree),
      st.workers[w]? = some (Worker.busy p a (some ⟨ents, err⟩)) →
      rep_list fs p kids (real_entries ents) →
      ∃ pushed ghost,
        (exec fs o st (List.replicate ents.length w)).work = st.work ++ pushed ∧
        (exec fs o st (List.replicate ents.length w)).wip_cnt = st.wip_cnt ∧
        (exec fs o st (List.replicate ents.length w)).workers =
          st.workers.set w (Worker.busy p a (some ⟨[], err⟩)) ∧
        List.Forall₂ (fun item g => rep_root fs item.1 g) pushed ghost ∧
        remaining ghost ≤ size_list kids := by
  intro ents
  induction ents with
  | nil =>
    intro st kids hw _
    refine ⟨[], [], by simp [exec], rfl, ?_, List.Forall₂.nil, by simp [remaining]⟩
    simp only [List.length_nil, List.replicate, exec]
    apply List.ext_getElem?
    intro i
    rw [List.getElem?_set]
    split
    · rename_i hi; subst hi
      split
      · exact hw
      · rename_i hlt
        rw [List.getElem?_eq_none (by omega)] at hw; cases hw
    · rfl
  | cons d ds ih =>
    intro st kids hw hrep
    have hlt : w < st.workers.length := by
      by_contra hc
      rw [List.getElem?_eq_none (by omega)] at hw; cases hw
    have hstep : step_or_stay fs o st w =
        set_worker (walk_entry fs o st p a d) w (Worker.busy p a (some ⟨ds, err⟩)) := by
      simp [step_or_stay, walk_step, hw]
    have hrest := walk_entry_rest fs o st p a d
    have hw1 : (step_or_stay fs o st w).workers[w]? = some (Worker.busy p a (some ⟨ds, err⟩)) := by
      rw [hstep]
      simp [set_worker, hrest.1, hlt]
    have hwork1 := walk_entry_work_any fs o st p a d
    have hfin : ∀ (kids' : List FsTree) (g1 : List (List FsTree)),
        rep_list fs p kids' (real_entries ds) →
        List.Forall₂ (fun item g => rep_root fs item.1 g)
          (entry_push fs o p (a ++ [((st.tree.get? a).map fun n => n.l.length).getD 0]) d) g1 →
        remaining g1 + size_list kids' ≤ size_list kids →
        ∃ pushed ghost,
          (exec fs o st (List.replicate (d :: ds).length w)).work = st.work ++ pushed ∧
          (exec fs o st (List.replicate (d :: ds).length w)).wip_cnt = st.wip_cnt ∧
          (exec fs o st (List.replicate (d :: ds).length w)).workers =
            st.workers.set w (Worker.busy p a (some ⟨[], err⟩)) ∧
          List.Forall₂ (fun item g => rep_root fs item.1 g) pushed ghost ∧
          remaining ghost ≤ size_list kids := by
      intro kids' g1 hrep' hg1 hsz
      obtain ⟨pushed, ghost, e1, e2, e3, e4, e5⟩ := ih (step_or_stay fs o st w) kids' hw1 hrep'
      refine ⟨_ ++ pushed, g1 ++ ghost, ?_, ?_, ?_, List.rel_append hg1 e4, ?_⟩
      · simp only [List.length_cons, List.replicate, exec, e1]
        rw [hstep]
        simp only [set_worker, hwork1, List.append_assoc]
      · simp only [List.length_cons, List.replicate, exec, e2]
        rw [hstep]
        simp only [set_worker, hrest.2.1]
      · simp only [List.length_cons, List.replicate, exec, e3]
        rw [hstep]
        simp only [set_worker, hrest.1, List.set_set]
      · have : remaining (g1 ++ ghost) = remaining g1 + remaining ghost := by
          simp [remaining]
        omega
    rw [real_entries_cons] at hrep
    by_cases hdot : d.d_name ≠ "." ∧ d.d_name ≠ ".."
    · rw [if_pos hdot] at hrep
      cases kids with
      | nil => simp [rep_list] at hrep
      | cons k ks =>
        simp only [rep_list] at hrep
        rcases entry_push_rep fs o p
          (a ++ [((st.tree.get? a).map fun n => n.l.length).getD 0]) k d hrep.1 hdot with
          h0 | ⟨n, kk, hk, h1⟩
        · apply hfin ks [] hrep.2
          · rw [h0]; exact List.Forall₂.nil
          · simp [remaining, size_list]
        · subst hk
          apply hfin ks [kk] hrep.2
          · rw [h1]
            refine List.Forall₂.cons ?_ List.Forall₂.nil
            have := hrep.1
            simp only [rep_entry] at this
            exact this.2.2.2
          · simp [remaining, size_list, FsTree.size]
            omega
    · rw [if_neg hdot] at hrep
      apply hfin kids [] hrep
      · have hnone : entry_kid fs o p d = none := by
          unfold entry_kid
          have : d.d_name = "." ∨ d.d_name = ".." := by
            by_contra hc
            push_neg at hc
            exact hdot hc
          simp [this]
        simp only [entry_push, hnone]
        exact List.Forall₂.nil
      · simp [remaining]

theorem set_same {α : Type} (l : List α) (w : Nat) (x : α) (h : l[w]? = some x) :
    l.set w x = l := by
  apply List.ext_getElem?
  intro i
  rw [List.getElem?_set]
  split
  · rename_i hi; subst hi
    split
    · exact h.symm
    · rename_i hlt
      rw [List.getElem?_eq_none (by omega)] at h; cases h
  · rfl

theorem step_at_end (fs : FS) (o : Opts) (st : State) (w : Nat) (p : String) (a : NodePtr)
    (h : st.workers[w]? = some (Worker.busy p a (some ⟨[], none⟩))) :
    step_or_stay fs o st w =
      set_worker { st with wip_cnt := st.wip_cnt - 1 } w Worker.idle := by
  simp [step_or_stay, walk_step, h]

/-- A single thread empties a worklist whose directories hold finite trees. -/
theorem drain (fs : FS) (o : Opts) (w : Nat) :
    ∀ (n : Nat) (st : State) (ghost : List (List FsTree)), remaining ghost ≤ n →
      st.workers[w]? = some Worker.idle → st.wip_cnt = 0 →
      List.Forall₂ (fun item g => rep_root fs item.1 g) st.work ghost →
      ∃ sched, (exec fs o st sched).work = [] ∧ (exec fs o st sched).wip_cnt = 0 ∧
        (exec fs o st sched).workers = st.workers := by
  intro n
  induction n with
  | zero =>
    intro st ghost hn hw hwip hrel
    cases hwk : st.work with
    | nil => exact ⟨[], hwk, hwip, rfl⟩
    | cons item rest =>
      rw [hwk] at hrel
      cases hrel with
      | cons _ _ => simp [remaining] at hn
  | succ m ih =>
    intro st ghost hn hw hwip hrel
    cases hwk : st.work with
    | nil => exact ⟨[], hwk, hwip, rfl⟩
    | cons item rest =>
      obtain ⟨p, a⟩ := item
      rw [hwk] at hrel
      cases hrel with
      | cons hhead htail =>
        rename_i g gs
        obtain ⟨s, hopen, herr, hlist⟩ := hhead
        have hlt : w < st.workers.length := by
          by_contra hc
          rw [List.getElem?_eq_none (by omega)] at hw; cases hw
        -- the pop
        have hstep1 : step_or_stay fs o st w =
            set_worker { st with work := rest, wip_cnt := st.wip_cnt + 1 } w
              (Worker.busy p a (some s)) := by
          simp [step_or_stay, walk_step, hw, hwk, hopen]
        have hw1 : (step_or_stay fs o st w).workers[w]? =
            some (Worker.busy p a (some ⟨s.ents, s.err⟩)) := by
          rw [hstep1]; simp [set_worker, hlt]
        -- the entries
        obtain ⟨pushed, ghost2, e1, e2, e3, e4, e5⟩ :=
          drain_entries fs o w p a s.err s.ents (step_or_stay fs o st w) g hw1 hlist
        -- the final critical section
        have hw2 : (exec fs o (step_or_stay fs o st w) (List.replicate s.ents.length w)).workers[w]?
            = some (Worker.busy p a (some ⟨[], none⟩)) := by
          rw [e3, hstep1, herr]; simp [set_worker, hlt]
        have hstep3 : step_or_stay fs o
            (exec fs o (step_or_stay fs o st w) (List.replicate s.ents.length w)) w =
            set_worker { (exec fs o (step_or_stay fs o st w) (List.replicate s.ents.length w))
              with wip_cnt := (exec fs o (step_or_stay fs o st w)
                (List.replicate s.ents.length w)).wip_cnt - 1 } w Worker.idle := by
          exact step_at_end fs o _ w p a hw2
        have hrem : remaining (gs ++ ghost2) ≤ m := by
          have h1 : remaining (gs ++ ghost2) = remaining gs + remaining ghost2 := by
            simp [remaining]
          have h2 : remaining (g :: gs) = size_list g + 1 + remaining gs := by
            simp [remaining]
          omega
        obtain ⟨sched3, f1, f2, f3⟩ := ih
          (step_or_stay fs o
            (exec fs o (step_or_stay fs o st w) (List.replicate s.ents.length w)) w)
          (gs ++ ghost2) hrem
          (by rw [hstep3]; simp only [set_worker, e3]
              rw [hstep1]; simp [set_worker, hlt])
          (by rw [hstep3]; simp only [set_worker, e2]
              rw [hstep1]; simp [set_worker, hwip])
          (by rw [hstep3]; simp only [set_worker, e1]
              rw [hstep1]; simp only [set_worker]
              exact List.rel_append htail e4)
        refine ⟨w :: (List.replicate s.ents.length w ++ (w :: sched3)), ?_, ?_, ?_⟩
        · simp only [exec, exec_append]; exact f1
        · simp only [exec, exec_append]; exact f2
        · simp only [exec, exec_append]
          rw [f3, hstep3]
          simp only [set_worker, e3]
          rw [hstep1]
          simp only [set_worker, List.set_set]
          exact set_same _ _ _ hw

/-- With the worklist empty and nobody holding an item, a step of thread `i`
is its exit. -/
theorem quiet_step (fs : FS) (o : Opts) (st : State) (i : Nat) (hwork : st.work = [])
    (hwip : st.wip_cnt = 0) (hall : ∀ x ∈ st.workers, x = Worker.idle ∨ x = Worker.exited) :
    (step_or_stay fs o st i).work = [] ∧ (step_or_stay fs o st i).wip_cnt = 0 ∧
    (step_or_stay fs o st i).workers = st.workers.set i Worker.exited := by
  unfold step_or_stay walk_step
  cases hi : st.workers[i]? with
  | none =>
    simp only [Option.getD_none]
    refine ⟨hwork, hwip, ?_⟩
    have : st.workers.length ≤ i := by
      by_contra hc
      rw [List.getElem?_eq_getElem (by omega)] at hi; cases hi
    rw [List.set_eq_of_length_le this]
  | some x =>
    rcases hall x (List.getElem?_mem hi) with rfl | rfl
    · simp [hwork, hwip, set_worker]
    · simp only [Option.getD_none]
      exact ⟨hwork, hwip, (set_same _ _ _ hi).symm⟩

theorem quiet_exec (fs : FS) (o : Opts) (sched : List Nat) :
    ∀ (st : State), st.work = [] → st.wip_cnt = 0 →
      (∀ x ∈ st.workers, x = Worker.idle ∨ x = Worker.exited) →
      (exec fs o st sched).workers =
        sched.foldl (fun ws i => ws.set i Worker.exited) st.workers := by
  induction sched with
  | nil => intro st _ _ _; rfl
  | cons i is ih =>
    intro st hwork hwip hall
    obtain ⟨h1, h2, h3⟩ := quiet_step fs o st i hwork hwip hall
    simp only [exec, List.foldl_cons]
    rw [ih _ h1 h2, h3]
    intro x hx
    rw [h3] at hx
    rcases List.mem_or_eq_of_mem_set hx with hx | hx
    · exact hall x hx
    · exact Or.inr hx

theorem mark_range (n : Nat) (ws : List Worker) :
    ((List.range n).foldl (fun ws i => ws.set i Worker.exited) ws).length = ws.length ∧
    ∀ i, i < n → i < ws.length →
      ((List.range n).foldl (fun ws i => ws.set i Worker.exited) ws)[i]? = some Worker.exited := by
  induction n with
  | zero => simp
  | succ m ih =>
    rw [List.range_succ, List.foldl_append]
    simp only [List.foldl_cons, List.foldl_nil, List.length_set]
    refine ⟨ih.1, ?_⟩
    intro i hi hlen
    rw [List.getElem?_set]
    split
    · simp [ih.1]; omega
    · rename_i hne
      exact ih.2 i (by omega) hlen

/-- From the state `main` sets up on a directory tree, with at least one
thread, some schedule lets every thread exit. -/
theorem complete_run_exists (fs : FS) (o : Opts) (root : String) (nthr : Nat) (diag : List Diag)
    (kids : List FsTree) (hrep : rep_root fs root kids) (hn : 1 ≤ nthr) :
    ∃ sched, all_exited (exec fs o (init_state root nthr diag) sched) = true := by
  obtain ⟨s1, h1, h2, h3⟩ := drain fs o 0 (remaining [kids]) (init_state root nthr diag) [kids]
    (Nat.le_refl _)
    (by simp only [init_state]; rw [List.getElem?_replicate]; simp; omega)
    rfl
    (by simp only [init_state]; exact List.Forall₂.cons hrep List.Forall₂.nil)
  refine ⟨s1 ++ List.range nthr, ?_⟩
  rw [exec_append]
  have hall : ∀ x ∈ (exec fs o (init_state root nthr diag) s1).workers,
      x = Worker.idle ∨ x = Worker.exited := by
    intro x hx
    rw [h3] at hx
    simp [init_state] at hx
    exact Or.inl hx.2
  have hws := quiet_exec fs o (List.range nthr) _ h1 h2 hall
  rw [all_exited_iff, hws, h3]
  have hm := mark_range nthr (init_state root nthr diag).workers
  intro x hx
  obtain ⟨i, hi⟩ := List.getElem?_of_mem hx
  have hlen : i < ((List.range nthr).foldl (fun ws i => ws.set i Worker.exited)
      (init_state root nthr diag).workers).length := by
    by_contra hc
    rw [List.getElem?_eq_none (by omega)] at hi; cases hi
  rw [hm.1] at hlen
  have hlen' : i < nthr := by simpa [init_state] using hlen
  have := hm.2 i hlen' hlen
  rw [this] at hi
  exact (Option.some.inj hi).symm

/-! ## C2 : the directories emitter -/

/-- The directories emitter on an arbitrary tree: it visits the root and the
nodes reached from it through nodes with `dir_p` set, in pre-order. -/
theorem dirs_preorder_chain (t : Node) (opt_0 : Char) :
    dirs_depth_first opt_0 t "" =
      (dir_ptrs t).map (fun b => t.path_at b ++ String.singleton opt_0) ∧
    (dir_ptrs t).head? = some [] ∧
    t.path_at [] = t.name ∧
    (∀ b, b ∈ dir_ptrs t ↔ t.dir_chain b = true) ∧
    PreOrder (dir_ptrs t) ∧
    (∀ b k c, t.get? (b ++ [k]) = some c →
      t.path_at (b ++ [k]) = t.path_at b ++ "/" ++ c.name) ∧
    (∀ b ∈ dir_ptrs t, b ≠ [] → ∃ c, t.get? b = some c ∧ c.dir_p = true) ∧
    dirs_depth_first '\n' example_tree "" = ["r\n", "r/b\n", "r/b/d\n", "r/e\n"] := by
  refine ⟨?_, ?_, ?_, ?_, dir_ptrs_preorder.1 t, ?_, ?_, by decide⟩
  · rw [(dirs_depth_first_eq opt_0).1 t ""]
    apply List.map_congr_left
    intro b hb
    obtain ⟨v, hv⟩ := Node.dir_chain_view b t "" (dir_ptrs_shape.1 t b hb)
    simp [Node.path_at, hv]
  · cases t; simp [dir_ptrs]
  · cases t; simp [Node.path_at, Node.view]
  · intro b
    exact ⟨dir_ptrs_shape.1 t b, dir_ptrs_complete.1 t b⟩
  · intro b k c h
    obtain ⟨v, hv, hv'⟩ := Node.view_snoc b t "" k c h
    simp [Node.path_at, hv, hv']
  · intro b hb hne
    exact Node.dir_chain_get b t (dir_ptrs_shape.1 t b hb) hne

theorem well_shaped_list_iff (l : List Node) :
    well_shaped_list l = true ↔ ∀ c ∈ l, c.well_shaped = true := by
  induction l with
  | nil => simp [well_shaped_list]
  | cons c cs ih => simp [well_shaped_list, ih]

/-- In a well-shaped tree every node with `dir_p` set is reached from the
root through nodes with `dir_p` set. -/
theorem dir_chain_of_well_shaped (b : NodePtr) :
    ∀ (t c : Node), well_shaped_list t.l = true → b ≠ [] → t.get? b = some c →
      c.dir_p = true → t.dir_chain b = true := by
  induction b with
  | nil => intro t c _ h; exact absurd rfl h
  | cons k ks ih =>
    intro t c hwf _ hget hd
    cases t with
    | mk n d l =>
      simp only [Node.get?] at hget
      cases hk : l[k]? with
      | none => simp [hk] at hget
      | some x =>
        simp only [hk] at hget
        simp only [Node.dir_chain, hk, Bool.and_eq_true]
        have hx : x.well_shaped = true :=
          (well_shaped_list_iff l).mp hwf x (List.getElem?_mem hk)
        cases x with
        | mk xn xd xl =>
          simp only [Node.well_shaped, Bool.and_eq_true, Bool.or_eq_true] at hx
          cases ks with
          | nil =>
            simp only [Node.get?, Option.some.injEq] at hget
            subst hget
            exact ⟨hd, rfl⟩
          | cons j js =>
            have hne : xl ≠ [] := by
              intro hnil
              subst hnil
              simp [Node.get?] at hget
            have hxd : xd = true := by
              rcases hx.1 with h1 | h1
              · exact h1
              · exact absurd (List.isEmpty_iff.mp h1) hne
            exact ⟨hxd, ih (Node.mk xn xd xl) c hx.2 (by simp) hget hd⟩

/-- A subtree all of whose nodes with `dir_p` unset have no children is well
shaped. -/
theorem well_shaped_of_view :
    ∀ (t : Node) (pre : String),
      (∀ b v, t.view pre b = some v → v.dir_p = false → v.kids = []) →
      t.well_shaped = true := by
  intro t
  induction t using Node.induct with
  | h n d l ih =>
    intro pre h
    simp only [Node.well_shaped, Bool.and_eq_true, Bool.or_eq_true]
    constructor
    · cases d with
      | true => exact Or.inl rfl
      | false =>
        right
        have := h [] ⟨pre ++ n, false, (Node.mk n false l).kids⟩ rfl rfl
        simp only [Node.kids_mk, List.map_eq_nil_iff] at this
        simp [this]
    · rw [well_shaped_list_iff]
      intro c hc
      obtain ⟨k, hk⟩ := List.getElem?_of_mem hc
      apply ih c hc (pre ++ n ++ "/")
      intro b v hv hd
      apply h (k :: b) v _ hd
      simp only [Node.view, hk]
      exact hv

/-- The tree of every state of the walk is well shaped below the root. -/
theorem walk_tree_well_shaped (fs : FS) (o : Opts) (root : String) (nthr : Nat)
    (diag : List Diag) (sched : List Nat) :
    well_shaped_list (exec fs o (init_state root nthr diag) sched).tree.l = true := by
  have hinv := sinv_exec fs o sched _ (sinv_init fs o root nthr diag)
  have hleaf := hinv.inv.leaf_ok
  revert hleaf
  generalize (exec fs o (init_state root nthr diag) sched).tree = t
  intro hleaf
  cases t with
  | mk n d l =>
    simp only [Node.l_mk]
    rw [well_shaped_list_iff]
    intro c hc
    obtain ⟨k, hk⟩ := List.getElem?_of_mem hc
    apply well_shaped_of_view c ("" ++ n ++ "/")
    intro b v hv hd
    apply hleaf (k :: b) v _ (by simp) hd
    simp only [Node.view, hk]
    exact hv

/-- C2: for every `Node` tree of the shape `walk` builds (a node with `dir_p`
unset has no children below the root, which every tree `main` passes to the
emitter satisfies) and every terminator, `dirs_depth_first(root, "")` prints
one record per visited node, the node's path followed by the terminator; the
first record is the root's name (the starting path); the visited nodes are
the root and every directory node (every node with `dir_p` set), each exactly
once, and no other node; they come in depth-first pre-order with the children
in stored order; a node's path is its parent's path, `/` and its own name;
and the tree `r/{a, b/c, b/d/, e/}` prints `r`, `r/b`, `r/b/d`, `r/e`. -/
theorem C2_dirs_depth_first_preorder :
    (∀ (t : Node) (opt_0 : Char), well_shaped_list t.l = true →
      dirs_depth_first opt_0 t "" =
        (dir_ptrs t).map (fun b => t.path_at b ++ String.singleton opt_0) ∧
      (dirs_depth_first opt_0 t "").head? = some (t.name ++ String.singleton opt_0) ∧
      (∀ b, b ∈ dir_ptrs t ↔ b = [] ∨ ∃ c, t.get? b = some c ∧ c.dir_p = true) ∧
      (dir_ptrs t).Nodup ∧
      PreOrder (dir_ptrs t) ∧
      (∀ b k c, t.get? (b ++ [k]) = some c →
        t.path_at (b ++ [k]) = t.path_at b ++ "/" ++ c.name)) ∧
    (∀ (fs : FS) (o : Opts) (root : String) (nthr : Nat) (diag : List Diag) (sched : List Nat),
      well_shaped_list (exec fs o (init_state root nthr diag) sched).tree.l = true) ∧
    dirs_depth_first '\n' example_tree "" = ["r\n", "r/b\n", "r/b/d\n", "r/e\n"] := by
  refine ⟨?_, walk_tree_well_shaped, by decide⟩
  intro t opt_0 hwf
  obtain ⟨h1, h2, h3, h4, h5, h6, h7, -⟩ := dirs_preorder_chain t opt_0
  refine ⟨h1, ?_, ?_, ?_, h5, h6⟩
  · rw [h1]
    cases hp : dir_ptrs t with
    | nil => rw [hp] at h2; cases h2
    | cons b bs =>
      rw [hp] at h2
      simp only [List.head?_cons, Option.some.injEq] at h2
      subst h2
      simp [h3]
  · intro b
    rw [h4]
    constructor
    · intro hc
      by_cases hb : b = []
      · exact Or.inl hb
      · exact Or.inr (Node.dir_chain_get b t hc hb)
    · rintro (rfl | ⟨c, hc, hd⟩)
      · cases t; rfl
      · by_cases hb : b = []
        · subst hb; cases t; rfl
        · exact dir_chain_of_well_shaped b t c hwf hb hc hd
  · have hirr : ∀ a : NodePtr, ¬ List.Lex (· < ·) a a := fun a => irrefl_of (List.Lex (· < ·)) a
    unfold PreOrder at h5
    have h8 : List.Pairwise (fun a b : NodePtr => a ≠ b) (dir_ptrs t) := by
      refine List.Pairwise.imp ?_ h5
      intro a b hab heq
      subst heq
      exact hirr a hab
    exact h8

/-- C2, witness: the tree `r/{a, b/c, b/d/, e/}` is well shaped, the tree a
run of the lister builds on the matching filesystem is well shaped, and the
first record the emitter prints is the root. -/
theorem C2_witness :
    well_shaped_list example_tree.l = true ∧
    (dirs_depth_first '\n' example_tree "").head? = some ("r" ++ String.singleton '\n') ∧
    well_shaped_list
      (exec example_fs default_opts (init_state "r" 1 []) (List.replicate 30 0)).tree.l = true :=
  ⟨by decide, (C2_dirs_depth_first_preorder.1 example_tree '\n' (by decide)).2.1,
    C2_dirs_depth_first_preorder.2.1 example_fs default_opts "r" 1 [] (List.replicate 30 0)⟩

/-! ## C3 : the termination condition is stable -/

theorem busy_ptrs_length (workers : List Worker) :
    (busy_ptrs workers).length = workers.countP Worker.is_busy := by
  unfold busy_ptrs
  rw [List.length_filterMap_eq_countP]
  congr 1
  funext x
  cases x <;> rfl

theorem quiet_of_count (workers : List Worker) (h : workers.countP Worker.is_busy = 0) :
    ∀ x ∈ workers, x = Worker.idle ∨ x = Worker.exited := by
  intro x hx
  rw [List.countP_eq_zero] at h
  have := h x hx
  cases x with
  | idle => exact Or.inl rfl
  | exited => exact Or.inr rfl
  | busy p a dir => simp [Worker.is_busy] at this

theorem quiet_stable (fs : FS) (o : Opts) (sched : List Nat) :
    ∀ (st : State), st.work = [] → st.wip_cnt = 0 →
      (∀ x ∈ st.workers, x = Worker.idle ∨ x = Worker.exited) →
      (exec fs o st sched).work = [] ∧ (exec fs o st sched).wip_cnt = 0 := by
  induction sched with
  | nil => intro st h1 h2 _; exact ⟨h1, h2⟩
  | cons i is ih =>
    intro st hwork hwip hall
    obtain ⟨h1, h2, h3⟩ := quiet_step fs o st i hwork hwip hall
    simp only [exec]
    apply ih _ h1 h2
    intro x hx
    rw [h3] at hx
    rcases List.mem_or_eq_of_mem_set hx with hx | hx
    · exact hall x hx
    · exact Or.inr hx

theorem step_exit_only (fs : FS) (o : Opts) (st st' : State) (w w' : Nat)
    (hstep : walk_step fs o st w = some st') (h1 : st'.workers[w']? = some Worker.exited)
    (h0 : st.workers[w']? ≠ some Worker.exited) : st.work = [] ∧ st.wip_cnt = 0 := by
  unfold walk_step at hstep
  have key : ∀ (ws : List Worker) (x : Worker), (ws.set w x)[w']? = some Worker.exited →
      ws = st.workers → x ≠ Worker.exited → False := by
    intro ws x hx hws hne
    subst hws
    rw [List.getElem?_set] at hx
    split at hx
    · split at hx
      · exact hne (Option.some.inj hx)
      · cases hx
    · exact h0 hx
  split at hstep
  · cases hstep
  · cases hstep
  · split at hstep
    · rename_i hwork
      split_ifs at hstep with hz
      · exact ⟨hwork, hz⟩
      · cases hstep; exact absurd h1 h0
    · exfalso
      split at hstep
      · split_ifs at hstep <;>
          (cases hstep; exact key _ _ h1 rfl (by simp))
      · cases hstep; exact key _ _ h1 rfl (by simp)
  · exfalso; cases hstep
    exact key _ _ h1 (walk_entry_rest fs o st _ _ _).1 (by simp)
  · exfalso; cases hstep; exact key _ _ h1 rfl (by simp)
  · exfalso; cases hstep; exact key _ _ h1 rfl (by simp)
  · exfalso; cases hstep; exact key _ _ h1 rfl (by simp)

theorem step_push_only (fs : FS) (o : Opts) (st st' : State) (w : Nat)
    (hstep : walk_step fs o st w = some st') (hpush : st.work.length < st'.work.length) :
    ∃ p a dir, st.workers[w]? = some (Worker.busy p a dir) := by
  unfold walk_step at hstep
  split at hstep
  · cases hstep
  · cases hstep
  · exfalso
    split at hstep
    · rename_i hwork
      split_ifs at hstep <;> (cases hstep; simp [set_worker] at hpush)
    · rename_i hwork
      split at hstep
      · split_ifs at hstep <;> (cases hstep; simp [set_worker, hwork] at hpush)
      · cases hstep; simp [set_worker, hwork] at hpush
  · rename_i hw; exact ⟨_, _, _, hw⟩
  · rename_i hw; exact ⟨_, _, _, hw⟩
  · rename_i hw; exact ⟨_, _, _, hw⟩
  · rename_i hw; exact ⟨_, _, _, hw⟩

theorem countP_set {α : Type} (q : α → Bool) (x : α) :
    ∀ (l : List α) (w : Nat) (y : α), l[w]? = some y →
      (l.set w x).countP q + (if q y = true then 1 else 0) =
        l.countP q + (if q x = true then 1 else 0) := by
  intro l
  induction l with
  | nil => intro w y h; simp at h
  | cons z zs ih =>
    intro w y h
    cases w with
    | zero =>
      simp at h; subst h
      simp only [List.set_cons_zero, List.countP_cons]
      omega
    | succ w =>
      simp at h
      have := ih w y h
      simp only [List.set_cons_succ, List.countP_cons]
      omega

namespace Remover

theorem rm_walk_entry_rest {σ : Type} (os : OS σ) (st : State σ) (e : String) (d : Dirent) :
    (walk_entry os st e d).workers = st.workers ∧
    (walk_entry os st e d).wip_cnt = st.wip_cnt ∧
    (walk_entry os st e d).rc = st.rc := by
  unfold walk_entry
  simp only
  split_ifs <;> (try split) <;> (try split) <;> (try split_ifs) <;> simp_all

/-- In the remover `wip_cnt` counts the threads that hold an item. -/
theorem rm_wip_step {σ : Type} (os : OS σ) (st st' : State σ) (w : Nat)
    (h : st.wip_cnt = (st.workers.countP Worker.is_busy : Nat))
    (hstep : walk_step os st w = some st') :
    st'.wip_cnt = (st'.workers.countP Worker.is_busy : Nat) := by
  unfold walk_step at hstep
  split at hstep
  · cases hstep
  · cases hstep
  · rename_i hw
    split at hstep
    · split_ifs at hstep
      · cases hstep
        have := countP_set Worker.is_busy Worker.exited st.workers w _ hw
        simp only [Worker.is_busy] at this
        simp only [set_worker, h]
        simp at this
        rw [this]
      · cases hstep; exact h
    · split at hstep
      · cases hstep
        have := countP_set Worker.is_busy (Worker.busy ‹String› none) st.workers w _ hw
        simp only [Worker.is_busy] at this
        simp only [set_worker, h]
        simp at this
        rw [this]; simp
      · cases hstep
        rename_i s _
        have := countP_set Worker.is_busy (Worker.busy ‹String› (some s)) st.workers w _ hw
        simp only [Worker.is_busy] at this
        simp only [set_worker, h]
        simp at this
        rw [this]; simp
  · rename_i e d ds err hw
    cases hstep
    have := countP_set Worker.is_busy (Worker.busy e (some ⟨ds, err⟩)) st.workers w _ hw
    simp only [Worker.is_busy] at this
    simp only [set_worker, (rm_walk_entry_rest os st e d).1, (rm_walk_entry_rest os st e d).2.1, h]
    simp at this
    rw [this]
  all_goals
    rename_i hw
    cases hstep
    have := countP_set Worker.is_busy Worker.idle st.workers w _ hw
    simp only [Worker.is_busy] at this
    simp only [set_worker, h]
    simp at this
    omega

theorem rm_wip_exec {σ : Type} (os : OS σ) (sched : List Nat) :
    ∀ (st : State σ), st.wip_cnt = (st.workers.countP Worker.is_busy : Nat) →
      (exec os st sched).wip_cnt = ((exec os st sched).workers.countP Worker.is_busy : Nat) := by
  induction sched with
  | nil => intro st h; exact h
  | cons w ws ih =>
    intro st h
    simp only [exec]
    apply ih
    unfold step_or_stay
    cases hs : walk_step os st w with
    | none => exact h
    | some st' => exact rm_wip_step os st st' w h hs

theorem rm_quiet_of_count (workers : List Worker) (h : workers.countP Worker.is_busy = 0) :
    ∀ x ∈ workers, x = Worker.idle ∨ x = Worker.exited := by
  intro x hx
  rw [List.countP_eq_zero] at h
  have := h x hx
  cases x with
  | idle => exact Or.inl rfl
  | exited => exact Or.inr rfl
  | busy e dir => simp [Worker.is_busy] at this

theorem rm_quiet_step {σ : Type} (os : OS σ) (st : State σ) (i : Nat) (hwork : st.work = [])
    (hwip : st.wip_cnt = 0) (hall : ∀ x ∈ st.workers, x = Worker.idle ∨ x = Worker.exited) :
    (step_or_stay os st i).work = [] ∧ (step_or_stay os st i).wip_cnt = 0 ∧
    (step_or_stay os st i).workers = st.workers.set i Worker.exited ∧
    (step_or_stay os st i).rc = st.rc ∧ (step_or_stay os st i).trace = st.trace ∧
    (step_or_stay os st i).diag = st.diag ∧ (step_or_stay os st i).fs = st.fs := by
  unfold step_or_stay walk_step
  cases hi : st.workers[i]? with
  | none =>
    simp only [Option.getD_none]
    refine ⟨hwork, hwip, ?_, by simp⟩
    have : st.workers.length ≤ i := by
      by_contra hc
      rw [List.getElem?_eq_getElem (by omega)] at hi; cases hi
    rw [List.set_eq_of_length_le this]
  | some x =>
    rcases hall x (List.getElem?_mem hi) with rfl | rfl
    · simp [hwork, hwip, set_worker]
    · simp only [Option.getD_none]
      exact ⟨hwork, hwip, (Pfind.set_same _ _ _ hi).symm, by simp⟩

theorem rm_quiet_stable {σ : Type} (os : OS σ) (sched : List Nat) :
    ∀ (st : State σ), st.work = [] → st.wip_cnt = 0 →
      (∀ x ∈ st.workers, x = Worker.idle ∨ x = Worker.exited) →
      (exec os st sched).work = [] ∧ (exec os st sched).wip_cnt = 0 := by
  induction sched with
  | nil => intro st h1 h2 _; exact ⟨h1, h2⟩
  | cons i is ih =>
    intro st hwork hwip hall
    obtain ⟨h1, h2, h3, -⟩ := rm_quiet_step os st i hwork hwip hall
    simp only [exec]
    apply ih _ h1 h2
    intro x hx
    rw [h3] at hx
    rcases List.mem_or_eq_of_mem_set hx with hx | hx
    · exact hall x hx
    · exact Or.inr hx

theorem rm_step_exit_only {σ : Type} (os : OS σ) (st st' : State σ) (w w' : Nat)
    (hstep : walk_step os st w = some st') (h1 : st'.workers[w']? = some Worker.exited)
    (h0 : st.workers[w']? ≠ some Worker.exited) : st.work = [] ∧ st.wip_cnt = 0 := by
  unfold walk_step at hstep
  have key : ∀ (ws : List Worker) (x : Worker), (ws.set w x)[w']? = some Worker.exited →
      ws = st.workers → x ≠ Worker.exited → False := by
    intro ws x hx hws hne
    subst hws
    rw [List.getElem?_set] at hx
    split at hx
    · split at hx
      · exact hne (Option.some.inj hx)
      · cases hx
    · exact h0 hx
  split at hstep
  · cases hstep
  · cases hstep
  · split at hstep
    · rename_i hwork
      split_ifs at hstep with hz
      · exact ⟨hwork, hz⟩
      · cases hstep; exact absurd h1 h0
    · exfalso
      split at hstep
      · cases hstep; exact key _ _ h1 rfl (by simp)
      · cases hstep; exact key _ _ h1 rfl (by simp)
  · exfalso; cases hstep
    exact key _ _ h1 (rm_walk_entry_rest os st _ _).1 (by simp)
  · exfalso; cases hstep; exact key _ _ h1 rfl (by simp)
  · exfalso; cases hstep; exact key _ _ h1 rfl (by simp)
  · exfalso; cases hstep; exact key _ _ h1 rfl (by simp)

theorem rm_step_push_only {σ : Type} (os : OS σ) (st st' : State σ) (w : Nat)
    (hstep : walk_step os st w = some st') (hpush : st.work.length < st'.work.length) :
    ∃ e dir, st.workers[w]? = some (Worker.busy e dir) := by
  unfold walk_step at hstep
  split at hstep
  · cases hstep
  · cases hstep
  · exfalso
    split at hstep
    · rename_i hwork
      split_ifs at hstep <;> (cases hstep; simp [set_worker] at hpush)
    · rename_i hwork
      split at hstep
      · cases hstep; simp [set_worker, hwork] at hpush
      · cases hstep; simp [set_worker, hwork] at hpush
  · rename_i hw; exact ⟨_, _, hw⟩
  · rename_i hw; exact ⟨_, _, hw⟩
  · rename_i hw; exact ⟨_, _, hw⟩
  · rename_i hw; exact ⟨_, _, hw⟩

end Remover

theorem Remover.rm_step_workers_length {σ : Type} (os : Remover.OS σ) (st st' : Remover.State σ)
    (w : Nat) (hstep : Remover.walk_step os st w = some st') :
    st'.workers.length = st.workers.length := by
  unfold Remover.walk_step at hstep
  split at hstep
  · cases hstep
  · cases hstep
  · split at hstep
    · split_ifs at hstep <;> (cases hstep; simp [Remover.set_worker])
    · split at hstep <;> (cases hstep; simp [Remover.set_worker])
  · cases hstep
    simp [Remover.set_worker, (Remover.rm_walk_entry_rest os st _ _).1]
  · cases hstep; simp [Remover.set_worker]
  · cases hstep; simp [Remover.set_worker]
  · cases hstep; simp [Remover.set_worker]

/-- C3: in the worker protocol of the lister and of the remover, run from the
state `main` sets up (`work = [root]`, `wip_cnt = 0`) under any schedule,
`wip_cnt` is the number of threads that hold an item; a thread exits only in
a state with `work` empty and `wip_cnt = 0`; only a thread that holds an item
(and so is counted in `wip_cnt`) lengthens `work`; and once `work` is empty
and `wip_cnt = 0` they stay so in every later state. -/
theorem C3_termination_stable (fs : FS) (o : Opts) {σ : Type} (os : Remover.OS σ) (fs0 : σ)
    (root : String) (nthr : Nat) (diag : List Diag) (s1 s2 : List Nat) :
    (∀ st, st = exec fs o (init_state root nthr diag) s1 →
      st.wip_cnt = (st.workers.countP Worker.is_busy : Nat) ∧
      (∀ (w w' : Nat) (st' : State), walk_step fs o st w = some st' → st'.workers[w']? = some Worker.exited →
        st.workers[w']? ≠ some Worker.exited → st.work = [] ∧ st.wip_cnt = 0) ∧
      (∀ (w : Nat) (st' : State), walk_step fs o st w = some st' → st.work.length < st'.work.length →
        ∃ p a dir, st.workers[w]? = some (Worker.busy p a dir)) ∧
      (st.work = [] → st.wip_cnt = 0 →
        (exec fs o st s2).work = [] ∧ (exec fs o st s2).wip_cnt = 0)) ∧
    (∀ st, st = Remover.exec os (Remover.init_state fs0 root nthr) s1 →
      st.wip_cnt = (st.workers.countP Remover.Worker.is_busy : Nat) ∧
      (∀ (w w' : Nat) (st' : Remover.State σ), Remover.walk_step os st w = some st' →
        st'.workers[w']? = some Remover.Worker.exited →
        st.workers[w']? ≠ some Remover.Worker.exited → st.work = [] ∧ st.wip_cnt = 0) ∧
      (∀ (w : Nat) (st' : Remover.State σ), Remover.walk_step os st w = some st' → st.work.length < st'.work.length →
        ∃ e dir, st.workers[w]? = some (Remover.Worker.busy e dir)) ∧
      (st.work = [] → st.wip_cnt = 0 →
        (Remover.exec os st s2).work = [] ∧ (Remover.exec os st s2).wip_cnt = 0)) := by
  constructor
  · intro st hst
    have hinv : SInv fs o st := hst ▸ sinv_exec fs o s1 _ (sinv_init fs o root nthr diag)
    have hwip : st.wip_cnt = (st.workers.countP Worker.is_busy : Nat) := by
      rw [hinv.wip, busy_ptrs_length]
    refine ⟨hwip, ?_, ?_, ?_⟩
    · intro w w' st' hstep h1 h0
      exact step_exit_only fs o st st' w w' hstep h1 h0
    · intro w st' hstep hpush
      exact step_push_only fs o st st' w hstep hpush
    · intro hwork hz
      apply quiet_stable fs o s2 st hwork hz
      apply quiet_of_count
      rw [hz] at hwip
      exact_mod_cast hwip.symm
  · intro st hst
    have hwip : st.wip_cnt = (st.workers.countP Remover.Worker.is_busy : Nat) := by
      rw [hst]
      apply Remover.rm_wip_exec
      simp only [Remover.init_state]
      have : List.countP Remover.Worker.is_busy (List.replicate nthr Remover.Worker.idle) = 0 := by
        rw [List.countP_eq_zero]
        intro x hx
        simp at hx
        simp [hx.2, Remover.Worker.is_busy]
      rw [this]; rfl
    refine ⟨hwip, ?_, ?_, ?_⟩
    · intro w w' st' hstep h1 h0
      exact Remover.rm_step_exit_only os st st' w w' hstep h1 h0
    · intro w st' hstep hpush
      exact Remover.rm_step_push_only os st st' w hstep hpush
    · intro hwork hz
      apply Remover.rm_quiet_stable os s2 st hwork hz
      apply Remover.rm_quiet_of_count
      rw [hz] at hwip
      exact_mod_cast hwip.symm

/-! ## C1 : the files of a directory tree -/

set_option maxRecDepth 100000

/-- The diagnostic stream when the threads start. -/
theorem lister_main_some (fs : FS) (o : Opts) (root : String) (nthr : Nat) (sched : List Nat)
    (r : Outcome) (hne : nthr ≠ 0) (h : lister_main fs o root nthr sched = some r) :
    ∃ diag0, all_exited (exec fs o (init_state root nthr diag0) sched) = true ∧
      (∀ d ∈ diag0, ∃ n, d = Diag.using_threads n) ∧
      r.out = emit o (exec fs o (init_state root nthr diag0) sched).tree ∧
      r.code = (exec fs o (init_state root nthr diag0) sched).rc ∧
      r.diag = (exec fs o (init_state root nthr diag0) sched).diag ++
        (if o.opt_v ≠ 0 then
          [Diag.counters (exec fs o (init_state root nthr diag0) sched).stat_spins
            (exec fs o (init_state root nthr diag0) sched).stat_stats]
         else []) := by
  refine ⟨if o.opt_v ≠ 0 then [Diag.using_threads o.opt_p] else [], ?_⟩
  unfold lister_main at h
  simp only [hne, if_false] at h
  by_cases hfin : all_exited (exec fs o (init_state root nthr
      (if o.opt_v ≠ 0 then [Diag.using_threads o.opt_p] else [])) sched) = true
  · rw [if_pos hfin] at h
    cases h
    refine ⟨hfin, ?_, rfl, rfl, rfl⟩
    intro d hd
    split_ifs at hd
    · simp at hd; exact ⟨_, hd⟩
    · simp at hd
  · rw [if_neg hfin] at h
    cases h

theorem example_fs_rep : rep_root example_fs "r" example_T := by
  refine ⟨_, rfl, rfl, ?_⟩
  simp only [real_entries, example_T]
  refine ⟨⟨rfl, by decide, rfl⟩, ⟨rfl, Or.inl rfl, rfl, _, rfl, rfl, ?_⟩,
    ⟨rfl, Or.inr rfl, rfl, _, rfl, rfl, ?_⟩, trivial⟩
  · exact ⟨⟨rfl, by decide, rfl⟩, ⟨rfl, Or.inl rfl, rfl, _, rfl, rfl, trivial⟩, trivial⟩
  · exact trivial

theorem snapshot_fs_rep : rep_root snapshot_fs "r" snapshot_T := by
  refine ⟨_, rfl, rfl, ?_⟩
  simp only [real_entries, snapshot_T]
  exact ⟨⟨rfl, Or.inl rfl, rfl, _, rfl, rfl, ⟨rfl, by decide, rfl⟩, trivial⟩, trivial⟩

/-- The tree at the end of a complete run on a directory tree. -/
theorem final_tree_of_rep (fs : FS) (o : Opts) (root : String) (nthr : Nat) (diag : List Diag)
    (T : List FsTree) (hrep : rep_root fs root T)
    (hsnap : all_names_list (fun n => o.opt_t = 0 → n ≠ ".snapshot") T) (hn : 1 ≤ nthr)
    (sched : List Nat) (hfin : all_exited (exec fs o (init_state root nthr diag) sched) = true) :
    (exec fs o (init_state root nthr diag) sched).tree = Node.mk root false (nodes_of T) := by
  have i1 := sinv_exec fs o sched _ (sinv_init fs o root nthr diag)
  have w1 : (exec fs o (init_state root nthr diag) sched).workers ≠ [] := by
    intro hnil
    have := exec_workers_length fs o sched (init_state root nthr diag)
    rw [hnil] at this
    simp [init_state] at this
    omega
  have f1 := (final_settled fs o _ i1 w1 hfin).2.2
  have r1 := exec_root fs o sched (init_state root nthr diag)
  apply settled_unique fs o _ _ "" true f1 (rep_root_settled fs o root T hrep hsnap)
  · rw [r1.1]; rfl
  · rw [r1.2]; rfl

/-- C1, counterexample: the directory tree `r/{.snapshot/x}` has the
non-directory entry `r/.snapshot/x`, and the lister in file mode with the
default options prints nothing. -/
theorem C1_counterexample :
    rep_root snapshot_fs "r" snapshot_T ∧
    (leaves_list snapshot_T).map (fun ns => join_path "r" ns ++ "\n") = ["r/.snapshot/x\n"] ∧
    lister_main snapshot_fs default_opts "r" 1 (List.replicate 8 0) = some ⟨[], [], 0⟩ :=
  ⟨snapshot_fs_rep, by decide, by decide⟩

/-- C1, amended: for every finite directory tree `T` at the starting path,
with no symlinks and no open, read or metadata failure, in which no entry is
named `.snapshot` unless `-t` is given, and with at least one thread: a
complete run exists, and every complete run in file mode prints exactly the
paths of the non-directory entries of `T`, each once, in depth-first order,
each written as the starting path followed by the `/`-joined names down to
the entry and the terminator; for the tree `r/{a, b/c, b/d/, e/}` the output
is exactly `r/a` and `r/b/c`. -/
theorem C1_files_output (fs : FS) (o : Opts) (root : String) (nthr : Nat) (T : List FsTree)
    (hrep : rep_root fs root T)
    (hsnap : all_names_list (fun n => o.opt_t = 0 → n ≠ ".snapshot") T)
    (hd : o.opt_d = 0) (hn : 1 ≤ nthr) :
    (∃ sched r, lister_main fs o root nthr sched = some r) ∧
    (∀ sched r, lister_main fs o root nthr sched = some r →
      r.out = (leaves_list T).map fun ns => join_path root ns ++ String.singleton o.opt_0) ∧
    lister_main example_fs default_opts "r" 1 (List.replicate 30 0) =
      some ⟨["r/a\n", "r/b/c\n"], [], 0⟩ := by
  have hne : nthr ≠ 0 := by omega
  refine ⟨?_, ?_, by decide⟩
  · obtain ⟨sched, hs⟩ := complete_run_exists fs o root nthr
      (if o.opt_v ≠ 0 then [Diag.using_threads o.opt_p] else []) T hrep hn
    refine ⟨sched, ?_⟩
    unfold lister_main
    simp only [hne, if_false]
    rw [if_pos hs]
    exact ⟨_, rfl⟩
  · intro sched r hr
    obtain ⟨diag0, hfin, -, hout, -⟩ := lister_main_some fs o root nthr sched r hne hr
    rw [hout]
    simp only [emit, hd, ne_eq, not_true_eq_false, if_false]
    rw [final_tree_of_rep fs o root nthr _ T hrep hsnap hn sched hfin]
    simp only [files_depth_first, String.empty_append]
    exact (files_of_tree o.opt_0).2 T root

/-- C1, witness: the theorem at the tree `r/{a, b/c, b/d/, e/}` with two
threads. -/
theorem C1_witness :
    rep_root example_fs "r" example_T ∧
    (∃ sched r, lister_main example_fs default_opts "r" 2 sched = some r) ∧
    (∀ sched r, lister_main example_fs default_opts "r" 2 sched = some r →
      r.out = ["r/a\n", "r/b/c\n"]) :=
  ⟨example_fs_rep,
   (C1_files_output example_fs default_opts "r" 2 example_T example_fs_rep
      (by simp [example_T, all_names_list, FsTree.all_names]) rfl (by decide)).1,
   (C1_files_output example_fs default_opts "r" 2 example_T example_fs_rep
      (by simp [example_T, all_names_list, FsTree.all_names]) rfl (by decide)).2.1⟩

/-! ## C4 : the output does not depend on the interleaving -/

/-- C4: for a fixed filesystem, any two complete lister runs from the same
starting path, whose options agree on `-s`, `-t`, `-d` and `-0` and which
start any numbers of threads in `1..128` under any schedules, build the same
`Node` tree; so they print the same output, and both emitters give the same
records on the two trees. -/
theorem C4_runs_agree (fs : FS) (o1 o2 : Opts) (root : String) (n1 n2 : Nat)
    (s1 s2 : List Nat) (r1 r2 : Outcome)
    (hs : o1.opt_s = o2.opt_s) (ht : o1.opt_t = o2.opt_t) (hd : o1.opt_d = o2.opt_d)
    (h0 : o1.opt_0 = o2.opt_0) (hn1 : 1 ≤ n1 ∧ n1 ≤ 128) (hn2 : 1 ≤ n2 ∧ n2 ≤ 128)
    (e1 : lister_main fs o1 root n1 s1 = some r1)
    (e2 : lister_main fs o2 root n2 s2 = some r2) :
    r1.out = r2.out ∧
    ∃ t : Node,
      (∀ diag, all_exited (exec fs o1 (init_state root n1 diag) s1) = true →
        (exec fs o1 (init_state root n1 diag) s1).tree = t) ∧
      (∀ diag, all_exited (exec fs o2 (init_state root n2 diag) s2) = true →
        (exec fs o2 (init_state root n2 diag) s2).tree = t) ∧
      r1.out = emit o1 t ∧ r2.out = emit o2 t ∧
      files_depth_first o1.opt_0 t "" = files_depth_first o2.opt_0 t "" ∧
      dirs_depth_first o1.opt_0 t "" = dirs_depth_first o2.opt_0 t "" := by
  obtain ⟨d1, f1, -, out1, -⟩ := lister_main_some fs o1 root n1 s1 r1 (by omega) e1
  obtain ⟨d2, f2, -, out2, -⟩ := lister_main_some fs o2 root n2 s2 r2 (by omega) e2
  have key : ∀ diag, all_exited (exec fs o1 (init_state root n1 diag) s1) = true →
      (exec fs o1 (init_state root n1 diag) s1).tree =
        (exec fs o2 (init_state root n2 d2) s2).tree := fun diag hfin =>
    final_tree_unique fs o1 o2 hs ht root n1 n2 diag d2 s1 s2 hn1.1 hn2.1 hfin f2
  have key2 : ∀ diag, all_exited (exec fs o2 (init_state root n2 diag) s2) = true →
      (exec fs o2 (init_state root n2 diag) s2).tree =
        (exec fs o2 (init_state root n2 d2) s2).tree := fun diag hfin =>
    final_tree_unique fs o2 o2 rfl rfl root n2 n2 diag d2 s2 s2 hn2.1 hn2.1 hfin f2
  have hout1 : r1.out = emit o1 (exec fs o2 (init_state root n2 d2) s2).tree := by
    rw [out1, key d1 f1]
  have hemit : emit o1 (exec fs o2 (init_state root n2 d2) s2).tree =
      emit o2 (exec fs o2 (init_state root n2 d2) s2).tree := by
    simp only [emit, hd, h0]
  refine ⟨by rw [hout1, out2, hemit], _, key, key2, hout1, out2, by rw [h0], by rw [h0]⟩

/-- C4, witness: one thread and two interleaved threads on the tree
`r/{a, b/c, b/d/, e/}`, in directory mode. -/
theorem C4_witness :
    lister_main example_fs { default_opts with opt_d := 1, opt_p := 1 } "r" 1
      (List.replicate 30 0) = some ⟨["r\n", "r/b\n", "r/b/d\n", "r/e\n"], [], 0⟩ ∧
    lister_main example_fs { default_opts with opt_d := 1, opt_p := 2 } "r" 2
      example_sched2 = some ⟨["r\n", "r/b\n", "r/b/d\n", "r/e\n"], [], 0⟩ ∧
    (exec example_fs { default_opts with opt_d := 1, opt_p := 1 } (init_state "r" 1 [])
      (List.replicate 30 0)).tree =
    (exec example_fs { default_opts with opt_d := 1, opt_p := 2 } (init_state "r" 2 [])
      example_sched2).tree := by
  have e1 : lister_main example_fs { default_opts with opt_d := 1, opt_p := 1 } "r" 1
      (List.replicate 30 0) = some ⟨["r\n", "r/b\n", "r/b/d\n", "r/e\n"], [], 0⟩ := by decide
  have e2 : lister_main example_fs { default_opts with opt_d := 1, opt_p := 2 } "r" 2
      example_sched2 = some ⟨["r\n", "r/b\n", "r/b/d\n", "r/e\n"], [], 0⟩ := by decide
  obtain ⟨-, t, h1, h2, -⟩ := C4_runs_agree example_fs
    { default_opts with opt_d := 1, opt_p := 1 } { default_opts with opt_d := 1, opt_p := 2 }
    "r" 1 2 (List.replicate 30 0) example_sched2
    ⟨["r\n", "r/b\n", "r/b/d\n", "r/e\n"], [], 0⟩ ⟨["r\n", "r/b\n", "r/b/d\n", "r/e\n"], [], 0⟩
    rfl rfl rfl rfl (by decide) (by decide) e1 e2
  exact ⟨e1, e2, (h1 [] (by decide)).trans (h2 [] (by decide)).symm⟩

/-! ## C6 : the exit code of the lister -/

theorem walk_entry_rc (fs : FS) (o : Opts) (st : State) (p : String) (a : NodePtr) (d : Dirent)
    (h : st.rc = if st.diag.any Diag.is_read_or_stat_error then 1 else 0) :
    (walk_entry fs o st p a d).rc =
      if (walk_entry fs o st p a d).diag.any Diag.is_read_or_stat_error then 1 else 0 := by
  unfold walk_entry
  simp only
  split_ifs <;> (try split) <;> (try split_ifs) <;>
    simp_all [Diag.is_read_or_stat_error]

theorem step_rc (fs : FS) (o : Opts) (st st' : State) (w : Nat)
    (h : st.rc = if st.diag.any Diag.is_read_or_stat_error then 1 else 0)
    (hstep : walk_step fs o st w = some st') :
    st'.rc = if st'.diag.any Diag.is_read_or_stat_error then 1 else 0 := by
  unfold walk_step at hstep
  split at hstep
  · cases hstep
  · cases hstep
  · split at hstep
    · split_ifs at hstep <;> (cases hstep; simpa [set_worker] using h)
    · split at hstep
      · split_ifs at hstep <;>
          (cases hstep; simpa [set_worker, Diag.is_read_or_stat_error] using h)
      · cases hstep; simpa [set_worker] using h
  · cases hstep
    simpa [set_worker] using walk_entry_rc fs o st _ _ _ h
  · cases hstep; simp [set_worker, Diag.is_read_or_stat_error]
  · cases hstep; simpa [set_worker] using h
  · cases hstep; simpa [set_worker] using h

theorem exec_rc (fs : FS) (o : Opts) (sched : List Nat) :
    ∀ (st : State), (st.rc = if st.diag.any Diag.is_read_or_stat_error then 1 else 0) →
      (exec fs o st sched).rc =
        if (exec fs o st sched).diag.any Diag.is_read_or_stat_error then 1 else 0 := by
  induction sched with
  | nil => intro st h; exact h
  | cons w ws ih =>
    intro st h
    simp only [exec]
    apply ih
    unfold step_or_stay
    cases hs : walk_step fs o st w with
    | none => exact h
    | some st' => exact step_rc fs o st st' w h hs

/-- C6, counterexample: the starting directory cannot be opened; the failure
is reported on the diagnostic stream and the exit code is 0. -/
theorem C6_counterexample :
    lister_main missing_fs default_opts "r" 1 [0, 0, 0] =
      some ⟨[], [Diag.open_failed "r" ENOENT], 0⟩ ∧
    (Diag.open_failed "r" ENOENT).is_traversal_error = true := by
  decide

theorem walk_entry_diag (fs : FS) (o : Opts) (st : State) (p : String) (a : NodePtr)
    (d : Dirent) :
    ∃ more, (walk_entry fs o st p a d).diag = st.diag ++ more ∧
      ∀ x ∈ more, ∃ q e, x = Diag.stat_failed q e := by
  unfold walk_entry
  simp only
  split_ifs
  · exact ⟨[], by simp, by simp⟩
  · exact ⟨[], by simp, by simp⟩
  · split
    · exact ⟨[_], rfl, by simp⟩
    · split_ifs <;> exact ⟨[], by simp, by simp⟩
  · exact ⟨[], by simp, by simp⟩
  · exact ⟨[], by simp, by simp⟩

/-- What one step adds to the diagnostic stream: nothing is removed, and a
report of a failed open is added only for a failed open that `-q` does not
hide. -/
theorem step_diag (fs : FS) (o : Opts) (st st' : State) (w : Nat)
    (hstep : walk_step fs o st w = some st') :
    ∃ more, st'.diag = st.diag ++ more ∧
      ∀ p e, Diag.open_failed p e ∈ more →
        fs.opendir p = .error e ∧ (o.opt_q = 0 ∨ e ≠ EACCES) := by
  unfold walk_step at hstep
  split at hstep
  · cases hstep
  · cases hstep
  · split at hstep
    · split_ifs at hstep <;> (cases hstep; exact ⟨[], by simp [set_worker], by simp⟩)
    · rename_i dir_name dir_node rest hwork
      split at hstep
      · rename_i e he
        by_cases hc : o.opt_q = 0 ∨ e ≠ EACCES
        · simp only [hc, if_true] at hstep
          cases hstep
          refine ⟨[Diag.open_failed dir_name e], by simp [set_worker], ?_⟩
          intro p e2 hmem
          simp only [List.mem_singleton, Diag.open_failed.injEq] at hmem
          obtain ⟨rfl, rfl⟩ := hmem
          exact ⟨he, hc⟩
        · simp only [hc, if_false] at hstep
          cases hstep
          exact ⟨[], by simp [set_worker], by simp⟩
      · cases hstep; exact ⟨[], by simp [set_worker], by simp⟩
  · cases hstep
    obtain ⟨more, hm, hall⟩ := walk_entry_diag fs o st ‹_› ‹_› ‹_›
    refine ⟨more, by simpa [set_worker] using hm, ?_⟩
    intro p e hmem
    obtain ⟨q, e2, hx⟩ := hall _ hmem
    cases hx
  · cases hstep
    exact ⟨[_], rfl, by simp⟩
  · cases hstep; exact ⟨[], by simp [set_worker], by simp⟩
  · cases hstep; exact ⟨[], by simp [set_worker], by simp⟩

theorem exec_diag (fs : FS) (o : Opts) (sched : List Nat) :
    ∀ (st : State), ∃ more, (exec fs o st sched).diag = st.diag ++ more ∧
      ∀ p e, Diag.open_failed p e ∈ more →
        fs.opendir p = .error e ∧ (o.opt_q = 0 ∨ e ≠ EACCES) := by
  induction sched with
  | nil => intro st; exact ⟨[], by simp [exec], by simp⟩
  | cons w ws ih =>
    intro st
    simp only [exec]
    unfold step_or_stay
    cases hs : walk_step fs o st w with
    | none => exact ih st
    | some st' =>
      obtain ⟨m1, h1, a1⟩ := step_diag fs o st st' w hs
      obtain ⟨m2, h2, a2⟩ := ih st'
      refine ⟨m1 ++ m2, by simp [h2, h1], ?_⟩
      intro p e hmem
      rcases List.mem_append.mp hmem with h | h
      · exact a1 p e h
      · exact a2 p e h

/-- The step that pops an item whose directory cannot be opened: the failure
is reported unless `-q` hides it, and `rc` is left alone. -/
theorem open_failed_step (fs : FS) (o : Opts) (st : State) (w : Nat) (p : String)
    (a : NodePtr) (rest : List (String × NodePtr)) (e : Nat)
    (hw : st.workers[w]? = some Worker.idle) (hwork : st.work = (p, a) :: rest)
    (he : fs.opendir p = .error e) :
    ∃ st', walk_step fs o st w = some st' ∧ st'.rc = st.rc ∧
      st'.diag = st.diag ++ open_report o p e ∧
      st'.workers[w]? = some (Worker.busy p a none) := by
  have hlt : w < st.workers.length := by
    rcases Nat.lt_or_ge w st.workers.length with h | h
    · exact h
    · rw [List.getElem?_eq_none h] at hw; cases hw
  unfold walk_step open_report
  simp only [hw, hwork, he]
  by_cases hc : o.opt_q = 0 ∨ e ≠ EACCES
  · simp only [hc, if_true]
    exact ⟨_, rfl, by simp [set_worker], by simp [set_worker], by simp [set_worker, hlt]⟩
  · simp only [hc, if_false]
    exact ⟨_, rfl, by simp [set_worker], by simp [set_worker], by simp [set_worker, hlt]⟩

theorem root_failed_step (fs : FS) (o : Opts) (root : String) (diag0 : List Diag) (e : Nat)
    (he : fs.opendir root = .error e) (st st' : State) (w : Nat)
    (h : RootFailed root diag0 (open_report o root e) st)
    (hstep : walk_step fs o st w = some st') :
    RootFailed root diag0 (open_report o root e) st' := by
  obtain ⟨hrc, htree, hcase⟩ := h
  cases hw : st.workers[w]? with
  | none => simp [walk_step, hw] at hstep
  | some x =>
    have hx : x ∈ st.workers := List.getElem?_mem hw
    have hset : ∀ (y : Worker) (P : Worker → Prop), P y → (∀ z ∈ st.workers, P z) →
        ∀ z ∈ st.workers.set w y, P z := by
      intro y P hy hall z hz
      rcases List.mem_or_eq_of_mem_set hz with h1 | h1
      · exact hall z h1
      · exact h1 ▸ hy
    rcases hcase with ⟨hwork, hdiag, hall⟩ | ⟨hwork, hdiag, hall⟩
    · rcases hall x hx with rfl | rfl
      · obtain ⟨st2, h2, hrc2, hdiag2, -⟩ :=
          open_failed_step fs o st w root [] [] e hw hwork he
        have hws : st'.workers = st.workers.set w (Worker.busy root [] none) ∧
            st'.work = [] ∧ st'.tree = st.tree := by
          unfold walk_step at hstep
          simp only [hw, hwork, he] at hstep
          cases hstep
          simp [set_worker]
          split_ifs <;> simp
        rw [h2] at hstep
        cases hstep
        refine ⟨by rw [hrc2, hrc], by rw [hws.2.2, htree], Or.inr ⟨hws.2.1, by rw [hdiag2, hdiag], ?_⟩⟩
        rw [hws.1]
        exact hset _ (fun z => z = Worker.idle ∨ z = Worker.exited ∨ z = Worker.busy root [] none)
          (Or.inr (Or.inr rfl)) (fun z hz => by rcases hall z hz with h1 | h1 <;> simp [h1])
      · simp [walk_step, hw] at hstep
    · rcases hall x hx with rfl | rfl | rfl
      · unfold walk_step at hstep
        simp only [hw, hwork] at hstep
        split_ifs at hstep
        · cases hstep
          refine ⟨hrc, htree, Or.inr ⟨hwork, hdiag, ?_⟩⟩
          exact hset _ (fun z => z = Worker.idle ∨ z = Worker.exited ∨ z = Worker.busy root [] none)
            (Or.inr (Or.inl rfl)) hall
        · cases hstep
          exact ⟨hrc, htree, Or.inr ⟨rfl, hdiag, hall⟩⟩
      · simp [walk_step, hw] at hstep
      · unfold walk_step at hstep
        simp only [hw] at hstep
        cases hstep
        refine ⟨hrc, htree, Or.inr ⟨hwork, hdiag, ?_⟩⟩
        exact hset _ (fun z => z = Worker.idle ∨ z = Worker.exited ∨ z = Worker.busy root [] none)
          (Or.inl rfl) hall

theorem root_failed_exec (fs : FS) (o : Opts) (root : String) (diag0 : List Diag) (e : Nat)
    (he : fs.opendir root = .error e) (sched : List Nat) :
    ∀ (st : State), RootFailed root diag0 (open_report o root e) st →
      RootFailed root diag0 (open_report o root e) (exec fs o st sched) := by
  induction sched with
  | nil => intro st h; exact h
  | cons w ws ih =>
    intro st h
    simp only [exec]
    apply ih
    unfold step_or_stay
    cases hs : walk_step fs o st w with
    | none => exact h
    | some st' => exact root_failed_step fs o root diag0 e he st st' w h hs

/-- C6, amended: for every lister run that reaches the end of `main` (some
thread started and all threads joined), the exit code is 1 if a failed
directory read or a failed metadata call was reported on the diagnostic
stream during the walk and 0 otherwise.  A failed directory open does not
change the exit code: the step that pops an item whose `opendir` fails
appends the report to the diagnostic stream, unless `-q` was given and the
error is `EACCES`, leaves `rc` as it was, and nothing later removes the
report; the run's diagnostic stream holds a report of a failed open only for
an `opendir` that failed and that `-q` does not hide; and when the starting
directory itself cannot be opened, the run's traversal errors are exactly
that report (none under `-q` with `EACCES`), nothing is printed but the
emitter's view of the bare root, and the exit code is 0. -/
theorem C6_exit_code (fs : FS) (o : Opts) (root : String) (nthr : Nat) (sched : List Nat)
    (r : Outcome) (hn : nthr ≠ 0) (h : lister_main fs o root nthr sched = some r) :
    (r.code = if r.diag.any Diag.is_read_or_stat_error then 1 else 0) ∧
    (∀ (st : State) (w : Nat) (p : String) (a : NodePtr) (rest : List (String × NodePtr))
        (e : Nat), st.workers[w]? = some Worker.idle → st.work = (p, a) :: rest →
        fs.opendir p = .error e →
        ∃ st', walk_step fs o st w = some st' ∧ st'.rc = st.rc ∧
          st'.diag = st.diag ++
            (if o.opt_q = 0 ∨ e ≠ EACCES then [Diag.open_failed p e] else []) ∧
          ∀ later, ∃ more, (exec fs o st' later).diag = st'.diag ++ more) ∧
    (∀ p e, Diag.open_failed p e ∈ r.diag →
        fs.opendir p = .error e ∧ (o.opt_q = 0 ∨ e ≠ EACCES)) ∧
    (∀ e, fs.opendir root = .error e →
        r.code = 0 ∧ r.out = emit o (Node.new root) ∧
        r.diag.filter Diag.is_traversal_error =
          if o.opt_q = 0 ∨ e ≠ EACCES then [Diag.open_failed root e] else []) := by
  obtain ⟨diag0, hfin, hd0, hout, hcode, hdiag⟩ := lister_main_some fs o root nthr sched r hn h
  refine ⟨?_, ?_, ?_, ?_⟩
  · have h0 : (init_state root nthr diag0).rc =
        if (init_state root nthr diag0).diag.any Diag.is_read_or_stat_error then 1 else 0 := by
      have : diag0.any Diag.is_read_or_stat_error = false := by
        rw [List.any_eq_false]
        intro d hd
        obtain ⟨n, rfl⟩ := hd0 d hd
        simp [Diag.is_read_or_stat_error]
      simp [init_state, this]
    have hany : r.diag.any Diag.is_read_or_stat_error =
        (exec fs o (init_state root nthr diag0) sched).diag.any Diag.is_read_or_stat_error := by
      rw [hdiag, List.any_append]
      split_ifs <;> simp [Diag.is_read_or_stat_error]
    rw [hcode, hany]
    exact exec_rc fs o sched _ h0
  · intro st w p a rest e hw hwork he
    obtain ⟨st', h1, h2, h3, -⟩ := open_failed_step fs o st w p a rest e hw hwork he
    refine ⟨st', h1, h2, h3, ?_⟩
    intro later
    obtain ⟨more, hm, -⟩ := exec_diag fs o later st'
    exact ⟨more, hm⟩
  · intro p e hmem
    obtain ⟨more, hm, hall⟩ := exec_diag fs o sched (init_state root nthr diag0)
    rw [hdiag, hm] at hmem
    simp only [List.mem_append] at hmem
    rcases hmem with (h1 | h1) | h1
    · obtain ⟨n, hx⟩ := hd0 _ h1
      cases hx
    · exact hall p e h1
    · split_ifs at h1 <;> simp at h1
  · intro e he
    have hinit : RootFailed root diag0 (open_report o root e) (init_state root nthr diag0) := by
      refine ⟨rfl, rfl, Or.inl ⟨rfl, rfl, ?_⟩⟩
      intro x hx
      simp only [init_state, List.mem_replicate] at hx
      exact Or.inl hx.2
    obtain ⟨hrc, htree, hcase⟩ := root_failed_exec fs o root diag0 e he sched _ hinit
    have hsinv := sinv_exec fs o sched _ (sinv_init fs o root nthr diag0)
    have hlen := exec_workers_length fs o sched (init_state root nthr diag0)
    have hne : (exec fs o (init_state root nthr diag0) sched).workers ≠ [] := by
      intro hnil
      rw [hnil] at hlen
      simp [init_state] at hlen
      exact hn hlen.symm
    have hfs := final_settled fs o _ hsinv hne hfin
    have hfilter0 : diag0.filter Diag.is_traversal_error = [] := by
      rw [List.filter_eq_nil_iff]
      intro d hd
      obtain ⟨n, rfl⟩ := hd0 d hd
      simp [Diag.is_traversal_error]
    refine ⟨by rw [hcode, hrc], by rw [hout, htree], ?_⟩
    rcases hcase with ⟨hwork, -, -⟩ | ⟨-, hd, -⟩
    · rw [hfs.1] at hwork
      cases hwork
    · rw [hdiag, hd]
      simp only [List.filter_append, hfilter0, List.nil_append]
      unfold open_report
      split_ifs <;> simp [Diag.is_traversal_error]

/-- C6, witness: a metadata call fails during the walk of `statfail_fs` and
the exit code is 1; a subdirectory of `denied_fs` cannot be opened, which is
reported without `-q` and hidden with `-q`, and the exit code is 0. -/
theorem C6_witness :
    lister_main statfail_fs default_opts "r" 1 [0, 0, 0, 0] =
      some ⟨["r/a\n"], [Diag.stat_failed "r/a" EACCES], 1⟩ ∧
    (1 : Nat) = (if [Diag.stat_failed "r/a" EACCES].any Diag.is_read_or_stat_error then 1 else 0) ∧
    lister_main denied_fs default_opts "r" 1 [0, 0, 0, 0, 0, 0] =
      some ⟨[], [Diag.open_failed "r/s" EACCES], 0⟩ ∧
    lister_main denied_fs quiet_opts "r" 1 [0, 0, 0, 0, 0, 0] = some ⟨[], [], 0⟩ :=
  ⟨by decide,
   (C6_exit_code statfail_fs default_opts "r" 1 [0, 0, 0, 0]
     ⟨["r/a\n"], [Diag.stat_failed "r/a" EACCES], 1⟩ (by decide) (by decide)).1,
   by decide, by decide⟩

/-! ## C5 : no `.snapshot` below the starting path -/

theorem all_node_names_iff (P : String → Prop) (l : List Node) :
    all_node_names P l ↔ ∀ c ∈ l, c.all_names P := by
  induction l with
  | nil => simp [all_node_names]
  | cons c cs ih => simp [all_node_names, ih]

theorem push_back_names (P : String → Prop) (c : Node) (hc : c.all_names P) (a : NodePtr) :
    ∀ (t : Node), all_node_names P t.l → all_node_names P (t.push_back a c).l := by
  induction a with
  | nil =>
    intro t h
    cases t with
    | mk n d l =>
      simp only [Node.push_back, Node.l_mk] at h ⊢
      rw [all_node_names_iff] at h ⊢
      intro x hx
      rcases List.mem_append.mp hx with hx | hx
      · exact h x hx
      · simp at hx; subst hx; exact hc
  | cons k ks ih =>
    intro t h
    cases t with
    | mk n d l =>
      simp only [Node.push_back]
      cases hk : l[k]? with
      | none => simpa using h
      | some x =>
        simp only [Node.l_mk] at h ⊢
        rw [all_node_names_iff] at h ⊢
        intro y hy
        rcases List.mem_or_eq_of_mem_set hy with hy | hy
        · exact h y hy
        · subst hy
          have hx := h x (List.getElem?_mem hk)
          cases x with
          | mk xn xd xl =>
            simp only [Node.all_names] at hx
            have := ih (Node.mk xn xd xl) hx.2
            have e := Node.eta ((Node.mk xn xd xl).push_back ks c)
            rw [e]
            simp only [Node.all_names, Node.name_push_back, Node.name_mk]
            exact ⟨hx.1, this⟩

theorem entry_kid_name (fs : FS) (o : Opts) (p : String) (d : Dirent) (n : String) (f : Bool)
    (h : entry_kid fs o p d = some (n, f)) :
    n = d.d_name ∧ n ≠ "." ∧ n ≠ ".." ∧ (o.opt_t = 0 → n ≠ ".snapshot") := by
  unfold entry_kid at h
  split_ifs at h with h1 h2 h3
  · split at h <;>
    · simp only [Option.some.injEq, Prod.mk.injEq] at h
      obtain ⟨rfl, -⟩ := h
      push_neg at h1 h2
      exact ⟨rfl, h1.1, h1.2, h2⟩
  · simp only [Option.some.injEq, Prod.mk.injEq] at h
    obtain ⟨rfl, -⟩ := h
    push_neg at h1 h2
    exact ⟨rfl, h1.1, h1.2, h2⟩

theorem step_names (fs : FS) (o : Opts) (st st' : State) (w : Nat) (h : SInv fs o st)
    (hn : all_node_names (walk_name fs o) st.tree.l) (hstep : walk_step fs o st w = some st') :
    all_node_names (walk_name fs o) st'.tree.l := by
  unfold walk_step at hstep
  split at hstep
  · cases hstep
  · cases hstep
  · split at hstep
    · split_ifs at hstep <;> (cases hstep; simpa [set_worker] using hn)
    · split at hstep
      · split_ifs at hstep <;> (cases hstep; simpa [set_worker] using hn)
      · cases hstep; simpa [set_worker] using hn
  · rename_i p a d ds err hw
    cases hstep
    obtain ⟨va, hva, hpath, -, hprog⟩ := h.inv.busy_ok w p a _ hw
    obtain ⟨na, hna, -⟩ := Node.view_get? a "" st.tree va hva
    obtain ⟨s, consumed, hs, hents, -⟩ := hprog
    simp only [set_worker, walk_entry_tree fs o st p a d na hna]
    cases hk : entry_kid fs o p d with
    | none => exact hn
    | some nf =>
      obtain ⟨n, f⟩ := nf
      simp only
      apply push_back_names _ _ _ a st.tree hn
      obtain ⟨h1, h2, h3, h4⟩ := entry_kid_name fs o p d n f hk
      simp only [Node.all_names, all_node_names, and_true]
      exact ⟨⟨h2, h3, h4⟩, p, s, d, hs, by simp [hents], h1.symm⟩
  · cases hstep; simpa [set_worker] using hn
  · cases hstep; simpa [set_worker] using hn
  · cases hstep; simpa [set_worker] using hn

theorem exec_names (fs : FS) (o : Opts) (sched : List Nat) :
    ∀ (st : State), SInv fs o st → all_node_names (walk_name fs o) st.tree.l →
      all_node_names (walk_name fs o) (exec fs o st sched).tree.l := by
  induction sched with
  | nil => intro st _ h; exact h
  | cons w ws ih =>
    intro st hinv h
    simp only [exec]
    unfold step_or_stay
    cases hs : walk_step fs o st w with
    | none => exact ih st hinv h
    | some st' => exact ih st' (sinv_step fs o st st' w hinv hs) (step_names fs o st st' w hinv h hs)

/-- Every record of the files emitter is the text above the node, the node's
name and the names of a chain of nodes under it. -/
theorem files_records (P : String → Prop) (opt_0 : Char) :
    (∀ (t : Node) (pre : String), all_node_names P t.l →
      ∀ r ∈ files_depth_first opt_0 t pre, ∃ ns, (∀ n ∈ ns, P n) ∧
        r = join_path (pre ++ t.name) ns ++ String.singleton opt_0) ∧
    (∀ (l : List Node) (x : String), all_node_names P l →
      ∀ r ∈ files_loop opt_0 l (x ++ "/"), ∃ ns, (∀ n ∈ ns, P n) ∧
        r = join_path x ns ++ String.singleton opt_0) := by
  apply Node.induct2
  · intro n d l ih pre h r hr
    simp only [files_depth_first] at hr
    exact ih (pre ++ n) h r hr
  · intro x _ r hr
    simp [files_loop] at hr
  · intro c cs ihc ihcs x h r hr
    simp only [all_node_names] at h
    simp only [files_loop, List.mem_append] at hr
    have hcn : P c.name ∧ all_node_names P c.l := by
      cases c; simpa [Node.all_names] using h.1
    rcases hr with hr | hr
    · by_cases hd : c.dir_p = true
      · simp only [hd, if_true] at hr
        obtain ⟨ns, hns, rfl⟩ := ihc (x ++ "/") hcn.2 r hr
        refine ⟨c.name :: ns, ?_, rfl⟩
        intro n hn
        rcases List.mem_cons.mp hn with rfl | hn
        · exact hcn.1
        · exact hns n hn
      · simp only [hd] at hr
        simp at hr
        refine ⟨[c.name], by simpa using hcn.1, ?_⟩
        rw [hr]; rfl
    · exact ihcs x h.2 r hr

/-- Every record of the directories emitter is the text above the node, the
node's name and the names of a chain of nodes under it. -/
theorem dirs_records (P : String → Prop) (opt_0 : Char) :
    (∀ (t : Node) (pre : String), all_node_names P t.l →
      ∀ r ∈ dirs_depth_first opt_0 t pre, ∃ ns, (∀ n ∈ ns, P n) ∧
        r = join_path (pre ++ t.name) ns ++ String.singleton opt_0) ∧
    (∀ (l : List Node) (x : String), all_node_names P l →
      ∀ r ∈ dirs_loop opt_0 l (x ++ "/"), ∃ ns, (∀ n ∈ ns, P n) ∧
        r = join_path x ns ++ String.singleton opt_0) := by
  apply Node.induct2
  · intro n d l ih pre h r hr
    simp only [dirs_depth_first, List.mem_cons] at hr
    rcases hr with rfl | hr
    · exact ⟨[], by simp, rfl⟩
    · exact ih (pre ++ n) h r hr
  · intro x _ r hr
    simp [dirs_loop] at hr
  · intro c cs ihc ihcs x h r hr
    simp only [all_node_names] at h
    simp only [dirs_loop, List.mem_append] at hr
    have hcn : P c.name ∧ all_node_names P c.l := by
      cases c; simpa [Node.all_names] using h.1
    rcases hr with hr | hr
    · by_cases hd : c.dir_p = true
      · simp only [hd, if_true] at hr
        obtain ⟨ns, hns, rfl⟩ := ihc (x ++ "/") hcn.2 r hr
        refine ⟨c.name :: ns, ?_, rfl⟩
        intro n hn
        rcases List.mem_cons.mp hn with rfl | hn
        · exact hcn.1
        · exact hns n hn
      · simp [hd] at hr
    · exact ihcs x h.2 r hr

theorem split_slash_ne_nil (xs : List Char) : split_slash xs ≠ [] := by
  induction xs with
  | nil => simp [split_slash]
  | cons c cs ih =>
    simp only [split_slash]
    split_ifs
    · simp
    · split <;> simp

theorem split_slash_append (xs ys : List Char) :
    split_slash (xs ++ '/' :: ys) = split_slash xs ++ split_slash ys := by
  induction xs with
  | nil => simp [split_slash]
  | cons c cs ih =>
    show split_slash (c :: (cs ++ '/' :: ys)) = split_slash (c :: cs) ++ split_slash ys
    simp only [split_slash]
    rw [ih]
    split_ifs
    · rfl
    · cases h : split_slash cs with
      | nil => exact absurd h (split_slash_ne_nil cs)
      | cons a as => simp

theorem split_slash_free (xs : List Char) (h : '/' ∉ xs) : split_slash xs = [xs] := by
  induction xs with
  | nil => rfl
  | cons c cs ih =>
    simp only [List.mem_cons, not_or] at h
    simp only [split_slash, ih h.2]
    rw [if_neg (fun hc => h.1 hc.symm)]

theorem components_join (names : List String) (hfree : ∀ n ∈ names, '/' ∉ n.data) :
    ∀ (root : String), components (join_path root names) = components root ++ names := by
  induction names with
  | nil => intro root; simp [join_path]
  | cons n ns ih =>
    intro root
    rw [join_path_cons, ih (fun m hm => hfree m (List.mem_cons_of_mem _ hm))]
    have : components (root ++ "/" ++ n) = components root ++ [n] := by
      simp only [components, String.data_append]
      rw [List.append_assoc, List.singleton_append, split_slash_append,
        split_slash_free _ (hfree n (List.mem_cons_self _ _))]
      simp
    rw [this]
    simp

/-- C5, counterexample: the starting path is `.snapshot`; without `-t` every
record of either mode has the path component `.snapshot`. -/
theorem C5_counterexample :
    default_opts.opt_t = 0 ∧
    lister_main snaproot_fs { default_opts with opt_d := 1 } ".snapshot" 1 (List.replicate 6 0) =
      some ⟨[".snapshot\n"], [], 0⟩ ∧
    lister_main snaproot_fs default_opts ".snapshot" 1 (List.replicate 6 0) =
      some ⟨[".snapshot/a\n"], [], 0⟩ ∧
    ".snapshot" ∈ components ".snapshot" ∧ ".snapshot" ∈ components ".snapshot/a" := by
  decide

/-- C5, amended: when the lister runs without `-t` on a filesystem whose entry
names contain no `/`, every record of a complete run, in file mode or in
directory mode, is the starting path followed by `/`-prefixed entry names and
the terminator; its path components are those of the starting path followed
by these names, and none of these names is `.snapshot`: the component can
occur only inside the starting path itself. -/
theorem C5_no_snapshot_below_root (fs : FS) (o : Opts) (root : String) (nthr : Nat)
    (sched : List Nat) (r : Outcome) (ht : o.opt_t = 0) (hn : nthr ≠ 0)
    (hfree : ∀ p s d, fs.opendir p = .ok s → d ∈ s.ents → '/' ∉ d.d_name.data)
    (h : lister_main fs o root nthr sched = some r) :
    ∀ record ∈ r.out, ∃ names : List String,
      record = join_path root names ++ String.singleton o.opt_0 ∧
      components (join_path root names) = components root ++ names ∧
      ∀ n ∈ names, n ≠ ".snapshot" := by
  obtain ⟨diag0, -, -, hout, -⟩ := lister_main_some fs o root nthr sched r hn h
  have hinv := sinv_init fs o root nthr diag0
  have hnames := exec_names fs o sched _ hinv
    (by simp [init_state, Node.new, all_node_names])
  have hroot := (exec_root fs o sched (init_state root nthr diag0)).1
  have hrootname : (init_state root nthr diag0).tree.name = root := rfl
  rw [hrootname] at hroot
  have key : ∀ record, (∃ ns, (∀ n ∈ ns, walk_name fs o n) ∧
      record = join_path ("" ++ (exec fs o (init_state root nthr diag0) sched).tree.name) ns ++
        String.singleton o.opt_0) →
      ∃ names : List String,
        record = join_path root names ++ String.singleton o.opt_0 ∧
        components (join_path root names) = components root ++ names ∧
        ∀ n ∈ names, n ≠ ".snapshot" := by
    rintro record ⟨ns, hns, rfl⟩
    refine ⟨ns, by rw [hroot, String.empty_append], ?_, ?_⟩
    · apply components_join
      intro n hn
      obtain ⟨-, p, s, d, hs, hd, rfl⟩ := hns n hn
      exact hfree p s d hs hd
    · intro n hn
      exact (hns n hn).1.2.2 ht
  intro record hrec
  rw [hout] at hrec
  unfold emit at hrec
  split_ifs at hrec
  · exact key record ((dirs_records (walk_name fs o) o.opt_0).1 _ "" hnames record hrec)
  · exact key record ((files_records (walk_name fs o) o.opt_0).1 _ "" hnames record hrec)

theorem example_fs_names :
    ∀ p s d, example_fs.opendir p = .ok s → d ∈ s.ents → '/' ∉ d.d_name.data := by
  intro p s d h hd
  simp only [example_fs] at h
  split_ifs at h <;> cases h <;> simp at hd
  all_goals
    rcases hd with rfl | rfl | rfl | rfl | rfl <;> decide

/-- C5, witness: the theorem at the tree `r/{a, b/c, b/d/, e/}` in file
mode. -/
theorem C5_witness :
    (∀ p s d, example_fs.opendir p = .ok s → d ∈ s.ents → '/' ∉ d.d_name.data) ∧
    lister_main example_fs default_opts "r" 1 (List.replicate 30 0) =
      some ⟨["r/a\n", "r/b/c\n"], [], 0⟩ ∧
    ∀ record ∈ ["r/a\n", "r/b/c\n"], ∃ names : List String,
      record = join_path "r" names ++ String.singleton '\n' ∧
      components (join_path "r" names) = components "r" ++ names ∧
      ∀ n ∈ names, n ≠ ".snapshot" :=
  ⟨example_fs_names, by decide,
   C5_no_snapshot_below_root example_fs default_opts "r" 1 (List.replicate 30 0)
     ⟨["r/a\n", "r/b/c\n"], [], 0⟩ rfl (by decide) example_fs_names (by decide)⟩

/-! ## C7, C8, C9 : the remover -/

namespace Remover

/-- The folding step of `deletetree` keeps `rc`. -/
theorem deletetree_rc {σ : Type} (os : OS σ) :
    ∀ (fuel : Nat) (e : String) (st st' : State σ), deletetree os fuel e st = some st' →
      st'.rc = st.rc := by
  intro fuel
  induction fuel with
  | zero => intro e st st' h; simp [deletetree] at h
  | succ n ih =>
    intro e st st' h
    simp only [deletetree] at h
    split at h
    · cases h; rfl
    · rename_i s hs
      have hfold : ∀ (ents : List Dirent) (acc acc' : State σ),
          ents.foldlM (fun (acc : State σ) (d : Dirent) =>
            if d.d_name = "." ∨ d.d_name = ".." then some acc
            else if d.d_type = DT_DIR then deletetree os n (e ++ "/" ++ d.d_name) acc
            else some acc) acc = some acc' → acc'.rc = acc.rc := by
        intro ents
        induction ents with
        | nil => intro acc acc' h; simp at h; rw [h]
        | cons d ds ihd =>
          intro acc acc' h
          simp only [List.foldlM_cons] at h
          split_ifs at h with h1 h2
          · exact ihd acc acc' h
          · cases hd : deletetree os n (e ++ "/" ++ d.d_name) acc with
            | none => simp [hd] at h
            | some mid =>
              simp only [hd] at h
              have := ihd mid acc' h
              rw [this, ih _ _ _ hd]
          · exact ihd acc acc' h
      simp only [Option.map_eq_some'] at h
      obtain ⟨st2, hst2, rfl⟩ := h
      have := hfold s.ents _ st2 hst2
      split <;> simpa using this

end Remover

/-- C7, the run at the failing input: the directory `r` holds one file whose
`unlink` fails; `walk` reports the failure, `main` goes on to `deletetree`,
whose `rmdir` fails and is reported too, and `main` returns 0.  No pass of
the loop of `walk` and no call of `deletetree` ever changes `rc`. -/
theorem C7_unlink_failure_exit_code :
    ((Remover.main Remover.readonly_os () ["prmdir", "-rfp", "r"] Remover.example_sched 5).map
      fun r => (r.code, r.diag, r.trace)) =
      some (0, [Remover.Diag.unlink_failed "r/a" EACCES, Remover.Diag.rmdir_failed "r" ENOTEMPTY],
        [Remover.Call.opendir "r", Remover.Call.unlink "r/a", Remover.Call.opendir "r",
         Remover.Call.rmdir "r"]) ∧
    (∀ (σ : Type) (os : Remover.OS σ) (st : Remover.State σ) (e : String) (d : Dirent),
      (Remover.walk_entry os st e d).rc = st.rc) ∧
    (∀ (σ : Type) (os : Remover.OS σ) (fuel : Nat) (e : String) (st st' : Remover.State σ),
      Remover.deletetree os fuel e st = some st' → st'.rc = st.rc) := by
  refine ⟨by decide, ?_, ?_⟩
  · intro σ os st e d
    exact (Remover.rm_walk_entry_rest os st e d).2.2
  · intro σ os fuel e st st' h
    exact Remover.deletetree_rc os fuel e st st' h

namespace Remover

theorem Extends.refl {σ : Type} (st : State σ) : Extends st st :=
  ⟨⟨[], by simp⟩, fun d hd => Or.inl hd⟩

theorem Extends.trans {σ : Type} {a b c : State σ} (h1 : Extends a b) (h2 : Extends b c) :
    Extends a c := by
  obtain ⟨⟨t1, e1⟩, d1⟩ := h1
  obtain ⟨⟨t2, e2⟩, d2⟩ := h2
  refine ⟨⟨t1 ++ t2, by rw [e2, e1, List.append_assoc]⟩, ?_⟩
  intro d hd
  rcases d2 d hd with h | h
  · exact d1 d h
  · exact Or.inr h

theorem walk_entry_extends {σ : Type} (os : OS σ) (st : State σ) (e : String) (d : Dirent) :
    Extends st (walk_entry os st e d) := by
  unfold walk_entry Extends
  simp only
  split_ifs <;> (try split) <;> (try split) <;> (try split_ifs) <;>
    simp_all <;>
    (intro x hx
     first
     | exact Or.inl hx
     | (rcases hx with hx | hx | hx
        · exact Or.inl hx
        all_goals (right; subst hx; rfl))
     | (rcases hx with hx | hx
        · exact Or.inl hx
        · right; subst hx; rfl))

theorem step_extends {σ : Type} (os : OS σ) (st st' : State σ) (w : Nat)
    (hstep : walk_step os st w = some st') : Extends st st' := by
  unfold walk_step at hstep
  split at hstep
  · cases hstep
  · cases hstep
  · split at hstep
    · split_ifs at hstep <;> (cases hstep; exact Extends.refl _)
    · split at hstep <;>
      · cases hstep
        refine ⟨⟨_, rfl⟩, ?_⟩
        intro d hd
        simp [set_worker] at hd
        first
        | exact Or.inl hd
        | (rcases hd with hd | hd
           · exact Or.inl hd
           · right; subst hd; rfl)
  · cases hstep
    exact walk_entry_extends os st _ _
  · cases hstep
    refine ⟨⟨[], by simp [set_worker]⟩, ?_⟩
    intro d hd
    simp [set_worker, Diag.is_usage] at hd ⊢
    rcases hd with hd | hd
    · exact Or.inl hd
    · right; rw [hd]
  · cases hstep; exact ⟨⟨[], by simp [set_worker]⟩, fun d hd => Or.inl hd⟩
  · cases hstep; exact ⟨⟨[], by simp [set_worker]⟩, fun d hd => Or.inl hd⟩

theorem deletetree_extends {σ : Type} (os : OS σ) :
    ∀ (fuel : Nat) (e : String) (st st' : State σ), deletetree os fuel e st = some st' →
      Extends st st' := by
  intro fuel
  induction fuel with
  | zero => intro e st st' h; simp [deletetree] at h
  | succ n ih =>
    intro e st st' h
    simp only [deletetree] at h
    split at h
    · cases h
      refine ⟨⟨_, rfl⟩, ?_⟩
      intro d hd
      simp [Diag.is_usage] at hd ⊢
      rcases hd with hd | hd
      · exact Or.inl hd
      · right; rw [hd]
    · rename_i s hs
      have hfold : ∀ (ents : List Dirent) (acc acc' : State σ),
          ents.foldlM (fun (acc : State σ) (d : Dirent) =>
            if d.d_name = "." ∨ d.d_name = ".." then some acc
            else if d.d_type = DT_DIR then deletetree os n (e ++ "/" ++ d.d_name) acc
            else some acc) acc = some acc' → Extends acc acc' := by
        intro ents
        induction ents with
        | nil => intro acc acc' h; simp at h; rw [h]; exact Extends.refl _
        | cons d ds ihd =>
          intro acc acc' h
          simp only [List.foldlM_cons] at h
          split_ifs at h with h1 h2
          · exact ihd acc acc' h
          · cases hd : deletetree os n (e ++ "/" ++ d.d_name) acc with
            | none => simp [hd] at h
            | some mid =>
              simp only [hd] at h
              exact (ih _ _ _ hd).trans (ihd mid acc' h)
          · exact ihd acc acc' h
      simp only [Option.map_eq_some'] at h
      obtain ⟨st2, hst2, rfl⟩ := h
      have h1 : Extends st { st with trace := st.trace ++ [Call.opendir e] } :=
        ⟨⟨_, rfl⟩, fun d hd => Or.inl hd⟩
      refine (h1.trans (hfold s.ents _ st2 hst2)).trans ?_
      refine ⟨⟨[Call.rmdir e], ?_⟩, ?_⟩
      · split <;> rfl
      · intro d hd
        split at hd
        · simp [Diag.is_usage] at hd ⊢
          rcases hd with hd | hd
          · exact Or.inl hd
          · right; rw [hd]
        · exact Or.inl hd

theorem head_extends {σ : Type} {st st' : State σ} {c : Call} (h : Extends st st')
    (hc : st.trace.head? = some c) : st'.trace.head? = some c := by
  obtain ⟨⟨t, e⟩, -⟩ := h
  rw [e]
  cases htr : st.trace with
  | nil => rw [htr] at hc; cases hc
  | cons x xs => rw [htr] at hc; simpa using hc

theorem step_started {σ : Type} (os : OS σ) (root : String) (st st' : State σ) (w : Nat)
    (h : Started root st) (hstep : walk_step os st w = some st') : Started root st' := by
  rcases h with ⟨htr, hwork, hidle⟩ | h
  · right
    unfold walk_step at hstep
    cases hw : st.workers[w]? with
    | none => simp [hw] at hstep
    | some x =>
      have hx := hidle x (List.getElem?_mem hw)
      subst hx
      simp only [hw, hwork] at hstep
      split at hstep <;> (cases hstep; simp [set_worker, htr])
  · right
    exact head_extends (step_extends os st st' w hstep) h

theorem exec_started {σ : Type} (os : OS σ) (root : String) (sched : List Nat) :
    ∀ (st : State σ), Started root st → Started root (exec os st sched) ∧
      Extends st (exec os st sched) ∧ (exec os st sched).workers.length = st.workers.length := by
  induction sched with
  | nil => intro st h; exact ⟨h, Extends.refl _, rfl⟩
  | cons w ws ih =>
    intro st h
    simp only [exec]
    unfold step_or_stay
    cases hs : walk_step os st w with
    | none => exact ih st h
    | some st' =>
      simp only [Option.getD_some]
      obtain ⟨a, b, c⟩ := ih st' (step_started os root st st' w h hs)
      refine ⟨a, (step_extends os st st' w hs).trans b, c.trans ?_⟩
      exact rm_step_workers_length os st st' w hs

/-- A completed removal has traced the `opendir` of the root first and has
not printed the usage message. -/
theorem main_started {σ : Type} (os : OS σ) (fs : σ) (root prog : String) (sched : List Nat)
    (fuel : Nat) (r : Outcome σ)
    (hr : (if all_exited (exec os (init_state fs root MAXPARALLEL) sched) = true then
        Option.map (fun s => ({ code := s.rc, diag := s.diag, trace := s.trace, fs := s.fs } :
          Outcome σ))
          (if (exec os (init_state fs root MAXPARALLEL) sched).rc = 0 then
            deletetree os fuel root (exec os (init_state fs root MAXPARALLEL) sched)
           else some (exec os (init_state fs root MAXPARALLEL) sched))
      else none) = some r) :
    Diag.usage prog ∉ r.diag ∧ r.trace.head? = some (Call.opendir root) := by
  have h0 : Started root (init_state fs root MAXPARALLEL) := by
    left
    refine ⟨rfl, rfl, ?_⟩
    intro x hx
    simp [init_state] at hx
    exact hx.2
  obtain ⟨hst, hext, hlen⟩ := exec_started os root sched _ h0
  split_ifs at hr with hfin hrc
  all_goals simp only [Option.map_eq_some'] at hr
  all_goals obtain ⟨s, hs, rfl⟩ := hr
  all_goals simp only
  all_goals
    have hhead : (exec os (init_state fs root MAXPARALLEL) sched).trace.head? =
        some (Call.opendir root) := by
      rcases hst with ⟨-, -, hidle⟩ | h
      · exfalso
        have hex : ∀ x ∈ (exec os (init_state fs root MAXPARALLEL) sched).workers,
            x = Worker.exited := by
          simpa [all_exited] using hfin
        have hpos : 0 < (exec os (init_state fs root MAXPARALLEL) sched).workers.length := by
          rw [hlen]; simp [init_state, MAXPARALLEL]
        obtain ⟨x, hx⟩ := List.exists_mem_of_length_pos hpos
        have h1 := hidle x hx
        have h2 := hex x hx
        rw [h1] at h2; cases h2
      · exact h
  · have hd := deletetree_extends os fuel root _ s hs
    have hall := hext.trans hd
    refine ⟨?_, head_extends hd hhead⟩
    intro hmem
    rcases hall.2 _ hmem with h | h
    · simp [init_state] at h
    · simp [Diag.is_usage] at h
  · cases hs
    refine ⟨?_, hhead⟩
    intro hmem
    rcases hext.2 _ hmem with h | h
    · simp [init_state] at h
    · simp [Diag.is_usage] at h

end Remover

/-- C8, counterexample: with an additional argument after the directory the
remover reports no usage error: it removes under `r` as without it. -/
theorem C8_counterexample :
    ((Remover.main Remover.readonly_os () ["prmdir", "-rfp", "r", "extra"]
      Remover.example_sched 5).map fun r => (r.code, r.diag, r.trace)) =
      some (0, [Remover.Diag.unlink_failed "r/a" EACCES, Remover.Diag.rmdir_failed "r" ENOTEMPTY],
        [Remover.Call.opendir "r", Remover.Call.unlink "r/a", Remover.Call.opendir "r",
         Remover.Call.rmdir "r"]) := by
  decide

/-- The first step of a thread of the remover pops the root and calls
`opendir` on it, and every later step leaves that call at the head of the
trace. -/
theorem Remover.first_step_opens {σ : Type} (os : Remover.OS σ) (fs : σ) (root : String)
    (w : Nat) (hw : w < MAXPARALLEL) (s : List Nat) :
    (Remover.exec os (Remover.init_state fs root MAXPARALLEL) (w :: s)).trace.head? =
      some (Remover.Call.opendir root) := by
  have hidle : (Remover.init_state fs root MAXPARALLEL).workers[w]? = some Remover.Worker.idle := by
    simp [Remover.init_state, List.getElem?_replicate, hw]
  have h1 : (Remover.step_or_stay os (Remover.init_state fs root MAXPARALLEL) w).trace.head? =
      some (Remover.Call.opendir root) := by
    unfold Remover.step_or_stay Remover.walk_step
    simp only [hidle]
    simp only [Remover.init_state]
    split <;> simp [Remover.set_worker]
  simp only [Remover.exec]
  obtain ⟨-, hext, -⟩ := Remover.exec_started os root s _ (Or.inr h1)
  exact Remover.head_extends hext h1

/-- C8, amended: for every argument vector with fewer than three elements or
whose second element is not `-rfp` (the sentinel missing or not in first
position, no directory given), `main` reports a usage error, exits with code
1, creates no thread and makes no system call.  For every other argument
vector, that is `<prog> -rfp DIR` followed by any further arguments, `main`
starts the removal of `DIR`: it creates `MAXPARALLEL` threads on the worklist
`[DIR]`; whatever the schedule, the first step any of them takes calls
`opendir(DIR)`, which stays the first system call of the process, the usage
message is never printed, and arguments after `DIR` are ignored (the outcome
is that of exactly `<prog> -rfp DIR`); `main` returns what remains to be done
after the joins (`deletetree` if `rc` is 0) on the state the threads reached,
and a removal that returns has made `opendir(DIR)` its first call. -/
theorem C8_usage_guard {σ : Type} (os : Remover.OS σ) (fs : σ) (argv : List String)
    (sched : List Nat) (fuel : Nat) :
    ((argv.length < 3 ∨ argv[1]? ≠ some "-rfp") →
      Remover.threads_state os fs argv sched = none ∧
      ∃ r, Remover.main os fs argv sched fuel = some r ∧ r.code = 1 ∧
        r.diag = [Remover.Diag.usage (argv.headD "")] ∧ r.trace = [] ∧ r.fs = fs) ∧
    (¬ (argv.length < 3 ∨ argv[1]? ≠ some "-rfp") →
      Remover.main os fs argv sched fuel =
        Remover.main os fs [argv.headD "", "-rfp", argv.getD 2 ""] sched fuel ∧
      (∀ r, Remover.main os fs argv sched fuel = some r →
        Remover.Diag.usage (argv.headD "") ∉ r.diag ∧
        r.trace.head? = some (Remover.Call.opendir (argv.getD 2 ""))) ∧
      Remover.threads_state os fs argv [] =
        some ⟨fs, [argv.getD 2 ""], 0, 0, [], [], List.replicate Remover.MAXPARALLEL Remover.Worker.idle⟩ ∧
      (∀ s : List Nat, ∃ st, Remover.threads_state os fs argv s = some st ∧
        Remover.Started (argv.getD 2 "") st ∧
        (∀ d ∈ st.diag, d.is_usage = false) ∧
        st.workers.length = Remover.MAXPARALLEL ∧
        Remover.main os fs argv s fuel = Remover.main_finish os fuel (argv.getD 2 "") st) ∧
      (∀ (w : Nat) (s : List Nat), w < Remover.MAXPARALLEL →
        ∃ st, Remover.threads_state os fs argv (w :: s) = some st ∧
          st.trace.head? = some (Remover.Call.opendir (argv.getD 2 "")))) := by
  constructor
  · intro h
    exact ⟨by simp only [Remover.threads_state, h, if_true],
      ⟨1, [Remover.Diag.usage (argv.headD "")], [], fs⟩,
      by simp only [Remover.main, h, if_true], rfl, rfl, rfl, rfl⟩
  · intro h
    have h0 : Remover.Started (argv.getD 2 "")
        (Remover.init_state fs (argv.getD 2 "") Remover.MAXPARALLEL) := by
      left
      refine ⟨rfl, rfl, ?_⟩
      intro x hx
      simp [Remover.init_state] at hx
      exact hx.2
    refine ⟨?_, ?_, ?_, ?_, ?_⟩
    · simp only [Remover.main, h, if_false]
      simp
    · intro r hr
      simp only [Remover.main, h, if_false] at hr
      exact Remover.main_started os fs (argv.getD 2 "") (argv.headD "") sched fuel r hr
    · simp only [Remover.threads_state, h, if_false]
      rfl
    · intro s
      refine ⟨Remover.exec os (Remover.init_state fs (argv.getD 2 "") Remover.MAXPARALLEL) s,
        by simp only [Remover.threads_state, h, if_false], ?_⟩
      obtain ⟨hst, hext, hlen⟩ := Remover.exec_started os (argv.getD 2 "") s _ h0
      refine ⟨hst, ?_, ?_, ?_⟩
      · intro d hd
        rcases hext.2 d hd with h1 | h1
        · simp [Remover.init_state] at h1
        · exact h1
      · rw [hlen]
        simp [Remover.init_state]
      · simp only [Remover.main, h, if_false, Remover.main_finish]
    · intro w s hw
      exact ⟨Remover.exec os (Remover.init_state fs (argv.getD 2 "") Remover.MAXPARALLEL) (w :: s),
        by simp only [Remover.threads_state, h, if_false],
        Remover.first_step_opens os fs (argv.getD 2 "") w hw s⟩

/-- C8, witness: `prmdir -rfp r` on a system whose directory `r` holds one
file: after the first step of thread 7 the process has called `opendir(r)`,
and the run in which all threads exit returns. -/
theorem C8_witness :
    (Remover.threads_state Remover.readonly_os () ["prmdir", "-rfp", "r"] [7]).map
        (fun st => st.trace) = some [Remover.Call.opendir "r"] ∧
    (∃ st, Remover.threads_state Remover.readonly_os () ["prmdir", "-rfp", "r"] [7, 3] = some st ∧
      st.trace.head? = some (Remover.Call.opendir "r")) ∧
    ((Remover.main Remover.readonly_os () ["prmdir", "-rfp", "r"]
      Remover.example_sched 5).map fun r => (r.code, r.trace.head?)) =
      some (0, some (Remover.Call.opendir "r")) :=
  ⟨by decide,
   (C8_usage_guard Remover.readonly_os () ["prmdir", "-rfp", "r"] [] 5).2 (by decide)
     |>.2.2.2.2 7 [3] (by decide),
   by decide⟩

/-- C9, counterexample: an entry of unknown kind whose `lstat` fails is
unlinked. -/
theorem C9_counterexample :
    Remover.unstatable_os.lstat () "r/x" = .error EACCES ∧
    (Remover.walk_entry Remover.unstatable_os (Remover.init_state () "r" 1) "r"
      ⟨"x", DT_UNKNOWN⟩).trace = [Remover.Call.lstat "r/x", Remover.Call.unlink "r/x"] :=
  ⟨rfl, by decide⟩

/-- C9, amended: for every remover directory entry (other than `.` and `..`)
whose kind hint is UNKNOWN and whose `lstat` call fails, `walk` reports the
failure, does not push the path on the worklist, and treats the entry as a
file: it calls `unlink` on the path. -/
theorem C9_unstatable_entry {σ : Type} (os : Remover.OS σ) (st : Remover.State σ)
    (e : String) (d : Dirent) (en : Nat)
    (hdot : d.d_name ≠ "." ∧ d.d_name ≠ "..") (hty : d.d_type = DT_UNKNOWN)
    (hstat : os.lstat st.fs (e ++ "/" ++ d.d_name) = .error en) :
    (Remover.walk_entry os st e d).work = st.work ∧
    (Remover.walk_entry os st e d).trace = st.trace ++
      [Remover.Call.lstat (e ++ "/" ++ d.d_name), Remover.Call.unlink (e ++ "/" ++ d.d_name)] ∧
    Remover.Diag.stat_failed (e ++ "/" ++ d.d_name) en ∈ (Remover.walk_entry os st e d).diag ∧
    (Remover.walk_entry os st e d).fs = (os.unlink st.fs (e ++ "/" ++ d.d_name)).2 := by
  have h1 : ¬ (d.d_name = "." ∨ d.d_name = "..") := by
    intro hc; rcases hc with hc | hc
    · exact hdot.1 hc
    · exact hdot.2 hc
  have h2 : ¬ (DT_UNKNOWN = DT_DIR) := by decide
  unfold Remover.walk_entry
  simp only [h1, if_false, hty, if_true, hstat, h2]
  cases hu : os.unlink st.fs (e ++ "/" ++ d.d_name) with
  | mk res fs' =>
    cases res <;> simp

/-- C9, witness: the entry `x` of unknown kind in `r`, on a system where
`lstat` fails. -/
theorem C9_witness :
    (("x" : String) ≠ "." ∧ ("x" : String) ≠ "..") ∧
    Remover.unstatable_os.lstat () ("r" ++ "/" ++ "x") = .error EACCES ∧
    (Remover.walk_entry Remover.unstatable_os (Remover.init_state () "r" 1) "r"
      ⟨"x", DT_UNKNOWN⟩).work = ["r"] :=
  ⟨by decide, rfl,
   (C9_unstatable_entry Remover.unstatable_os (Remover.init_state () "r" 1) "r"
      ⟨"x", DT_UNKNOWN⟩ EACCES (by decide) rfl rfl).1⟩

/-! ## C10 : the linker's line length limit -/

namespace Linker

theorem fgets_take_line (line : List Nat) (hnl : NL ∉ line) :
    ∀ (k : Nat) (rest : List Nat), fgets_take k (line ++ NL :: rest) =
      if line.length < k then (line ++ [NL], rest)
      else (line.take k, line.drop k ++ NL :: rest) := by
  induction line with
  | nil =>
    intro k rest
    cases k with
    | zero => simp [fgets_take]
    | succ k => simp [fgets_take]
  | cons b bs ih =>
    intro k rest
    simp only [List.mem_cons, not_or] at hnl
    cases k with
    | zero => simp [fgets_take]
    | succ k =>
      have hb : ¬ b = NL := fun h => hnl.1 h.symm
      simp only [List.cons_append, fgets_take, if_neg hb, List.length_cons,
        Nat.add_lt_add_iff_right]
      change (b :: (fgets_take k (bs ++ NL :: rest)).1, (fgets_take k (bs ++ NL :: rest)).2) = _
      rw [ih hnl.2 k rest]
      split_ifs <;> simp

theorem cstr_clean (xs : List Nat) (h : 0 ∉ xs) : cstr xs = xs := by
  unfold cstr
  rw [List.takeWhile_eq_self_iff]
  intro x hx
  simp only [ne_eq, decide_eq_true_eq]
  intro h0
  exact h (h0 ▸ hx)

theorem chomp_line (line : List Nat) (h0 : 0 ∉ line) : chomp (line ++ [NL]) = line := by
  have hc : cstr (line ++ [NL]) = line ++ [NL] := by
    apply cstr_clean
    simp only [List.mem_append, List.mem_singleton, not_or]
    exact ⟨h0, by decide⟩
  unfold chomp strlen
  simp only [hc, List.length_append, List.length_singleton, Nat.add_sub_cancel]
  have : (line ++ [NL])[line.length]? = some NL := by
    rw [List.getElem?_append_right (Nat.le_refl _)]
    simp
  rw [if_pos ⟨by omega, this⟩]
  simp

/-- One round of the loop on an input that starts with a line. -/
theorem read_loop_line (line : List Nat) (hc : clean_line line) (fuel : Nat)
    (rest : List Nat) (work : List (List Nat)) :
    read_loop (fuel + 1) (line ++ NL :: rest) work =
      if line.length + 1 < 1999 then read_loop fuel rest (work ++ [line])
      else some (.error ((line ++ [NL]).take 1999)) := by
  have hin : fgets BUFSIZE (line ++ NL :: rest) =
      some (fgets_take 1999 (line ++ NL :: rest)) := by
    cases line <;> rfl
  simp only [read_loop, hin, fgets_take_line line hc.1]
  by_cases h1 : line.length < 1999
  · simp only [h1, if_true]
    have hs : strlen (line ++ [NL]) = line.length + 1 := by
      unfold strlen
      rw [cstr_clean]
      · simp
      · simp only [List.mem_append, List.mem_singleton, not_or]
        exact ⟨hc.2, by decide⟩
    rw [hs, chomp_line line hc.2]
    by_cases h2 : line.length + 1 < 1999
    · rw [if_pos h2, if_neg]
      simp only [BUFSIZE]; omega
    · rw [if_neg h2, if_pos]
      · have : cstr (line ++ [NL]) = line ++ [NL] := by
          apply cstr_clean
          simp only [List.mem_append, List.mem_singleton, not_or]
          exact ⟨hc.2, by decide⟩
        rw [this, List.take_of_length_le (by simp; omega)]
      · simp only [BUFSIZE]; omega
  · simp only [h1, if_false]
    have h0 : 0 ∉ line.take 1999 := fun hm => hc.2 (List.mem_of_mem_take hm)
    have hs : strlen (line.take 1999) = 1999 := by
      unfold strlen
      rw [cstr_clean _ h0, List.length_take]
      omega
    rw [hs, if_pos (by simp [BUFSIZE]), if_neg (by omega), cstr_clean _ h0]
    rw [List.take_append_of_le_length (by omega)]

theorem stdin_of_cons (line : List Nat) (lines : List (List Nat)) :
    stdin_of (line :: lines) = line ++ NL :: stdin_of lines := by
  simp [stdin_of]

/-- The loop on an input made of lines. -/
theorem read_loop_lines :
    ∀ (lines : List (List Nat)) (fuel : Nat) (work : List (List Nat)),
      (∀ l ∈ lines, clean_line l) → lines.length < fuel →
      ((∀ l ∈ lines, l.length + 1 < 1999) →
        read_loop fuel (stdin_of lines) work = some (.ok (work ++ lines))) ∧
      ((∃ l ∈ lines, 1999 ≤ l.length + 1) →
        refused (read_loop fuel (stdin_of lines) work) = true) := by
  intro lines
  induction lines with
  | nil =>
    intro fuel work _ hf
    cases fuel with
    | zero => omega
    | succ n =>
      refine ⟨fun _ => by simp [stdin_of, read_loop, fgets], ?_⟩
      rintro ⟨l, hl, -⟩
      cases hl
  | cons line lines ih =>
    intro fuel work hc hf
    cases fuel with
    | zero => omega
    | succ n =>
      have hcl := hc line (List.mem_cons_self _ _)
      have hrest : ∀ l ∈ lines, clean_line l := fun l hl => hc l (List.mem_cons_of_mem _ hl)
      have hn : lines.length < n := by simpa using hf
      rw [stdin_of_cons, read_loop_line line hcl]
      obtain ⟨ih1, ih2⟩ := ih n (work ++ [line]) hrest hn
      constructor
      · intro hshort
        rw [if_pos (hshort line (List.mem_cons_self _ _))]
        rw [ih1 (fun l hl => hshort l (List.mem_cons_of_mem _ hl))]
        simp
      · rintro ⟨l, hl, hlong⟩
        by_cases h1 : line.length + 1 < 1999
        · rw [if_pos h1]
          rcases List.mem_cons.mp hl with rfl | hl
          · omega
          · exact ih2 ⟨l, hl, hlong⟩
        · rw [if_neg h1]; rfl

theorem stdin_of_length (lines : List (List Nat)) : lines.length ≤ (stdin_of lines).length := by
  induction lines with
  | nil => simp
  | cons l ls ih =>
    rw [stdin_of_cons]
    simp only [List.length_cons, List.length_append]
    omega

end Linker

/-- C10, counterexample: a path of 1998 bytes followed by a newline, 1999
bytes in all and so less than 2000, is refused. -/
theorem C10_counterexample :
    (List.replicate 1998 97 ++ [Linker.NL]).length = 1999 ∧
    Linker.refused (Linker.read_stdin (Linker.stdin_of [List.replicate 1998 97])) = true := by
  refine ⟨by simp, ?_⟩
  apply (Linker.read_loop_lines [List.replicate 1998 97] _ [] ?_ ?_).2
  · exact ⟨_, List.mem_singleton_self _, by simp⟩
  · intro l hl
    rw [List.mem_singleton] at hl
    subst hl
    constructor
    · intro h; have := List.eq_of_mem_replicate h; simp [Linker.NL] at this
    · intro h; have := List.eq_of_mem_replicate h; simp at this
  · have := Linker.stdin_of_length [List.replicate 1998 97]
    omega

/-- C10, amended: for standard input made of lines without NUL, each ended by
its newline, the linker queues every line with the newline removed and
otherwise unchanged if and only if every line is shorter than 1999 bytes
including the newline (at most 1998); it refuses the input (message and exit
1) if and only if some line has 1999 bytes or more including the newline. -/
theorem C10_line_limit (lines : List (List Nat)) (hclean : ∀ l ∈ lines, Linker.clean_line l) :
    (Linker.read_stdin (Linker.stdin_of lines) = some (.ok lines) ↔
      ∀ l ∈ lines, l.length + 1 < 1999) ∧
    (Linker.refused (Linker.read_stdin (Linker.stdin_of lines)) = true ↔
      ∃ l ∈ lines, 1999 ≤ l.length + 1) := by
  have hf : lines.length < (Linker.stdin_of lines).length + 1 := by
    have := Linker.stdin_of_length lines
    omega
  obtain ⟨h1, h2⟩ := Linker.read_loop_lines lines _ [] hclean hf
  simp only [List.nil_append] at h1
  unfold Linker.read_stdin
  constructor
  · constructor
    · intro hok
      by_contra hc
      push_neg at hc
      obtain ⟨l, hl, hlong⟩ := hc
      have := h2 ⟨l, hl, hlong⟩
      rw [hok] at this
      simp [Linker.refused] at this
    · exact h1
  · constructor
    · intro href
      by_contra hc
      push_neg at hc
      have := h1 (fun l hl => by have := hc l hl; omega)
      rw [this] at href
      simp [Linker.refused] at href
    · exact h2

/-- C10, witness: two short lines are queued without their newlines. -/
theorem C10_witness :
    (∀ l ∈ [[97, 98], [99]], Linker.clean_line l) ∧
    (Linker.read_stdin (Linker.stdin_of [[97, 98], [99]]) = some (.ok [[97, 98], [99]]) ↔
      ∀ l ∈ [[97, 98], [99]], l.length + 1 < 1999) :=
  ⟨by simp [Linker.clean_line, Linker.NL],
   (C10_line_limit [[97, 98], [99]] (by simp [Linker.clean_line, Linker.NL])).1⟩

/-! ## C11 : one link attempt per queued source -/

namespace Linker

theorem pop_batch_eq :
    ∀ (k : Nat) (work mywork : List (List Nat)),
      pop_batch k work mywork = (mywork ++ work.take k, work.drop k) := by
  intro k
  induction k with
  | zero => intro work mywork; simp [pop_batch]
  | succ k ih =>
    intro work mywork
    cases work with
    | nil => simp [pop_batch]
    | cons x rest => simp [pop_batch, ih]

theorem flatten_set_perm {α β : Type} (f : α → List β) (x : α) :
    ∀ (l : List α) (w : Nat) (y : α), l[w]? = some y →
      List.Perm (f y ++ ((l.set w x).map f).flatten) (f x ++ (l.map f).flatten) := by
  intro l
  induction l with
  | nil => intro w y h; simp at h
  | cons z zs ih =>
    intro w y h
    cases w with
    | zero =>
      simp at h; subst h
      simp only [List.set_cons_zero, List.map_cons, List.flatten_cons]
      rw [← List.append_assoc, ← List.append_assoc]
      exact List.Perm.append_right _ List.perm_append_comm
    | succ w =>
      simp at h
      have := ih w y h
      simp only [List.set_cons_succ, List.map_cons, List.flatten_cons]
      rw [← List.append_assoc, ← List.append_assoc]
      refine List.Perm.trans (List.Perm.append_right _ List.perm_append_comm) ?_
      rw [List.append_assoc]
      refine List.Perm.trans (List.Perm.append_left _ this) ?_
      rw [← List.append_assoc]
      exact List.Perm.append_right _ List.perm_append_comm

theorem held_set (workers : List Worker) (w : Nat) (x y : Worker) (h : workers[w]? = some y) :
    List.Perm (y.mywork ++ held (workers.set w x)) (x.mywork ++ held workers) :=
  flatten_set_perm Worker.mywork x workers w y h

theorem ln_not_exited_set {workers : List Worker} (h : Worker.exited ∉ workers) (w : Nat)
    (x : Worker) (hx : x ≠ Worker.exited) : Worker.exited ∉ workers.set w x := by
  intro hmem
  rcases List.mem_or_eq_of_mem_set hmem with h1 | h1
  · exact h h1
  · exact hx h1.symm

theorem link_one_rest {σ : Type} (os : OS σ) (st : State σ) (s : List Nat) :
    (link_one os st s).work = st.work ∧ (link_one os st s).workers = st.workers ∧
    (link_one os st s).wip_cnt = st.wip_cnt ∧ (link_one os st s).opt_d = st.opt_d ∧
    (link_one os st s).opt_n = st.opt_n ∧ (link_one os st s).work_eof = st.work_eof ∧
    (link_one os st s).trace = st.trace ++ [attempt st.opt_d s] := by
  unfold link_one
  simp only
  split <;> simp [attempt]

theorem linv_init {σ : Type} (fs : σ) (opt_d : List Nat) (opt_n : Int)
    (queue : List (List Nat)) (nthr : Nat) :
    LInv opt_d opt_n queue (init_state fs opt_d opt_n queue nthr) := by
  have hidle : ∀ x ∈ List.replicate nthr Worker.idle, x = Worker.idle := by
    intro x hx; simp at hx; exact hx.2
  have hheld : held (List.replicate nthr Worker.idle) = [] := by
    unfold held
    rw [List.flatten_eq_nil_iff]
    intro l hl
    rw [List.mem_map] at hl
    obtain ⟨x, hx, rfl⟩ := hl
    rw [hidle x hx]; rfl
  have hcount : (List.replicate nthr Worker.idle).countP Worker.is_busy = 0 := by
    rw [List.countP_eq_zero]
    intro x hx
    rw [hidle x hx]; simp [Worker.is_busy]
  refine ⟨?_, ?_, ?_, rfl, rfl, rfl⟩
  · simp [init_state, hheld]
  · simp [init_state, hcount]
  · intro h
    have := hidle _ h
    cases this

theorem linv_step {σ : Type} (os : OS σ) (opt_d : List Nat) (opt_n : Int)
    (queue : List (List Nat)) (st st' : State σ) (w : Nat) (h : LInv opt_d opt_n queue st)
    (hstep : walk_step os st w = some st') : LInv opt_d opt_n queue st' := by
  unfold walk_step at hstep
  split at hstep
  · cases hstep
  · cases hstep
  · rename_i hw
    have hcnt := Pfind.countP_set Worker.is_busy
    split at hstep
    · rename_i hwork
      split_ifs at hstep with hz
      · cases hstep
        have hp := held_set st.workers w Worker.exited _ hw
        simp only [Worker.mywork, List.nil_append] at hp
        have hc := hcnt Worker.exited st.workers w _ hw
        simp only [Worker.is_busy] at hc
        simp at hc
        refine ⟨?_, ?_, ?_, h.opt_d_eq, h.opt_n_eq, h.eof⟩
        · simp only [set_worker]
          refine List.Perm.trans ?_ h.perm
          exact List.Perm.append_left _ (List.Perm.map _ (List.Perm.append_left _ hp))
        · simp only [set_worker, hc]; exact h.wip
        · intro _; exact ⟨hwork, hz.1⟩
      · cases hstep; exact h
    · rename_i x rest hwork
      cases hstep
      have hnoexit : Worker.exited ∉ st.workers := by
        intro hmem
        have := (h.exit_ok hmem).1
        rw [hwork] at this; cases this
      have hb := pop_batch_eq st.opt_n.toNat (x :: rest) []
      simp only [List.nil_append] at hb
      have hp := held_set st.workers w
        (Worker.busy (pop_batch st.opt_n.toNat (x :: rest) []).1) _ hw
      simp only [Worker.mywork, List.nil_append] at hp
      have hc := hcnt (Worker.busy (pop_batch st.opt_n.toNat (x :: rest) []).1) st.workers w _ hw
      simp only [Worker.is_busy] at hc
      simp at hc
      refine ⟨?_, ?_, ?_, h.opt_d_eq, h.opt_n_eq, h.eof⟩
      · simp only [set_worker]
        refine List.Perm.trans ?_ h.perm
        refine List.Perm.append_left _ (List.Perm.map _ ?_)
        rw [hwork]
        refine List.Perm.trans (List.Perm.append_left _ hp) ?_
        rw [hb, ← List.append_assoc]
        refine List.Perm.append_right _ ?_
        refine List.Perm.trans List.perm_append_comm ?_
        rw [List.take_append_drop]
      · simp only [set_worker, hc, h.wip]; push_cast; ring
      · intro hmem
        exfalso
        exact ln_not_exited_set hnoexit w
          (Worker.busy (pop_batch st.opt_n.toNat (x :: rest) []).1) (by simp)
          (by simpa [set_worker] using hmem)
  · rename_i s mywork hw
    cases hstep
    obtain ⟨r1, r2, r3, r4, r5, r6, r7⟩ := link_one_rest os st s
    have hpos : 0 < st.workers.countP Worker.is_busy := by
      rw [List.countP_pos_iff]
      exact ⟨_, List.getElem?_mem hw, rfl⟩
    have hnoexit : Worker.exited ∉ st.workers := by
      intro hmem
      have := (h.exit_ok hmem).2
      rw [h.wip] at this
      omega
    have hp := held_set st.workers w (Worker.busy mywork) _ hw
    simp only [Worker.mywork] at hp
    have hc := Pfind.countP_set Worker.is_busy (Worker.busy mywork) st.workers w _ hw
    simp only [Worker.is_busy] at hc
    simp at hc
    refine ⟨?_, ?_, ?_, r4.trans h.opt_d_eq, r5.trans h.opt_n_eq, r6.trans h.eof⟩
    · simp only [set_worker, r1, r2, r7, h.opt_d_eq]
      refine List.Perm.trans ?_ h.perm
      rw [List.append_assoc]
      refine List.Perm.append_left _ ?_
      rw [List.singleton_append, ← List.map_cons]
      refine List.Perm.map _ ?_
      have h1 : List.Perm (mywork ++ (s :: held (st.workers.set w (Worker.busy mywork))))
          (mywork ++ held st.workers) := by
        refine List.Perm.trans ?_ hp
        exact List.perm_middle
      have h2 := (List.perm_append_left_iff mywork).mp h1
      refine List.Perm.trans List.perm_middle.symm ?_
      exact List.Perm.append_left _ h2
    · simp only [set_worker, r2, r3, hc]; exact h.wip
    · intro hmem
      exfalso
      simp only [set_worker, r2] at hmem
      exact ln_not_exited_set hnoexit w (Worker.busy mywork) (by simp) hmem
  · rename_i hw
    cases hstep
    have hpos : 0 < st.workers.countP Worker.is_busy := by
      rw [List.countP_pos_iff]
      exact ⟨_, List.getElem?_mem hw, rfl⟩
    have hnoexit : Worker.exited ∉ st.workers := by
      intro hmem
      have := (h.exit_ok hmem).2
      rw [h.wip] at this
      omega
    have hp := held_set st.workers w Worker.idle _ hw
    simp only [Worker.mywork, List.nil_append] at hp
    have hc := Pfind.countP_set Worker.is_busy Worker.idle st.workers w _ hw
    simp only [Worker.is_busy] at hc
    simp at hc
    refine ⟨?_, ?_, ?_, h.opt_d_eq, h.opt_n_eq, h.eof⟩
    · simp only [set_worker]
      refine List.Perm.trans ?_ h.perm
      exact List.Perm.append_left _ (List.Perm.map _ (List.Perm.append_left _ hp))
    · simp only [set_worker, h.wip]; omega
    · intro hmem
      exfalso
      exact ln_not_exited_set hnoexit w Worker.idle (by simp)
        (by simpa [set_worker] using hmem)

theorem linv_exec {σ : Type} (os : OS σ) (opt_d : List Nat) (opt_n : Int)
    (queue : List (List Nat)) (sched : List Nat) :
    ∀ (st : State σ), LInv opt_d opt_n queue st → LInv opt_d opt_n queue (exec os st sched) := by
  induction sched with
  | nil => intro st h; exact h
  | cons w ws ih =>
    intro st h
    simp only [exec]
    apply ih
    unfold step_or_stay
    cases hs : walk_step os st w with
    | none => exact h
    | some st' => exact linv_step os opt_d opt_n queue st st' w h hs

end Linker

namespace Linker

theorem ln_exec_append {σ : Type} (os : OS σ) (s1 s2 : List Nat) :
    ∀ st : State σ, exec os st (s1 ++ s2) = exec os (exec os st s1) s2 := by
  induction s1 with
  | nil => intro st; rfl
  | cons w ws ih => intro st; simp only [List.cons_append, exec]; exact ih _

theorem ln_exec_workers_length {σ : Type} (os : OS σ) (sched : List Nat) :
    ∀ (st : State σ), (exec os st sched).workers.length = st.workers.length := by
  induction sched with
  | nil => intro st; rfl
  | cons w ws ih =>
    intro st
    simp only [exec]
    rw [ih]
    unfold step_or_stay walk_step
    split
    · rfl
    · rfl
    · split
      · split_ifs <;> simp [set_worker]
      · simp [set_worker]
    · simp [set_worker, (link_one_rest os st _).2.1]
    · simp [set_worker]

/-- When every thread has exited, the links made are the links owed. -/
theorem ln_final {σ : Type} (opt_d : List Nat) (opt_n : Int) (queue : List (List Nat))
    (st : State σ) (h : LInv opt_d opt_n queue st) (hne : st.workers ≠ [])
    (hfin : all_exited st = true) :
    List.Perm st.trace (queue.map (attempt opt_d)) := by
  have hall : ∀ x ∈ st.workers, x = Worker.exited := by
    simpa [all_exited] using hfin
  have hex : Worker.exited ∈ st.workers := by
    cases hws : st.workers with
    | nil => exact absurd hws hne
    | cons x xs =>
      have := hall x (by simp [hws])
      simp [this]
  have hwork := (h.exit_ok hex).1
  have hheld : held st.workers = [] := by
    unfold held
    rw [List.flatten_eq_nil_iff]
    intro l hl
    rw [List.mem_map] at hl
    obtain ⟨x, hx, rfl⟩ := hl
    rw [hall x hx]; rfl
  have := h.perm
  simpa [hwork, hheld] using this

/-- A thread that holds a batch links its items one after the other. -/
theorem ln_links {σ : Type} (os : OS σ) (w : Nat) :
    ∀ (mywork : List (List Nat)) (st : State σ), st.workers[w]? = some (Worker.busy mywork) →
      (exec os st (List.replicate mywork.length w)).workers =
        st.workers.set w (Worker.busy []) ∧
      (exec os st (List.replicate mywork.length w)).work = st.work ∧
      (exec os st (List.replicate mywork.length w)).wip_cnt = st.wip_cnt ∧
      (exec os st (List.replicate mywork.length w)).opt_n = st.opt_n ∧
      (exec os st (List.replicate mywork.length w)).work_eof = st.work_eof := by
  intro mywork
  induction mywork with
  | nil =>
    intro st hw
    exact ⟨(Pfind.set_same _ _ _ hw).symm, rfl, rfl, rfl, rfl⟩
  | cons s rest ih =>
    intro st hw
    have hlt : w < st.workers.length := by
      by_contra hc
      rw [List.getElem?_eq_none (by omega)] at hw; cases hw
    have hstep : step_or_stay os st w = set_worker (link_one os st s) w (Worker.busy rest) := by
      simp [step_or_stay, walk_step, hw]
    obtain ⟨r1, r2, r3, -, r5, r6, -⟩ := link_one_rest os st s
    have hw1 : (step_or_stay os st w).workers[w]? = some (Worker.busy rest) := by
      rw [hstep]; simp [set_worker, r2, hlt]
    obtain ⟨e1, e2, e3, e4, e5⟩ := ih (step_or_stay os st w) hw1
    simp only [List.length_cons, List.replicate, exec]
    refine ⟨?_, ?_, ?_, ?_, ?_⟩
    · rw [e1, hstep]; simp only [set_worker, r2, List.set_set]
    · rw [e2, hstep]; simp only [set_worker, r1]
    · rw [e3, hstep]; simp only [set_worker, r3]
    · rw [e4, hstep]; simp only [set_worker, r5]
    · rw [e5, hstep]; simp only [set_worker, r6]

/-- A single thread empties the worklist when the batch size is positive. -/
theorem ln_drain {σ : Type} (os : OS σ) (w : Nat) :
    ∀ (k : Nat) (st : State σ), st.work.length ≤ k → st.workers[w]? = some Worker.idle →
      st.wip_cnt = 0 → 1 ≤ st.opt_n →
      ∃ sched, (exec os st sched).work = [] ∧ (exec os st sched).wip_cnt = 0 ∧
        (exec os st sched).workers = st.workers ∧
        (exec os st sched).work_eof = st.work_eof := by
  intro k
  induction k with
  | zero =>
    intro st hk hw hwip _
    have hnil : st.work = [] := List.length_eq_zero.mp (Nat.le_zero.mp hk)
    exact ⟨[], hnil, hwip, rfl, rfl⟩
  | succ m ih =>
    intro st hk hw hwip hn
    cases hwork : st.work with
    | nil => exact ⟨[], hwork, hwip, rfl, rfl⟩
    | cons x rest =>
      have hlt : w < st.workers.length := by
        by_contra hc
        rw [List.getElem?_eq_none (by omega)] at hw; cases hw
      have hb := pop_batch_eq st.opt_n.toNat (x :: rest) []
      simp only [List.nil_append] at hb
      have hstep1 : step_or_stay os st w =
          set_worker { st with work := (x :: rest).drop st.opt_n.toNat,
                               wip_cnt := st.wip_cnt + 1 } w
            (Worker.busy ((x :: rest).take st.opt_n.toNat)) := by
        simp [step_or_stay, walk_step, hw, hwork, hb]
      have hw1 : (step_or_stay os st w).workers[w]? =
          some (Worker.busy ((x :: rest).take st.opt_n.toNat)) := by
        rw [hstep1]; simp [set_worker, hlt]
      obtain ⟨e1, e2, e3, e4, e5⟩ := ln_links os w _ (step_or_stay os st w) hw1
      have hw2 : (exec os (step_or_stay os st w)
          (List.replicate ((x :: rest).take st.opt_n.toNat).length w)).workers[w]? =
          some (Worker.busy []) := by
        rw [e1, hstep1]; simp [set_worker, hlt]
      have hstep3 : ∀ (s2 : State σ), s2.workers[w]? = some (Worker.busy []) →
          step_or_stay os s2 w = set_worker { s2 with wip_cnt := s2.wip_cnt - 1 } w Worker.idle := by
        intro s2 h2
        simp [step_or_stay, walk_step, h2]
      have h3 := hstep3 _ hw2
      have hpos : 1 ≤ st.opt_n.toNat := by omega
      obtain ⟨sched3, f1, f2, f3, f4⟩ := ih
        (step_or_stay os (exec os (step_or_stay os st w)
          (List.replicate ((x :: rest).take st.opt_n.toNat).length w)) w)
        (by rw [h3]; simp only [set_worker, e2]
            rw [hstep1]; simp only [set_worker, List.length_drop]
            rw [hwork] at hk
            simp only [List.length_cons] at hk ⊢
            omega)
        (by rw [h3]; simp only [set_worker, e1]
            rw [hstep1]; simp [set_worker, hlt])
        (by rw [h3]; simp only [set_worker, e3]
            rw [hstep1]; simp [set_worker, hwip])
        (by rw [h3]; simp only [set_worker, e4]
            rw [hstep1]; simpa [set_worker] using hn)
      refine ⟨w :: (List.replicate ((x :: rest).take st.opt_n.toNat).length w ++ (w :: sched3)),
        ?_, ?_, ?_, ?_⟩
      · simp only [exec, ln_exec_append]; exact f1
      · simp only [exec, ln_exec_append]; exact f2
      · simp only [exec, ln_exec_append]
        rw [f3, h3]
        simp only [set_worker, e1]
        rw [hstep1]
        simp only [set_worker, List.set_set]
        exact Pfind.set_same _ _ _ hw
      · simp only [exec, ln_exec_append]
        rw [f4, h3]
        simp only [set_worker, e5]
        rw [hstep1]
        simp only [set_worker]

theorem ln_quiet_step {σ : Type} (os : OS σ) (st : State σ) (i : Nat) (hwork : st.work = [])
    (hwip : st.wip_cnt = 0) (heof : st.work_eof = 1)
    (hall : ∀ x ∈ st.workers, x = Worker.idle ∨ x = Worker.exited) :
    (step_or_stay os st i).work = [] ∧ (step_or_stay os st i).wip_cnt = 0 ∧
    (step_or_stay os st i).work_eof = 1 ∧
    (step_or_stay os st i).workers = st.workers.set i Worker.exited := by
  unfold step_or_stay walk_step
  cases hi : st.workers[i]? with
  | none =>
    simp only [Option.getD_none]
    refine ⟨hwork, hwip, heof, ?_⟩
    have : st.workers.length ≤ i := by
      by_contra hc
      rw [List.getElem?_eq_getElem (by omega)] at hi; cases hi
    rw [List.set_eq_of_length_le this]
  | some x =>
    rcases hall x (List.getElem?_mem hi) with rfl | rfl
    · simp [hwork, hwip, heof, set_worker]
    · simp only [Option.getD_none]
      exact ⟨hwork, hwip, heof, (Pfind.set_same _ _ _ hi).symm⟩

theorem ln_quiet_exec {σ : Type} (os : OS σ) (sched : List Nat) :
    ∀ (st : State σ), st.work = [] → st.wip_cnt = 0 → st.work_eof = 1 →
      (∀ x ∈ st.workers, x = Worker.idle ∨ x = Worker.exited) →
      (exec os st sched).workers =
        sched.foldl (fun ws i => ws.set i Worker.exited) st.workers := by
  induction sched with
  | nil => intro st _ _ _ _; rfl
  | cons i is ih =>
    intro st hwork hwip heof hall
    obtain ⟨h1, h2, h3, h4⟩ := ln_quiet_step os st i hwork hwip heof hall
    simp only [exec, List.foldl_cons]
    rw [ih _ h1 h2 h3, h4]
    intro x hx
    rw [h4] at hx
    rcases List.mem_or_eq_of_mem_set hx with hx | hx
    · exact hall x hx
    · exact Or.inr hx

theorem ln_mark_range (n : Nat) (ws : List Worker) :
    ((List.range n).foldl (fun ws i => ws.set i Worker.exited) ws).length = ws.length ∧
    ∀ i, i < n → i < ws.length →
      ((List.range n).foldl (fun ws i => ws.set i Worker.exited) ws)[i]? = some Worker.exited := by
  induction n with
  | zero => simp
  | succ m ih =>
    rw [List.range_succ, List.foldl_append]
    simp only [List.foldl_cons, List.foldl_nil, List.length_set]
    refine ⟨ih.1, ?_⟩
    intro i hi hlen
    rw [List.getElem?_set]
    split
    · simp [ih.1]; omega
    · exact ih.2 i (by omega) hlen

/-- With a positive batch size and at least one thread, some schedule lets
every thread exit. -/
theorem ln_complete_run_exists {σ : Type} (os : OS σ) (fs : σ) (opt_d : List Nat) (opt_n : Int)
    (queue : List (List Nat)) (nthr : Nat) (hn : 1 ≤ opt_n) (ht : 1 ≤ nthr) :
    ∃ sched, all_exited (exec os (init_state fs opt_d opt_n queue nthr) sched) = true := by
  obtain ⟨s1, h1, h2, h3, h4⟩ := ln_drain os 0 queue.length
    (init_state fs opt_d opt_n queue nthr) (Nat.le_refl _)
    (by simp only [init_state]; rw [List.getElem?_replicate]; simp; omega)
    rfl hn
  refine ⟨s1 ++ List.range nthr, ?_⟩
  rw [ln_exec_append]
  have hall : ∀ x ∈ (exec os (init_state fs opt_d opt_n queue nthr) s1).workers,
      x = Worker.idle ∨ x = Worker.exited := by
    intro x hx
    rw [h3] at hx
    simp [init_state] at hx
    exact Or.inl hx.2
  have hws := ln_quiet_exec os (List.range nthr) _ h1 h2 (h4.trans rfl) hall
  have hm := ln_mark_range nthr (init_state fs opt_d opt_n queue nthr).workers
  simp only [all_exited, List.all_eq_true, decide_eq_true_eq]
  rw [hws, h3]
  intro x hx
  obtain ⟨i, hi⟩ := List.getElem?_of_mem hx
  have hlen : i < ((List.range nthr).foldl (fun ws i => ws.set i Worker.exited)
      (init_state fs opt_d opt_n queue nthr).workers).length := by
    by_contra hc
    rw [List.getElem?_eq_none (by omega)] at hi; cases hi
  rw [hm.1] at hlen
  have hlen' : i < nthr := by simpa [init_state] using hlen
  have := hm.2 i hlen' hlen
  rw [this] at hi
  exact (Option.some.inj hi).symm

/-- The pop of a batch takes the first items of the worklist, at most
`opt_n` of them, and leaves the rest. -/
theorem ln_pop {σ : Type} (os : OS σ) (st st' : State σ) (w : Nat)
    (hw : st.workers[w]? = some Worker.idle) (hwork : st.work ≠ [])
    (hstep : walk_step os st w = some st') :
    st'.workers[w]? = some (Worker.busy (st.work.take st.opt_n.toNat)) ∧
    st'.work = st.work.drop st.opt_n.toNat ∧ st'.trace = st.trace ∧
    st'.wip_cnt = st.wip_cnt + 1 := by
  have hlt : w < st.workers.length := by
    by_contra hc
    rw [List.getElem?_eq_none (by omega)] at hw; cases hw
  unfold walk_step at hstep
  simp only [hw] at hstep
  cases hwk : st.work with
  | nil => exact absurd hwk hwork
  | cons x rest =>
    simp only [hwk, pop_batch_eq, List.nil_append, Option.some.injEq] at hstep
    subst hstep
    simp [set_worker, hlt]

end Linker

namespace Linker

theorem replay_snoc {σ : Type} (os : OS σ) (t : List (List Nat × List Nat))
    (sfrom sto : List Nat) :
    ∀ fs : σ, replay os fs (t ++ [(sfrom, sto)]) =
      ((os.link (replay os fs t).1 sfrom sto).2,
        (replay os fs t).2 ++
          (match (os.link (replay os fs t).1 sfrom sto).1 with
           | .error en => [Diag.link_failed en sfrom sto]
           | .ok _ => [])) := by
  induction t with
  | nil =>
    intro fs
    simp only [List.nil_append, replay]
    cases h : os.link fs sfrom sto with
    | mk res fs1 => cases res <;> simp
  | cons c cs ih =>
    intro fs
    obtain ⟨a, b⟩ := c
    simp only [List.cons_append, replay]
    cases h : os.link fs a b with
    | mk res fs1 => cases res <;> simp [ih]

/-- What `link_one` does to the state: one `link` call on the current
filesystem, whose answer decides the message and `rc`. -/
theorem link_one_effect {σ : Type} (os : OS σ) (st : State σ) (s : List Nat) :
    (link_one os st s).fs = (os.link st.fs s (target st.opt_d s)).2 ∧
    (link_one os st s).diag = st.diag ++
      (match (os.link st.fs s (target st.opt_d s)).1 with
       | .error en => [Diag.link_failed en s (target st.opt_d s)]
       | .ok _ => []) ∧
    (link_one os st s).rc =
      (match (os.link st.fs s (target st.opt_d s)).1 with
       | .error _ => 1
       | .ok _ => st.rc) := by
  unfold link_one
  simp only
  cases h : os.link st.fs s (target st.opt_d s) with
  | mk res fs1 => cases res <;> simp

theorem replayed_link_one {σ : Type} (os : OS σ) (fs0 : σ) (st : State σ) (s : List Nat)
    (h : Replayed os fs0 st) : Replayed os fs0 (link_one os st s) := by
  obtain ⟨hfs, hdiag, hrc⟩ := h
  obtain ⟨e1, e2, e3⟩ := link_one_effect os st s
  have htr := (link_one_rest os st s).2.2.2.2.2.2
  unfold Replayed
  rw [htr, attempt, replay_snoc, e1, e2, e3, ← hfs, ← hdiag]
  refine ⟨rfl, rfl, ?_⟩
  cases h : os.link st.fs s (target st.opt_d s) with
  | mk res fs1 =>
    cases res with
    | error en => simp
    | ok u => simpa using hrc

theorem replayed_step {σ : Type} (os : OS σ) (fs0 : σ) (st st' : State σ) (w : Nat)
    (h : Replayed os fs0 st) (hstep : walk_step os st w = some st') : Replayed os fs0 st' := by
  unfold walk_step at hstep
  split at hstep
  · cases hstep
  · cases hstep
  · split at hstep
    · split_ifs at hstep <;> (cases hstep; exact h)
    · cases hstep; exact h
  · cases hstep
    exact replayed_link_one os fs0 st _ h
  · cases hstep; exact h

theorem replayed_exec {σ : Type} (os : OS σ) (fs0 : σ) (sched : List Nat) :
    ∀ (st : State σ), Replayed os fs0 st → Replayed os fs0 (exec os st sched) := by
  induction sched with
  | nil => intro st h; exact h
  | cons w ws ih =>
    intro st h
    simp only [exec]
    apply ih
    unfold step_or_stay
    cases hs : walk_step os st w with
    | none => exact h
    | some st' => exact replayed_step os fs0 st st' w h hs

theorem replayed_init {σ : Type} (os : OS σ) (fs : σ) (opt_d : List Nat) (opt_n : Int)
    (queue : List (List Nat)) (nthr : Nat) :
    Replayed os fs (init_state fs opt_d opt_n queue nthr) :=
  ⟨rfl, rfl, rfl⟩

/-- The step of a thread that holds the item `s`: the `link` call for `s`. -/
theorem ln_link_step {σ : Type} (os : OS σ) (st st' : State σ) (w : Nat) (s : List Nat)
    (rest : List (List Nat)) (hw : st.workers[w]? = some (Worker.busy (s :: rest)))
    (hstep : walk_step os st w = some st') :
    st' = set_worker (link_one os st s) w (Worker.busy rest) ∧
    st'.workers[w]? = some (Worker.busy rest) := by
  have hlt : w < st.workers.length := by
    by_contra hc
    rw [List.getElem?_eq_none (by omega)] at hw; cases hw
  unfold walk_step at hstep
  simp only [hw, Option.some.injEq] at hstep
  subst hstep
  exact ⟨rfl, by simp [set_worker, (link_one_rest os st s).2.1, hlt]⟩

end Linker

/-- C11: for every list of queued source paths, every batch size `opt_n ≥ 1`
and every number of threads (at least one), a complete linker run exists, and
the `link` calls of every complete run are, up to order, exactly one
`link(s, opt_d + "/" + s)` per queued source `s`: none dropped, none twice.
Each batched pop takes the first `min(opt_n, queue length)` items in FIFO
order and leaves the rest queued.  The calls are calls of the system: the
step of a thread that holds the item `s` calls `link(s, opt_d + "/" + s)` on
the current filesystem, takes the filesystem the call leaves, and on failure
appends the message and sets `rc` to 1; so after every schedule the
filesystem and the diagnostic stream are those the recorded calls, made in
that order from the initial filesystem, produce, and `rc` is 1 exactly if one
of them failed.  The same holds for the run `main` starts on the worklist it
reads from standard input, and for the filesystem, the diagnostic stream and
the exit code `main` returns. -/
theorem C11_one_attempt_per_source {σ : Type} (os : Linker.OS σ) (fs : σ) (opt_d : List Nat)
    (opt_n : Int) (queue : List (List Nat)) (nthr : Nat) (hn : 1 ≤ opt_n) (ht : 1 ≤ nthr) :
    (∃ sched, Linker.all_exited
      (Linker.exec os (Linker.init_state fs opt_d opt_n queue nthr) sched) = true) ∧
    (∀ sched, Linker.all_exited
        (Linker.exec os (Linker.init_state fs opt_d opt_n queue nthr) sched) = true →
      List.Perm (Linker.exec os (Linker.init_state fs opt_d opt_n queue nthr) sched).trace
        (queue.map fun s => (s, opt_d ++ [Linker.SLASH] ++ s))) ∧
    (∀ sched st (w : Nat) st',
      st = Linker.exec os (Linker.init_state fs opt_d opt_n queue nthr) sched →
      st.workers[w]? = some Linker.Worker.idle → st.work ≠ [] →
      Linker.walk_step os st w = some st' →
      st'.workers[w]? = some (Linker.Worker.busy (st.work.take opt_n.toNat)) ∧
      st'.work = st.work.drop opt_n.toNat ∧ st'.trace = st.trace ∧
      (st.work.take opt_n.toNat).length = min opt_n.toNat st.work.length) ∧
    (∀ input work sched r, Linker.read_stdin input = some (.ok work) →
      (Linker.cstr opt_d).length ≠ 0 →
      Linker.main os fs opt_d opt_n input nthr sched = some r →
      List.Perm r.trace (work.map fun s => (s, opt_d ++ [Linker.SLASH] ++ s)) ∧
      r.fs = (Linker.replay os fs r.trace).1 ∧
      r.diag = (Linker.replay os fs r.trace).2 ∧
      r.code = (if r.diag.isEmpty then 0 else 1)) ∧
    (∀ sched st (w : Nat) (s : List Nat) (rest : List (List Nat)) st',
      st = Linker.exec os (Linker.init_state fs opt_d opt_n queue nthr) sched →
      st.workers[w]? = some (Linker.Worker.busy (s :: rest)) →
      Linker.walk_step os st w = some st' →
      st'.workers[w]? = some (Linker.Worker.busy rest) ∧
      st'.work = st.work ∧
      st'.trace = st.trace ++ [(s, opt_d ++ [Linker.SLASH] ++ s)] ∧
      st'.fs = (os.link st.fs s (opt_d ++ [Linker.SLASH] ++ s)).2 ∧
      (∀ en, (os.link st.fs s (opt_d ++ [Linker.SLASH] ++ s)).1 = .error en →
        st'.rc = 1 ∧
        st'.diag = st.diag ++ [Linker.Diag.link_failed en s (opt_d ++ [Linker.SLASH] ++ s)]) ∧
      ((os.link st.fs s (opt_d ++ [Linker.SLASH] ++ s)).1 = .ok () →
        st'.rc = st.rc ∧ st'.diag = st.diag)) ∧
    (∀ sched,
      (Linker.exec os (Linker.init_state fs opt_d opt_n queue nthr) sched).fs =
        (Linker.replay os fs
          (Linker.exec os (Linker.init_state fs opt_d opt_n queue nthr) sched).trace).1 ∧
      (Linker.exec os (Linker.init_state fs opt_d opt_n queue nthr) sched).diag =
        (Linker.replay os fs
          (Linker.exec os (Linker.init_state fs opt_d opt_n queue nthr) sched).trace).2 ∧
      (Linker.exec os (Linker.init_state fs opt_d opt_n queue nthr) sched).rc =
        (if (Linker.exec os (Linker.init_state fs opt_d opt_n queue nthr) sched).diag.isEmpty
          then 0 else 1)) := by
  have hfinal : ∀ (q : List (List Nat)) (sched : List Nat),
      Linker.all_exited (Linker.exec os (Linker.init_state fs opt_d opt_n q nthr) sched) = true →
      List.Perm (Linker.exec os (Linker.init_state fs opt_d opt_n q nthr) sched).trace
        (q.map fun s => (s, opt_d ++ [Linker.SLASH] ++ s)) := by
    intro q sched hfin
    have hinv := Linker.linv_exec os opt_d opt_n q sched _
      (Linker.linv_init fs opt_d opt_n q nthr)
    have hne : (Linker.exec os (Linker.init_state fs opt_d opt_n q nthr) sched).workers ≠ [] := by
      intro hnil
      have := Linker.ln_exec_workers_length os sched (Linker.init_state fs opt_d opt_n q nthr)
      rw [hnil] at this
      simp [Linker.init_state] at this
      omega
    exact Linker.ln_final opt_d opt_n q _ hinv hne hfin
  have hrep : ∀ (q : List (List Nat)) (sched : List Nat),
      Linker.Replayed os fs (Linker.exec os (Linker.init_state fs opt_d opt_n q nthr) sched) :=
    fun q sched => Linker.replayed_exec os fs sched _
      (Linker.replayed_init os fs opt_d opt_n q nthr)
  refine ⟨Linker.ln_complete_run_exists os fs opt_d opt_n queue nthr hn ht,
    hfinal queue, ?_, ?_, ?_, fun sched => hrep queue sched⟩
  · intro sched st w st' hst hw hwork hstep
    have hinv : Linker.LInv opt_d opt_n queue st :=
      hst ▸ Linker.linv_exec os opt_d opt_n queue sched _
        (Linker.linv_init fs opt_d opt_n queue nthr)
    obtain ⟨h1, h2, h3, -⟩ := Linker.ln_pop os st st' w hw hwork hstep
    rw [hinv.opt_n_eq] at h1 h2
    exact ⟨h1, h2, h3, List.length_take _ _⟩
  · intro input work sched r hread hd hmain
    have hne : nthr ≠ 0 := by omega
    unfold Linker.main at hmain
    rw [if_neg hd] at hmain
    simp only [hread, hne, if_false] at hmain
    by_cases hfin : Linker.all_exited
        (Linker.exec os (Linker.init_state fs opt_d opt_n work nthr) sched) = true
    · rw [if_pos hfin] at hmain
      cases hmain
      obtain ⟨r1, r2, r3⟩ := hrep work sched
      exact ⟨hfinal work sched hfin, r1, r2, r3⟩
    · rw [if_neg hfin] at hmain
      cases hmain
  · intro sched st w s rest st' hst hw hstep
    have hinv : Linker.LInv opt_d opt_n queue st :=
      hst ▸ Linker.linv_exec os opt_d opt_n queue sched _
        (Linker.linv_init fs opt_d opt_n queue nthr)
    obtain ⟨heq, hws⟩ := Linker.ln_link_step os st st' w s rest hw hstep
    obtain ⟨e1, e2, e3⟩ := Linker.link_one_effect os st s
    obtain ⟨l1, -, -, -, -, -, l7⟩ := Linker.link_one_rest os st s
    have hod := hinv.opt_d_eq
    simp only [Linker.target, Linker.attempt, hod] at e1 e2 e3 l7
    refine ⟨hws, ?_, ?_, ?_, ?_, ?_⟩
    · rw [heq]; exact l1
    · rw [heq]; exact l7
    · rw [heq]; exact e1
    · intro en hen
      rw [heq]
      constructor
      · show (Linker.link_one os st s).rc = 1
        rw [e3, hen]
      · show (Linker.link_one os st s).diag = _
        rw [e2, hen]
    · intro hok
      rw [heq]
      constructor
      · show (Linker.link_one os st s).rc = _
        rw [e3, hok]
      · show (Linker.link_one os st s).diag = _
        rw [e2, hok]
        simp

/-- C11, witness: three sources, batches of two, two threads, on a system
where every `link` succeeds: the filesystem has taken three links; and a
source queued twice on a system where a target can be made once only: the
second call fails, which is reported, and the exit code is 1. -/
theorem C11_witness :
    (1 : Int) ≤ 2 ∧ 1 ≤ 2 ∧
    (∃ sched, Linker.all_exited
      (Linker.exec Linker.ok_os (Linker.init_state 0 [100] 2 [[97], [98], [99]] 2) sched) = true) ∧
    (∀ sched, Linker.all_exited
        (Linker.exec Linker.ok_os (Linker.init_state 0 [100] 2 [[97], [98], [99]] 2) sched) = true →
      List.Perm
        (Linker.exec Linker.ok_os (Linker.init_state 0 [100] 2 [[97], [98], [99]] 2) sched).trace
        ([[97], [98], [99]].map fun s => (s, [100] ++ [Linker.SLASH] ++ s))) ∧
    (Linker.exec Linker.ok_os (Linker.init_state 0 [100] 2 [[97], [98], [99]] 2)
      [0, 1, 0, 1, 0, 0, 1, 1, 0, 1]).trace =
      [([97], [100, 47, 97]), ([99], [100, 47, 99]), ([98], [100, 47, 98])] ∧
    (Linker.exec Linker.ok_os (Linker.init_state 0 [100] 2 [[97], [98], [99]] 2)
      [0, 1, 0, 1, 0, 0, 1, 1, 0, 1]).fs = 3 ∧
    ((Linker.main Linker.target_os [] [100] 2 [97, 10, 97, 10] 2 [0, 0, 0, 0, 0, 1]).map
      fun r => (r.code, r.diag, r.trace, r.fs)) =
      some (1, [Linker.Diag.link_failed Linker.EEXIST [97] [100, 47, 97]],
        [([97], [100, 47, 97]), ([97], [100, 47, 97])], [[100, 47, 97]]) :=
  ⟨by decide, by decide,
   (C11_one_attempt_per_source Linker.ok_os 0 [100] 2 [[97], [98], [99]] 2
      (by decide) (by decide)).1,
   (C11_one_attempt_per_source Linker.ok_os 0 [100] 2 [[97], [98], [99]] 2
      (by decide) (by decide)).2.1,
   by decide, by decide, rfl⟩

end Pfind
